import Mathlib

/-!
# Hand-lowered coroutines `f` and `g`: a shallow embedding

The repository lowers two coroutines by hand into frame / resume / destroy
triples (`src/f.cpp`, `src/g.cpp`) on top of a small `<coroutine>` replacement
and the `task` type (`src/defs.hpp`).

The embedding below follows the C++ text function by function.

* The free store is a map from addresses (natural numbers) to frames together
  with a bump pointer; `new` always succeeds and never hands out an address twice.
  The definitions `f_bounded`, `__g_resume_bounded` and `call_resume_bounded`
  drop the first assumption: there `new` raises `std::bad_alloc` once the bump
  pointer has reached a bound, and with room below the bound they are `f`,
  `__g_resume` and `call_resume`.
* Every function that touches the free store takes the machine and returns
  the new machine inside `Except Fault`; a `Fault` is behaviour the C++
  standard leaves undefined (a call through a null function pointer, a use of
  a deleted frame, `std::unreachable()`), or an exhausted fuel counter.
* A C++ exception is a value of `Exn`; a function that may throw returns
  `Except Exn _` next to the machine.
* `int` is 32 bits wide; the one arithmetic operation of the program,
  `fx * fx`, is reduced into that range.
* The machine carries a log of the calls the properties speak about
  (allocation, `construct_from`, `destroy`, entry into a resume or destroy
  function, writes of the promise).  The newest event is the head of the log.
-/

namespace Coro

/-! ## Data model -/

/-- A value of type `__coroutine_state *`, the representation of a
`coroutine_handle`: the null pointer, the address of
`__coroutine_state::__noop_coroutine`, or the address of a frame. -/
inductive Ptr where
  | null
  | noop
  | frame (a : Nat)
  deriving DecidableEq, Repr

/-- An exception object: one raised by user code, the
`std::bad_variant_access` that `std::get` raises, or the `std::bad_alloc`
that `operator new` raises. -/
inductive Exn where
  | user (e : Nat)
  | bad_variant_access
  | bad_alloc
  deriving DecidableEq, Repr

/-- The variant `std::variant<std::monostate, int, std::exception_ptr>`.  The
exception pointer of the third alternative may be null (`none`). -/
inductive Result where
  | monostate
  | value (v : Int)
  | error (p : Option Exn)
  deriving DecidableEq, Repr

/-- The index of the active alternative, `std::variant::index()`. -/
def Result.index : Result → Nat
  | .monostate => 0
  | .value _ => 1
  | .error _ => 2

/-- The two pairs of entry points a frame can carry in `__resume` and
`__destroy`: those of `f.cpp` and those of `g.cpp`. -/
inductive Code where
  | f
  | g
  deriving DecidableEq, Repr

/-- The manual-lifetime members of `__f_state` and `__g_state`. -/
inductive Slot where
  | tmp1
  | tmp2
  | tmp3
  | tmp4
  deriving DecidableEq, Repr

/-- The class `task`: its only member is `coro_`. -/
structure task where
  coro_ : Ptr
  deriving DecidableEq, Repr

/-- The structs `__f_state` and `__g_state`.  `__resume = none` is the null
function pointer.  `__tmp2` and `__tmp3` hold the `task` and the
`task::awaiter` living in the slot, `none` when the slot holds no object
(`__f_state` has neither slot).  `__tmp1` and `__tmp4` hold empty classes and
have no content. -/
structure Frame where
  __resume : Option Code
  __destroy : Code
  continuation_ : Ptr
  result_ : Result
  __suspend_point : Int
  x : Int
  __tmp2 : Option task
  __tmp3 : Option Ptr
  deriving DecidableEq, Repr

/-- The place of a `delete state`: the tail of a resume function or the end
of a destroy function. -/
inductive Site where
  | resume_tail
  | destroy_state
  deriving DecidableEq, Repr

/-- The calls the log records, each with the address of the frame it acts
on. -/
inductive Event where
  | alloc (a : Nat) (c : Code)
  | free (a : Nat) (s : Site)
  | construct (a : Nat) (s : Slot)
  | destroy (a : Nat) (s : Slot)
  | enter_resume (a : Nat) (sp : Int)
  | leave_resume (a : Nat) (next : Ptr)
  | enter_destroy (a : Nat) (sp : Int)
  | leave_destroy (a : Nat)
  | return_value (a : Nat) (v : Int)
  | unhandled_exception (a : Nat) (e : Exn)
  | set_continuation (a : Nat) (h : Ptr)
  deriving DecidableEq, Repr

/-- Undefined behaviour the embedding detects, and fuel exhaustion. -/
inductive Fault where
  | null_handle
  | noop_frame
  | no_frame (a : Nat)
  | resume_null (a : Nat)
  | unreachable (a : Nat)
  | empty_slot (a : Nat) (s : Slot)
  | null_exception
  | dead_object (i : Nat)
  | out_of_fuel
  deriving DecidableEq, Repr

/-- The free store (`heap a = none` when no frame lives at `a`), the next
address `new` hands out, and the log, newest event first. -/
structure Machine where
  heap : Nat → Option Frame
  next : Nat
  log : List Event

def Machine.init : Machine :=
  { heap := fun _ => none, next := 0, log := [] }

def Machine.get (m : Machine) (a : Nat) : Except Fault Frame :=
  match m.heap a with
  | some fr => .ok fr
  | none => .error (.no_frame a)

def Machine.set (m : Machine) (a : Nat) (fr : Frame) : Machine :=
  { m with heap := Function.update m.heap a (some fr) }

def Machine.emit (m : Machine) (e : Event) : Machine :=
  { m with log := e :: m.log }

/-- The frame a handle to a promise-bearing coroutine state points to. -/
def Machine.deref (m : Machine) (p : Ptr) : Except Fault (Nat × Frame) :=
  match p with
  | .null => .error .null_handle
  | .noop => .error .noop_frame
  | .frame a =>
    match m.heap a with
    | some fr => .ok (a, fr)
    | none => .error (.no_frame a)

/-- The statement `delete state`. -/
def Machine.delete (m : Machine) (a : Nat) (s : Site) : Except Fault Machine :=
  match m.heap a with
  | none => .error (.no_frame a)
  | some _ =>
    .ok { m with heap := Function.update m.heap a none, log := .free a s :: m.log }

def INT_MIN : Int := -2147483648

def INT_MAX : Int := 2147483647

/-- Reduction of an integer into the range of a 32-bit `int`: the value a
two's-complement machine computes for an `int` operation whose exact result
is `n` (C++ leaves the overflowing case undefined). -/
def wrap_int (n : Int) : Int :=
  (n + 2147483648) % 4294967296 - 2147483648

/-! ## The `<coroutine>` replacement and the `task` type (`defs.hpp`) -/

/-- The conversion `coroutine_handle::operator bool`. -/
def coroutine_handle.to_bool (h : Ptr) : Bool :=
  h != .null

/-- The member `coroutine_handle<void>::done`: `state_->__resume == nullptr`.
The no-op state carries `__noop_resume`, which is not null. -/
def coroutine_handle.done (h : Ptr) (m : Machine) : Except Fault Bool :=
  match h with
  | .null => .error .null_handle
  | .noop => .ok false
  | .frame a =>
    match m.heap a with
    | some fr => .ok (fr.__resume == none)
    | none => .error (.no_frame a)

def suspend_always.await_ready : Bool :=
  false

def suspend_always.await_suspend (_h : Ptr) (m : Machine) : Machine :=
  m

def suspend_always.await_resume (m : Machine) : Machine :=
  m

def final_awaiter.await_ready : Bool :=
  false

/-- The member `final_awaiter::await_suspend`: `h.promise().continuation_`. -/
def final_awaiter.await_suspend (h : Ptr) (m : Machine) : Except Fault Ptr := do
  let (_, fr) ← m.deref h
  .ok fr.continuation_

def final_awaiter.await_resume (m : Machine) : Machine :=
  m

/-- The member `promise_type::get_return_object` of the promise of frame `a`. -/
def promise_type.get_return_object (a : Nat) : task :=
  { coro_ := .frame a }

/-- The member `promise_type::return_value`: `result_ = result`. -/
def promise_type.return_value (a : Nat) (result : Int) (m : Machine) :
    Except Fault Machine := do
  let fr ← m.get a
  .ok ((m.set a { fr with result_ := .value result }).emit (.return_value a result))

/-- The member `promise_type::unhandled_exception`:
`result_ = std::current_exception()`, where `e` is the exception in flight. -/
def promise_type.unhandled_exception (a : Nat) (e : Exn) (m : Machine) :
    Except Fault Machine := do
  let fr ← m.get a
  .ok ((m.set a { fr with result_ := .error (some e) }).emit (.unhandled_exception a e))

def awaiter.await_ready : Bool :=
  false

/-- The member `task::awaiter::await_suspend`:
`coro_.promise().continuation_ = h; return coro_;`. -/
def awaiter.await_suspend (coro_ : Ptr) (h : Ptr) (m : Machine) :
    Except Fault (Ptr × Machine) := do
  let (a, fr) ← m.deref coro_
  .ok (coro_, (m.set a { fr with continuation_ := h }).emit (.set_continuation a h))

/-- The member `task::awaiter::await_resume`.  With `result_.index() == 2` the
stored exception pointer is moved out of the variant (which leaves a null
pointer behind) and rethrown; otherwise `std::get<1>` returns the stored
value, and raises `std::bad_variant_access` when the variant is empty. -/
def awaiter.await_resume (coro_ : Ptr) (m : Machine) :
    Except Fault (Except Exn Int × Machine) := do
  let (a, fr) ← m.deref coro_
  match fr.result_ with
  | .error (some e) => .ok (.error e, m.set a { fr with result_ := .error none })
  | .error none => .error .null_exception
  | .value v => .ok (.ok v, m)
  | .monostate => .ok (.error .bad_variant_access, m)

/-- The move constructor `task(task && t)`: the new task and what is left of
`t`. -/
def task.move_ctor (t : task) : task × task :=
  ({ coro_ := t.coro_ }, { coro_ := .null })

/-- The destructor `~task()`: `if (coro_) coro_.destroy();`.  `D` is the member
`coroutine_handle::destroy`. -/
def task.dtor (D : Ptr → Machine → Except Fault Machine) (t : task) (m : Machine) :
    Except Fault Machine :=
  if coroutine_handle.to_bool t.coro_ then D t.coro_ m else .ok m

/-- The member `operator co_await`: `awaiter{coro_}`, represented by the
handle the awaiter holds. -/
def task.co_await (t : task) : Ptr :=
  t.coro_

/-- The member `manual_lifetime<T>::construct_from` on slot `s` of frame `a`;
`store` places the object the factory returned. -/
def manual_lifetime.construct_from (a : Nat) (s : Slot) (store : Frame → Frame)
    (m : Machine) : Except Fault Machine := do
  let fr ← m.get a
  .ok ((m.set a (store fr)).emit (.construct a s))

/-- The member `manual_lifetime<T>::destroy` for a trivially destructible `T`
(`std::suspend_always`, `task::awaiter`, `final_awaiter`): `std::destroy_at`
runs no code; `clear` records that the slot holds no object any more. -/
def manual_lifetime.destroy (a : Nat) (s : Slot) (clear : Frame → Frame)
    (m : Machine) : Except Fault Machine := do
  let fr ← m.get a
  .ok ((m.set a (clear fr)).emit (.destroy a s))

/-- The member `manual_lifetime<task>::destroy` on `__s1.__tmp2` of frame `a`:
`std::destroy_at` runs `~task()`. -/
def manual_lifetime.destroy_task (D : Ptr → Machine → Except Fault Machine) (a : Nat)
    (m : Machine) : Except Fault Machine := do
  let fr ← m.get a
  match fr.__tmp2 with
  | none => .error (.empty_slot a .tmp2)
  | some t =>
    task.dtor D t ((m.set a { fr with __tmp2 := none }).emit (.destroy a .tmp2))

/-- The destructor of the primary template `destructor_guard<T>`:
`if (ptr_ != nullptr) ptr_->destroy();`.  `cancel` sets `ptr_` to null. -/
def destructor_guard.dtor (ptr_destroy : Machine → Except Fault Machine)
    (cancelled : Bool) (m : Machine) : Except Fault Machine :=
  if cancelled then .ok m else ptr_destroy m

/-- The partial specialisation of `destructor_guard` for trivially
destructible types has no destructor and an empty `cancel`. -/
def destructor_guard_trivial.dtor (m : Machine) : Machine :=
  m

/-! ## The lowering of `f` (`f.cpp`) and of `g` (`g.cpp`) -/

/-- The expression `new __f_state(x)`: the allocation and the constructor of
`__f_state`, which sets the two function pointers, copies the argument and
constructs the promise (`continuation_` null, `result_` empty). -/
def __f_state.new (x : Int) (m : Machine) : Nat × Machine :=
  (m.next,
    { heap := Function.update m.heap m.next
        (some { __resume := some .f, __destroy := .f, continuation_ := .null,
                result_ := .monostate, __suspend_point := 0, x := x,
                __tmp2 := none, __tmp3 := none }),
      next := m.next + 1,
      log := .alloc m.next .f :: m.log })

/-- The expression `new __g_state(x)`. -/
def __g_state.new (x : Int) (m : Machine) : Nat × Machine :=
  (m.next,
    { heap := Function.update m.heap m.next
        (some { __resume := some .g, __destroy := .g, continuation_ := .null,
                result_ := .monostate, __suspend_point := 0, x := x,
                __tmp2 := none, __tmp3 := none }),
      next := m.next + 1,
      log := .alloc m.next .g :: m.log })

/-- The block after the label `final_suspend` of `__f_resume` (with
`index = 1`) and of `__g_resume` (with `index = 2`).  The guard `tmp4_dtor`
is of the trivial specialisation. -/
def final_suspend (s : Nat) (index : Int) (m : Machine) : Except Fault (Ptr × Machine) := do
  let m ← manual_lifetime.construct_from s .tmp4 id m
  if !final_awaiter.await_ready then
    let state ← m.get s
    let m := m.set s { state with __suspend_point := index, __resume := none }
    let h ← final_awaiter.await_suspend (.frame s) m
    let m := destructor_guard_trivial.dtor m
    .ok (h, m.emit (.leave_resume s h))
  else
    let m := final_awaiter.await_resume m
    let m := destructor_guard_trivial.dtor m
    let m ← m.delete s .resume_tail
    .ok (.noop, m.emit (.leave_resume s .noop))

/-- The function `__f_resume`.  Nothing in its `try` block can throw, so the
handler is not entered. -/
def __f_resume (s : Nat) (m : Machine) : Except Fault (Ptr × Machine) := do
  let state ← m.get s
  let m := m.emit (.enter_resume s state.__suspend_point)
  if state.__suspend_point = 0 then
    let m := suspend_always.await_resume m
    let m := destructor_guard_trivial.dtor m
    let m ← promise_type.return_value s state.x m
    final_suspend s 1 m
  else
    .error (.unreachable s)

/-- The ramp function `f`. -/
def f (x : Int) (m : Machine) : Except Fault (task × Machine) := do
  let (state, m) := __f_state.new x m
  let return_obj := promise_type.get_return_object state
  let m ← manual_lifetime.construct_from state .tmp1 id m
  if !suspend_always.await_ready then
    let m := suspend_always.await_suspend (.frame state) m
    .ok (return_obj, m)
  else
    let (_, m) ← __f_resume state m
    .ok (return_obj, m)

/-- The function `__f_destroy`. -/
def __f_destroy (s : Nat) (m : Machine) : Except Fault Machine := do
  let state ← m.get s
  let m := m.emit (.enter_destroy s state.__suspend_point)
  if state.__suspend_point = 0 then
    let m ← manual_lifetime.destroy s .tmp1 id m
    let m ← m.delete s .destroy_state
    .ok (m.emit (.leave_destroy s))
  else if state.__suspend_point = 1 then
    let m ← manual_lifetime.destroy s .tmp4 id m
    let m ← m.delete s .destroy_state
    .ok (m.emit (.leave_destroy s))
  else
    .error (.unreachable s)

/-- The function `__g_destroy`. -/
def __g_destroy (D : Ptr → Machine → Except Fault Machine) (s : Nat) (m : Machine) :
    Except Fault Machine := do
  let state ← m.get s
  let m := m.emit (.enter_destroy s state.__suspend_point)
  if state.__suspend_point = 0 then
    let m ← manual_lifetime.destroy s .tmp1 id m
    let m ← m.delete s .destroy_state
    .ok (m.emit (.leave_destroy s))
  else if state.__suspend_point = 1 then
    let m ← manual_lifetime.destroy s .tmp3 (fun fr => { fr with __tmp3 := none }) m
    let m ← manual_lifetime.destroy_task D s m
    let m ← m.delete s .destroy_state
    .ok (m.emit (.leave_destroy s))
  else if state.__suspend_point = 2 then
    let m ← manual_lifetime.destroy s .tmp4 id m
    let m ← m.delete s .destroy_state
    .ok (m.emit (.leave_destroy s))
  else
    .error (.unreachable s)

/-- The member `coroutine_handle<void>::destroy`: `state_->__destroy(state_)`,
a call through the function pointer of the frame.  The fuel bounds the depth
of nested destroy calls. -/
def coroutine_handle.destroy : Nat → Ptr → Machine → Except Fault Machine
  | 0, _, _ => .error .out_of_fuel
  | fuel + 1, h, m =>
    match h with
    | .null => .error .null_handle
    | .noop => .ok m
    | .frame a =>
      match m.heap a with
      | none => .error (.no_frame a)
      | some fr =>
        match fr.__destroy with
        | .f => __f_destroy a m
        | .g => __g_destroy (coroutine_handle.destroy fuel) a m

/-- The part of `__g_resume` from the label `suspend_point_1` on: the lambda
with its two guards (`tmp2_dtor` of the primary template, `tmp3_dtor` of the
trivial specialisation), `return_value(fx * fx)`, the handler
`catch (...)` for an exception leaving the lambda, and the final suspend
point. -/
def __g_suspend_point_1 (fuel : Nat) (s : Nat) (m : Machine) :
    Except Fault (Ptr × Machine) := do
  let state ← m.get s
  match state.__tmp3 with
  | none => .error (.empty_slot s .tmp3)
  | some tmp3 =>
    let (r, m) ← awaiter.await_resume tmp3 m
    let m := destructor_guard_trivial.dtor m
    let m ← destructor_guard.dtor
      (manual_lifetime.destroy_task (coroutine_handle.destroy fuel) s) false m
    match r with
    | .ok fx =>
      let m ← promise_type.return_value s (wrap_int (fx * fx)) m
      final_suspend s 2 m
    | .error e =>
      let m ← promise_type.unhandled_exception s e m
      final_suspend s 2 m

/-- The function `__g_resume`. -/
def __g_resume (fuel : Nat) (s : Nat) (m : Machine) : Except Fault (Ptr × Machine) := do
  let state ← m.get s
  let m := m.emit (.enter_resume s state.__suspend_point)
  if state.__suspend_point = 0 then
    let m := suspend_always.await_resume m
    let m := destructor_guard_trivial.dtor m
    let (t, m) ← f state.x m
    let m ← manual_lifetime.construct_from s .tmp2 (fun fr => { fr with __tmp2 := some t }) m
    let state ← m.get s
    match state.__tmp2 with
    | none => .error (.empty_slot s .tmp2)
    | some tmp2 =>
      let m ← manual_lifetime.construct_from s .tmp3
        (fun fr => { fr with __tmp3 := some (task.co_await tmp2) }) m
      let state ← m.get s
      match state.__tmp3 with
      | none => .error (.empty_slot s .tmp3)
      | some tmp3 =>
        if !awaiter.await_ready then
          let m := m.set s { state with __suspend_point := 1 }
          let (h, m) ← awaiter.await_suspend tmp3 (.frame s) m
          let m := destructor_guard_trivial.dtor m
          let m ← destructor_guard.dtor
            (manual_lifetime.destroy_task (coroutine_handle.destroy fuel) s) true m
          .ok (h, m.emit (.leave_resume s h))
        else
          let m := destructor_guard_trivial.dtor m
          let m ← destructor_guard.dtor
            (manual_lifetime.destroy_task (coroutine_handle.destroy fuel) s) true m
          __g_suspend_point_1 fuel s m
  else if state.__suspend_point = 1 then
    __g_suspend_point_1 fuel s m
  else
    .error (.unreachable s)

/-- The ramp function `g`. -/
def g (fuel : Nat) (x : Int) (m : Machine) : Except Fault (task × Machine) := do
  let (state, m) := __g_state.new x m
  let return_obj := promise_type.get_return_object state
  let m ← manual_lifetime.construct_from state .tmp1 id m
  if !suspend_always.await_ready then
    let m := suspend_always.await_suspend (.frame state) m
    .ok (return_obj, m)
  else
    let (_, m) ← __g_resume fuel state m
    .ok (return_obj, m)

/-- The call `s->__resume(s)` of the loop of `coroutine_handle<void>::resume`.
`__noop_resume` returns its argument. -/
def call_resume (fuel : Nat) (s : Ptr) (m : Machine) : Except Fault (Ptr × Machine) :=
  match s with
  | .null => .error .null_handle
  | .noop => .ok (.noop, m)
  | .frame a =>
    match m.heap a with
    | none => .error (.no_frame a)
    | some fr =>
      match fr.__resume with
      | none => .error (.resume_null a)
      | some .f => __f_resume a m
      | some .g => __g_resume fuel a m

/-- The member `coroutine_handle<void>::resume`:
`do { s = s->__resume(s); } while (s != &__noop_coroutine);`.  The fuel bounds
the number of iterations (and the depth of destroy calls below them). -/
def coroutine_handle.resume : Nat → Ptr → Machine → Except Fault Machine
  | 0, _, _ => .error .out_of_fuel
  | fuel + 1, s, m =>
    match call_resume fuel s m with
    | .error e => .error e
    | .ok (s, m) => if s = .noop then .ok m else coroutine_handle.resume fuel s m

/-- The member `task::execute`. -/
def task.execute (fuel : Nat) (t : task) (m : Machine) :
    Except Fault (Except Exn Int × Machine) := do
  let (_, m) ← awaiter.await_suspend t.coro_ .noop m
  let m ← coroutine_handle.resume fuel t.coro_ m
  awaiter.await_resume t.coro_ m

/-! ## Scenarios: the calls a test of the two fixtures makes -/

/-- The statements `task t = f(x); t.execute();`. -/
def f_execute (fuel : Nat) (x : Int) (m : Machine) : Except Fault (Except Exn Int × Machine) := do
  let (t, m) ← f x m
  task.execute fuel t m

/-- The statements `task t = g(x); t.execute();`. -/
def g_execute (fuel : Nat) (x : Int) (m : Machine) : Except Fault (Except Exn Int × Machine) := do
  let (t, m) ← g fuel x m
  task.execute fuel t m

/-- The task returned by `f(x)` is destroyed right away. -/
def f_create_destroy (fuel : Nat) (x : Int) (m : Machine) : Except Fault Machine := do
  let (t, m) ← f x m
  task.dtor (coroutine_handle.destroy fuel) t m

/-- The task returned by `g(x)` is destroyed right away. -/
def g_create_destroy (fuel : Nat) (x : Int) (m : Machine) : Except Fault Machine := do
  let (t, m) ← g fuel x m
  task.dtor (coroutine_handle.destroy fuel) t m

/-- The task returned by `f(x)` is executed and then destroyed. -/
def f_execute_destroy (fuel : Nat) (x : Int) (m : Machine) :
    Except Fault (Except Exn Int × Machine) := do
  let (t, m) ← f x m
  let (r, m) ← task.execute fuel t m
  let m ← task.dtor (coroutine_handle.destroy fuel) t m
  .ok (r, m)

/-- The task returned by `g(x)` is executed and then destroyed. -/
def g_execute_destroy (fuel : Nat) (x : Int) (m : Machine) :
    Except Fault (Except Exn Int × Machine) := do
  let (t, m) ← g fuel x m
  let (r, m) ← task.execute fuel t m
  let m ← task.dtor (coroutine_handle.destroy fuel) t m
  .ok (r, m)

/-- The resume entry of a new frame of `g` is called once, which leaves `g`
paused on the leaf, and the task is destroyed. -/
def g_resume_once_destroy (fuel : Nat) (x : Int) (m : Machine) : Except Fault Machine := do
  let (t, m) ← g fuel x m
  let (_, m) ← call_resume fuel t.coro_ m
  task.dtor (coroutine_handle.destroy fuel) t m

/-- The resume entry of a new frame of `g` is called once, the resume entry
of the leaf it returns is called once, and the task is destroyed: `g` is
paused on a leaf that is at its final suspend point. -/
def g_resume_twice_destroy (fuel : Nat) (x : Int) (m : Machine) : Except Fault Machine := do
  let (t, m) ← g fuel x m
  let (leaf, m) ← call_resume fuel t.coro_ m
  let (_, m) ← call_resume fuel leaf m
  task.dtor (coroutine_handle.destroy fuel) t m

/-- The number of `new` expressions in the log that returned the address `a`. -/
def allocs (a : Nat) (log : List Event) : Nat :=
  log.countP (fun e => match e with
    | .alloc b _ => b == a
    | _ => false)

/-- The number of `delete state` statements in the log applied to the frame
at `a`. -/
def frees (a : Nat) (log : List Event) : Nat :=
  log.countP (fun e => match e with
    | .free b _ => b == a
    | _ => false)

/-- The number of `delete state` statements in the log executed at the tail
of a resume function. -/
def resume_tail_frees (log : List Event) : Nat :=
  log.countP (fun e => match e with
    | .free _ .resume_tail => true
    | _ => false)

/-- The number of `construct_from` calls in the log on slot `s` of the frame
at `a`. -/
def constructs (a : Nat) (s : Slot) (log : List Event) : Nat :=
  log.countP (fun e => match e with
    | .construct b t => b == a && t == s
    | _ => false)

/-- The number of `destroy` calls in the log on slot `s` of the frame at `a`. -/
def destroys (a : Nat) (s : Slot) (log : List Event) : Nat :=
  log.countP (fun e => match e with
    | .destroy b t => b == a && t == s
    | _ => false)

/-- From machine `m` to machine `m1` no address has gained a frame, every
address handed out by `new` in between was handed out once, every frame was
deleted as often as it was allocated, and no frame was deleted at the tail of
a resume function. -/
def freed_once (m m1 : Machine) : Prop :=
  (∀ a, m.heap a = none → m1.heap a = none) ∧
  ∃ new, m1.log = new ++ m.log ∧
    (∀ a, allocs a new = if m.next ≤ a ∧ a < m1.next then 1 else 0) ∧
    (∀ a, frees a new = allocs a new) ∧
    resume_tail_frees new = 0

/-- The slot types with a trivial destructor (`std::suspend_always`,
`task::awaiter`, `final_awaiter`), for which `destructor_guard` is the empty
partial specialisation; `task` in `__tmp2` has a destructor. -/
def Slot.trivially_destructible : Slot → Bool
  | .tmp1 => true
  | .tmp2 => false
  | .tmp3 => true
  | .tmp4 => true

/-- From machine `m` to machine `m1` every slot of every frame has had as
many `destroy` calls as `construct_from` calls, except the slots listed in
`skipped`, which are of trivially destructible type and have had one
`construct_from` call and no `destroy` call. -/
def slots_balanced (m m1 : Machine) (skipped : List (Nat × Slot)) : Prop :=
  (∀ p ∈ skipped, p.2.trivially_destructible = true) ∧
  ∃ new, m1.log = new ++ m.log ∧
    ∀ a s, if (a, s) ∈ skipped then constructs a s new = 1 ∧ destroys a s new = 0
      else constructs a s new = destroys a s new

/-! ## Callers: sequences of public operations on task objects -/

/-- A statement of a non-coroutine caller.  Task objects are named by their
position in the order of creation. -/
inductive Op where
  | call_f (x : Int)
  | call_g (x : Int)
  | execute (i : Nat)
  | move_construct (i : Nat)
  | move_assign (i j : Nat)
  | destruct (i : Nat)
  deriving DecidableEq, Repr

/-- The machine together with the task objects of the caller; `none` marks
an object whose lifetime has ended. -/
structure World where
  m : Machine
  tasks : List (Option task)

def World.init : World :=
  { m := Machine.init, tasks := [] }

/-- The task object `i`; the use of an object outside its lifetime is
undefined. -/
def World.task (w : World) (i : Nat) : Except Fault task :=
  match w.tasks[i]? with
  | some (some t) => .ok t
  | _ => .error (.dead_object i)

/-- The move assignment `operator=(task && t)` of object `i` from object `j`:
`task tmp = std::move(t); swap(coro_, tmp.coro_);`, and `tmp` is destroyed on
return.  The objects are read through the store, so `i = j` is the self
assignment. -/
def task.move_assign (fuel : Nat) (i j : Nat) (w : World) : Except Fault World := do
  let t ← w.task j
  let (tmp, t) := task.move_ctor t
  let w := { w with tasks := w.tasks.set j (some t) }
  let self ← w.task i
  let (self, tmp) := (tmp, self)
  let w := { w with tasks := w.tasks.set i (some self) }
  let m ← task.dtor (coroutine_handle.destroy fuel) tmp w.m
  .ok { w with m := m }

/-- One statement of the caller.  An exception leaving `execute` is caught by
the caller. -/
def run_op (fuel : Nat) (op : Op) (w : World) : Except Fault World :=
  match op with
  | .call_f x => do
    let (t, m) ← f x w.m
    .ok { m := m, tasks := w.tasks ++ [some t] }
  | .call_g x => do
    let (t, m) ← g fuel x w.m
    .ok { m := m, tasks := w.tasks ++ [some t] }
  | .execute i => do
    let t ← w.task i
    let (_, m) ← task.execute fuel t w.m
    .ok { w with m := m }
  | .move_construct i => do
    let t ← w.task i
    let (new, t) := task.move_ctor t
    .ok { w with tasks := w.tasks.set i (some t) ++ [some new] }
  | .move_assign i j => task.move_assign fuel i j w
  | .destruct i => do
    let t ← w.task i
    let m ← task.dtor (coroutine_handle.destroy fuel) t w.m
    .ok { m := m, tasks := w.tasks.set i none }

/-- The statements of the caller in order. -/
def run_ops (fuel : Nat) : List Op → World → Except Fault World
  | [], w => .ok w
  | op :: ops, w =>
    match run_op fuel op w with
    | .error e => .error e
    | .ok w => run_ops fuel ops w

/-- The task object `i` is alive and `done()` holds of its frame. -/
def World.task_done (w : World) (i : Nat) : Bool :=
  match w.tasks[i]? with
  | some (some t) =>
    match coroutine_handle.done t.coro_ w.m with
    | .ok b => b
    | .error _ => false
  | _ => false

/-- Along the run of `ops` from `w`, `execute` is only called on a task whose
frame is not done. -/
def executes_once (fuel : Nat) : List Op → World → Prop
  | [], _ => True
  | op :: ops, w =>
    (∀ i, op = .execute i → w.task_done i = false) ∧
      ∀ w1, run_op fuel op w = .ok w1 → executes_once fuel ops w1

/-- A machine whose only frame, at address 0, is a leaf frame at its final
suspend point with the given result. -/
def sample_leaf_machine (r : Result) : Machine :=
  { heap := Function.update (fun _ => none) 0
      (some { __resume := none, __destroy := .f, continuation_ := .noop, result_ := r,
              __suspend_point := 1, x := 7, __tmp2 := none, __tmp3 := none }),
    next := 1,
    log := [] }

/-- A machine with a frame of `g` at address 0, paused at suspend point 1 on
the leaf frame at address 1, which is at its final suspend point with the
given result. -/
def sample_paused_machine (r : Result) : Machine :=
  { heap := Function.update (Function.update (fun _ => none) 0
      (some { __resume := some .g, __destroy := .g, continuation_ := .noop,
              result_ := .monostate, __suspend_point := 1, x := 7,
              __tmp2 := some { coro_ := .frame 1 }, __tmp3 := some (.frame 1) })) 1
      (some { __resume := none, __destroy := .f, continuation_ := .frame 0, result_ := r,
              __suspend_point := 1, x := 7, __tmp2 := none, __tmp3 := none }),
    next := 2,
    log := [] }

/-- The guard that `destructor_guard guard{slot}` declares over slot `s`, at
the end of its scope: the deduction guide yields `destructor_guard<T>` for the
type `T` of the slot, which is the empty partial specialisation when `T` is
trivially destructible and the primary template otherwise. -/
def destructor_guard.scope_exit (s : Slot) (ptr_destroy : Machine → Except Fault Machine)
    (cancelled : Bool) (m : Machine) : Except Fault Machine :=
  if s.trivially_destructible then .ok (destructor_guard_trivial.dtor m)
  else destructor_guard.dtor ptr_destroy cancelled m

/-! ## Reachable machines and the control fields of a frame -/

/-- One call of a ramp, of an entry point through its function pointer, or of
a member of the awaiter. -/
inductive Step : Machine → Machine → Prop where
  | create_f (x : Int) (t : task) {m m1 : Machine} : f x m = .ok (t, m1) → Step m m1
  | create_g (fuel : Nat) (x : Int) (t : task) {m m1 : Machine} :
      g fuel x m = .ok (t, m1) → Step m m1
  | resume_entry (fuel : Nat) (s s1 : Ptr) {m m1 : Machine} :
      call_resume fuel s m = .ok (s1, m1) → Step m m1
  | destroy_entry (fuel : Nat) (h : Ptr) {m m1 : Machine} :
      coroutine_handle.destroy fuel h m = .ok m1 → Step m m1
  | await_suspend (c h c1 : Ptr) {m m1 : Machine} :
      awaiter.await_suspend c h m = .ok (c1, m1) → Step m m1
  | await_resume (c : Ptr) (r : Except Exn Int) {m m1 : Machine} :
      awaiter.await_resume c m = .ok (r, m1) → Step m m1

/-- The index a frame records at its final suspend point: 1 in `__f_resume`,
2 in `__g_resume`. -/
def Code.final_index : Code → Int
  | .f => 1
  | .g => 2

/-- The fields of a frame that steer dispatch: the two function pointers and
the suspend index. -/
def Frame.ctl (fr : Frame) : Option Code × Code × Int :=
  (fr.__resume, fr.__destroy, fr.__suspend_point)

/-- The states of the control fields the two lowerings produce. -/
def Frame.ok (fr : Frame) : Prop :=
  (fr.__destroy = .f ∧
    ((fr.__resume = some .f ∧ fr.__suspend_point = 0) ∨
      (fr.__resume = none ∧ fr.__suspend_point = 1))) ∨
  (fr.__destroy = .g ∧
    ((fr.__resume = some .g ∧ (fr.__suspend_point = 0 ∨ fr.__suspend_point = 1)) ∨
      (fr.__resume = none ∧ fr.__suspend_point = 2)))

/-- Every live frame has well-formed control fields and lies below the bump
pointer. -/
def Machine.ok (m : Machine) : Prop :=
  (∀ a fr, m.heap a = some fr → fr.ok) ∧ (∀ a, m.next ≤ a → m.heap a = none)

/-- The machine `m1` has the frames of `m` or fewer, each with unchanged
control fields, and the same bump pointer. -/
def Keeps (m m1 : Machine) : Prop :=
  m1.next = m.next ∧
    ∀ a fr1, m1.heap a = some fr1 → ∃ fr, m.heap a = some fr ∧ fr1.ctl = fr.ctl

/-- The machine after the call `f(7)` on the empty machine. -/
def sample_created_machine : Machine :=
  { heap := Function.update Machine.init.heap Machine.init.next
      (some { __resume := some .f, __destroy := .f, continuation_ := .null,
              result_ := .monostate, __suspend_point := 0, x := 7,
              __tmp2 := none, __tmp3 := none }),
    next := Machine.init.next + 1,
    log := [.construct Machine.init.next .tmp1, .alloc Machine.init.next .f] }

/-- Every live frame is well formed and none is a frame of `g` paused at
suspend point 1: the state of the free store between two statements of a
caller. -/
def Machine.rest (m : Machine) : Prop :=
  m.ok ∧ ∀ a fr, m.heap a = some fr → fr.__destroy = .g → fr.__suspend_point ≠ 1

/-- The outcome `r` is not the fault of a call through a null resume entry. -/
def no_resume_null {α : Type} (r : Except Fault α) : Prop :=
  ∀ a, r ≠ .error (.resume_null a)

/-- The frame an event acts on. -/
def Event.addr : Event → Nat
  | .alloc a _ => a
  | .free a _ => a
  | .construct a _ => a
  | .destroy a _ => a
  | .enter_resume a _ => a
  | .leave_resume a _ => a
  | .enter_destroy a _ => a
  | .leave_destroy a => a
  | .return_value a _ => a
  | .unhandled_exception a _ => a
  | .set_continuation a _ => a

/-- The events of a destroy function: its entry and exit, the `destroy` calls
on slots and the `delete` of the frame. -/
def Event.teardown : Event → Bool
  | .free _ _ => true
  | .destroy _ _ => true
  | .enter_destroy _ _ => true
  | .leave_destroy _ => true
  | _ => false

/-- From `m` to `m1` the log has only gained events of destroy functions, all
on frames that `m1` no longer holds. -/
def Tears (m m1 : Machine) : Prop :=
  ∃ q, m1.log = q ++ m.log ∧ ∀ e ∈ q, e.teardown = true ∧ m1.heap e.addr = none

/-- What one call of the resume entry of the live frame `fr` at `a` does to
a well-formed machine `m`, as next handle and machine after the call.

* `leaf`: `__f_resume` at index 0 writes the value and stops at the final
  suspend point.
* `await`: `__g_resume` at index 0 creates the leaf at the bump pointer,
  makes itself its continuation and pauses at index 1.
* `final`: `__g_resume` at index 1 extracts the awaited result, destroys the
  task in `__tmp2` (the events `q` of its destroy functions), writes its own
  result once (`w`) and stops at the final suspend point. -/
inductive Resumed (m : Machine) (a : Nat) (fr : Frame) : Ptr → Machine → Prop where
  | leaf : fr.__resume = some .f → fr.__destroy = .f → fr.__suspend_point = 0 →
      Resumed m a fr fr.continuation_
        { heap := Function.update m.heap a
            (some { fr with result_ := .value fr.x, __suspend_point := 1, __resume := none }),
          next := m.next,
          log := .leave_resume a fr.continuation_ :: .construct a .tmp4 ::
            .return_value a fr.x :: .enter_resume a 0 :: m.log }
  | await : fr.__resume = some .g → fr.__destroy = .g → fr.__suspend_point = 0 →
      Resumed m a fr (.frame m.next)
        { heap := Function.update (Function.update m.heap a
              (some { fr with __suspend_point := 1,
                              __tmp2 := some { coro_ := .frame m.next },
                              __tmp3 := some (.frame m.next) }))
            m.next
            (some { __resume := some .f, __destroy := .f, continuation_ := .frame a,
                    result_ := .monostate, __suspend_point := 0, x := fr.x,
                    __tmp2 := none, __tmp3 := none }),
          next := m.next + 1,
          log := .leave_resume a (.frame m.next) :: .set_continuation m.next (.frame a) ::
            .construct a .tmp3 :: .construct a .tmp2 :: .construct m.next .tmp1 ::
            .alloc m.next .f :: .enter_resume a 0 :: m.log }
  | final (m4 m1 : Machine) (fr4 : Frame) (q : List Event) (w : Event) :
      fr.__resume = some .g → fr.__destroy = .g → fr.__suspend_point = 1 →
      Keeps m m4 → m4.heap a = some fr4 →
      m1.heap = Function.update m4.heap a
        (some { fr4 with __suspend_point := 2, __resume := none }) →
      m1.next = m.next →
      m1.log = .leave_resume a fr4.continuation_ :: .construct a .tmp4 :: w ::
        (q ++ .destroy a .tmp2 :: .enter_resume a 1 :: m.log) →
      (∀ e ∈ q, e.teardown = true ∧ m1.heap e.addr = none) →
      ((∃ v, w = .return_value a v ∧ fr4.result_ = .value v) ∨
        (∃ e, w = .unhandled_exception a e ∧ fr4.result_ = .error (some e))) →
      Resumed m a fr fr4.continuation_ m1

/-- The entry into a resume function and the return from it. -/
def Event.resume_mark : Event → Bool
  | .enter_resume _ _ => true
  | .leave_resume _ _ => true
  | _ => false

/-- The number of resume functions that have been entered and not yet left
at the end of a log (newest event first). -/
def resume_depth : List Event → Nat
  | [] => 0
  | .enter_resume _ _ :: l => resume_depth l + 1
  | .leave_resume _ _ :: l => resume_depth l - 1
  | _ :: l => resume_depth l

/-- The largest such number at any moment of the log. -/
def max_resume_depth : List Event → Nat
  | [] => 0
  | e :: l => max (resume_depth (e :: l)) (max_resume_depth l)

/-- A machine whose only frame, at address 0, is a new leaf frame with the
no-op handle as continuation. -/
def sample_started_machine : Machine :=
  { heap := Function.update (fun _ => none) 0
      (some { __resume := some .f, __destroy := .f, continuation_ := .noop,
              result_ := .monostate, __suspend_point := 0, x := 7,
              __tmp2 := none, __tmp3 := none }),
    next := 1,
    log := [] }

/-- The frames whose resume function was entered, in the order of the calls
(the log has the newest event first). -/
def entered_frames : List Event → List Nat
  | [] => []
  | .enter_resume a _ :: l => entered_frames l ++ [a]
  | _ :: l => entered_frames l

/-- The next handles the resume functions returned, in the order of the
calls. -/
def returned_handles : List Event → List Ptr
  | [] => []
  | .leave_resume _ p :: l => returned_handles l ++ [p]
  | _ :: l => returned_handles l

/-- The number of writes of `continuation_` of the frame at `a` in the log. -/
def continuation_writes (a : Nat) (log : List Event) : Nat :=
  log.countP (fun e => match e with
    | .set_continuation b _ => b == a
    | _ => false)

/-- Every entry into the resume function of the frame at `a` in the log
(newest event first) comes after a write of its `continuation_`. -/
def continuation_set_before_resume (a : Nat) : List Event → Bool
  | [] => true
  | .enter_resume b _ :: l =>
    (b != a || decide (0 < continuation_writes a l)) &&
      continuation_set_before_resume a l
  | _ :: l => continuation_set_before_resume a l

/-- The loop of `coroutine_handle<void>::resume` once more, now recording
each call `s->__resume(s)` it makes: the handle `s` and the machine at the
moment of the call. -/
def coroutine_handle.resume_calls : Nat → Ptr → Machine → List (Ptr × Machine)
  | 0, _, _ => []
  | fuel + 1, s, m =>
    (s, m) ::
      match call_resume fuel s m with
      | .error _ => []
      | .ok (s1, m1) => if s1 = .noop then [] else coroutine_handle.resume_calls fuel s1 m1

/-- A machine whose only frame, at address 0, is a new frame of `g` with the
no-op handle as continuation. -/
def sample_composed_machine : Machine :=
  { heap := Function.update (fun _ => none) 0
      (some { __resume := some .g, __destroy := .g, continuation_ := .noop,
              result_ := .monostate, __suspend_point := 0, x := 7,
              __tmp2 := none, __tmp3 := none }),
    next := 1,
    log := [] }

/-- The calls `s->__resume(s)` that the trampoline makes in the statements
`task t = g(x); t.execute();`, each with the handle called and the machine at
the moment of the call. -/
def g_execute_calls (fuel : Nat) (x : Int) (m : Machine) : List (Ptr × Machine) :=
  match g fuel x m with
  | .error _ => []
  | .ok (t, m) =>
    match awaiter.await_suspend t.coro_ .noop m with
    | .error _ => []
    | .ok (_, m) => coroutine_handle.resume_calls fuel t.coro_ m

/-- The state of the result variant up to the exception pointer that
`await_resume` moves out of it: empty, a value, or an error. -/
def Result.outcome : Result → Result
  | .error _ => .error none
  | r => r

/-- The fields of a frame that only its own resume function and
`await_suspend` write: the control fields, the continuation, the state of the
result and the argument copy. -/
def Frame.core (fr : Frame) : (Option Code × Code × Int) × Ptr × Result × Int :=
  (fr.ctl, fr.continuation_, fr.result_.outcome, fr.x)

/-- The machine `m1` has the frames of `m` or fewer, each with unchanged
control fields, continuation, result state and argument, and the same bump
pointer. -/
def Holds (m m1 : Machine) : Prop :=
  m1.next = m.next ∧
    ∀ a fr1, m1.heap a = some fr1 → ∃ fr, m.heap a = some fr ∧ fr1.core = fr.core

/-- What one step does to a well-formed machine `m`: a ramp adds a frame at
the bump pointer; a resume entry on a live frame acts as `Resumed` says and
leaves the other frames as they are; a destroy entry and `await_resume` add
only events of destroy functions and leave every surviving frame as it is;
`await_suspend` writes one continuation. -/
inductive Moved (m : Machine) : Machine → Prop where
  | create_f (x : Int) : Moved m
      { heap := Function.update m.heap m.next
          (some { __resume := some .f, __destroy := .f, continuation_ := .null,
                  result_ := .monostate, __suspend_point := 0, x := x,
                  __tmp2 := none, __tmp3 := none }),
        next := m.next + 1,
        log := .construct m.next .tmp1 :: .alloc m.next .f :: m.log }
  | create_g (x : Int) : Moved m
      { heap := Function.update m.heap m.next
          (some { __resume := some .g, __destroy := .g, continuation_ := .null,
                  result_ := .monostate, __suspend_point := 0, x := x,
                  __tmp2 := none, __tmp3 := none }),
        next := m.next + 1,
        log := .construct m.next .tmp1 :: .alloc m.next .g :: m.log }
  | resumed (a : Nat) (fr : Frame) (p1 : Ptr) (m1 : Machine) :
      m.heap a = some fr → Resumed m a fr p1 m1 →
      (∀ b fr1, b ≠ a → m1.heap b = some fr1 →
        (∃ fr0, m.heap b = some fr0 ∧ fr1.core = fr0.core) ∨ b = m.next) →
      (∀ fr1, m1.heap a = some fr1 →
        fr1.continuation_ = fr.continuation_ ∧ fr1.x = fr.x) →
      Moved m m1
  | quiet (m1 : Machine) : Holds m m1 → Tears m m1 → Moved m m1
  | continued (a : Nat) (fr : Frame) (h : Ptr) : m.heap a = some fr →
      Moved m ((m.set a { fr with continuation_ := h }).emit (.set_continuation a h))

/-- The slots of the frame at `a` on which `destroy` was called, in the order
of the calls (the log has the newest event first). -/
def destroyed_slots (a : Nat) : List Event → List Slot
  | [] => []
  | .destroy b s :: l => if b = a then destroyed_slots a l ++ [s] else destroyed_slots a l
  | _ :: l => destroyed_slots a l

/-- The jump tables of `__f_destroy` and `__g_destroy`: the slots each `case`
of the `switch` on `__suspend_point` destroys, in order. -/
def Code.teardown : Code → Int → List Slot
  | .f, 0 => [.tmp1]
  | .f, 1 => [.tmp4]
  | .g, 0 => [.tmp1]
  | .g, 1 => [.tmp3, .tmp2]
  | .g, 2 => [.tmp4]
  | _, _ => []

/-- The calls `s->__resume(s)` that the trampoline makes in the statements
`task t = f(x); t.execute();`, each with the handle called and the machine at
the moment of the call. -/
def f_execute_calls (fuel : Nat) (x : Int) (m : Machine) : List (Ptr × Machine) :=
  match f x m with
  | .error _ => []
  | .ok (t, m) =>
    match awaiter.await_suspend t.coro_ .noop m with
    | .error _ => []
    | .ok (_, m) => coroutine_handle.resume_calls fuel t.coro_ m

/-- The frames whose resume function was entered, each with the suspend index
the `switch` dispatched on, in the order of the calls. -/
def resume_entries : List Event → List (Nat × Int)
  | [] => []
  | .enter_resume a sp :: l => resume_entries l ++ [(a, sp)]
  | _ :: l => resume_entries l

/-- The frames whose destroy function was entered, each with the suspend
index the `switch` dispatched on, in the order of the calls. -/
def destroy_entries : List Event → List (Nat × Int)
  | [] => []
  | .enter_destroy a sp :: l => destroy_entries l ++ [(a, sp)]
  | _ :: l => destroy_entries l

/-- The task in `__tmp2` of the frame `fr1` is that of `fr`, or `__tmp2` has
been destroyed. -/
def Frame.fades (fr1 fr : Frame) : Prop :=
  fr1.__tmp2 = none ∨ fr1.__tmp2 = fr.__tmp2

/-- The machine `m1` has the frames of `m` or fewer and the same bump
pointer, and in no frame has `__tmp2` received a task. -/
def Fades (m m1 : Machine) : Prop :=
  m1.next = m.next ∧
    ∀ a fr1, m1.heap a = some fr1 → ∃ fr, m.heap a = some fr ∧ fr1.fades fr

/-- An owner of a frame: a task object of the caller, named by its position
in the order of creation, or the task in `__tmp2` of a frame. -/
inductive Owner where
  | object (i : Nat)
  | slot (b : Nat)
  deriving DecidableEq, Repr

/-- The handle `coro_` of the task an owner stands for, if that task is
alive. -/
def World.handle (w : World) : Owner → Option Ptr
  | .object i =>
    match w.tasks[i]? with
    | some (some t) => some t.coro_
    | _ => none
  | .slot b =>
    match w.m.heap b with
    | some fr =>
      match fr.__tmp2 with
      | some t => some t.coro_
      | none => none
    | none => none

/-- The task of owner `o` references the frame at `a`. -/
def World.owns (w : World) (o : Owner) (a : Nat) : Prop :=
  w.handle o = some (.frame a)

/-- No frame is referenced by two tasks. -/
def World.sole_owner (w : World) : Prop :=
  ∀ o1 o2 a, w.owns o1 a → w.owns o2 a → o1 = o2

/-- The machine is well formed, every task references a frame below the bump
pointer, and no frame is referenced by two tasks. -/
def World.wf (w : World) : Prop :=
  w.m.ok ∧ (∀ o a, w.owns o a → a < w.m.next) ∧ w.sole_owner

/-- The ramp `f` on a free store that has room for frames only at addresses
below `cap`: the first statement, `new __f_state(...)`, raises
`std::bad_alloc` when the store is full, before anything else has happened;
otherwise the ramp runs as `f` does. -/
def f_bounded (cap : Nat) (x : Int) (m : Machine) :
    Except Fault (Except Exn task × Machine) :=
  if m.next < cap then do
    let (t, m) ← f x m
    .ok (.ok t, m)
  else
    .ok (.error .bad_alloc, m)

/-- The function `__g_resume` on a free store that has room for frames only
at addresses below `cap`.  At `suspend_point_0` the call `f(state->x)` inside
`construct_from` may raise: then no object is in `__tmp2`, no guard of
`__tmp2` or `__tmp3` exists yet, and the handler `catch (...)` stores the
exception and goes to the final suspend point.  From `suspend_point_1` on
nothing is allocated. -/
def __g_resume_bounded (cap : Nat) (fuel : Nat) (s : Nat) (m : Machine) :
    Except Fault (Ptr × Machine) := do
  let state ← m.get s
  let m := m.emit (.enter_resume s state.__suspend_point)
  if state.__suspend_point = 0 then
    let m := suspend_always.await_resume m
    let m := destructor_guard_trivial.dtor m
    let (r, m) ← f_bounded cap state.x m
    match r with
    | .error e =>
      let m ← promise_type.unhandled_exception s e m
      final_suspend s 2 m
    | .ok t =>
      let m ← manual_lifetime.construct_from s .tmp2 (fun fr => { fr with __tmp2 := some t }) m
      let state ← m.get s
      match state.__tmp2 with
      | none => .error (.empty_slot s .tmp2)
      | some tmp2 =>
        let m ← manual_lifetime.construct_from s .tmp3
          (fun fr => { fr with __tmp3 := some (task.co_await tmp2) }) m
        let state ← m.get s
        match state.__tmp3 with
        | none => .error (.empty_slot s .tmp3)
        | some tmp3 =>
          if !awaiter.await_ready then
            let m := m.set s { state with __suspend_point := 1 }
            let (h, m) ← awaiter.await_suspend tmp3 (.frame s) m
            let m := destructor_guard_trivial.dtor m
            let m ← destructor_guard.dtor
              (manual_lifetime.destroy_task (coroutine_handle.destroy fuel) s) true m
            .ok (h, m.emit (.leave_resume s h))
          else
            let m := destructor_guard_trivial.dtor m
            let m ← destructor_guard.dtor
              (manual_lifetime.destroy_task (coroutine_handle.destroy fuel) s) true m
            __g_suspend_point_1 fuel s m
  else if state.__suspend_point = 1 then
    __g_suspend_point_1 fuel s m
  else
    .error (.unreachable s)

/-- The call `s->__resume(s)` on a free store that has room for frames only
at addresses below `cap`: the dispatch of `call_resume` through the resume
pointer of the frame, with `__g_resume_bounded` for `__g_resume`
(`__f_resume` allocates nothing). -/
def call_resume_bounded (cap : Nat) (fuel : Nat) (s : Ptr) (m : Machine) :
    Except Fault (Ptr × Machine) :=
  match s with
  | .null => .error .null_handle
  | .noop => .ok (.noop, m)
  | .frame a =>
    match m.heap a with
    | none => .error (.no_frame a)
    | some fr =>
      match fr.__resume with
      | none => .error (.resume_null a)
      | some .f => __f_resume a m
      | some .g => __g_resume_bounded cap fuel a m

/-! ## Step lemmas: what each entry point does to an arbitrary machine -/

theorem f_eq (x : Int) (m : Machine) :
    f x m = .ok ({ coro_ := .frame m.next },
      { heap := Function.update m.heap m.next
          (some { __resume := some .f, __destroy := .f, continuation_ := .null,
                  result_ := .monostate, __suspend_point := 0, x := x,
                  __tmp2 := none, __tmp3 := none }),
        next := m.next + 1,
        log := .construct m.next .tmp1 :: .alloc m.next .f :: m.log }) := by
  simp [f, __f_state.new, promise_type.get_return_object, manual_lifetime.construct_from,
    Machine.get, Machine.set, Machine.emit, suspend_always.await_ready,
    suspend_always.await_suspend, bind, Except.bind]

theorem __f_resume_eq (s : Nat) (m : Machine) (fr : Frame) (h : m.heap s = some fr)
    (h0 : fr.__suspend_point = 0) :
    __f_resume s m = .ok (fr.continuation_,
      { heap := Function.update m.heap s
          (some { fr with result_ := .value fr.x, __suspend_point := 1, __resume := none }),
        next := m.next,
        log := .leave_resume s fr.continuation_ :: .construct s .tmp4 ::
          .return_value s fr.x :: .enter_resume s 0 :: m.log }) := by
  simp [__f_resume, final_suspend, promise_type.return_value, manual_lifetime.construct_from,
    Machine.get, Machine.set, Machine.emit, Machine.deref, final_awaiter.await_ready,
    final_awaiter.await_suspend, suspend_always.await_resume, destructor_guard_trivial.dtor,
    bind, Except.bind, h, h0]

theorem __g_resume_0_eq (fuel : Nat) (s : Nat) (m : Machine) (fr : Frame)
    (h : m.heap s = some fr) (h0 : fr.__suspend_point = 0) (hs : s ≠ m.next) :
    __g_resume fuel s m = .ok (.frame m.next,
      { heap := Function.update (Function.update m.heap s
            (some { fr with __suspend_point := 1, __tmp2 := some { coro_ := .frame m.next },
                            __tmp3 := some (.frame m.next) }))
          m.next
          (some { __resume := some .f, __destroy := .f, continuation_ := .frame s,
                  result_ := .monostate, __suspend_point := 0, x := fr.x,
                  __tmp2 := none, __tmp3 := none }),
        next := m.next + 1,
        log := .leave_resume s (.frame m.next) :: .set_continuation m.next (.frame s) ::
          .construct s .tmp3 :: .construct s .tmp2 :: .construct m.next .tmp1 ::
          .alloc m.next .f :: .enter_resume s 0 :: m.log }) := by
  simp [__g_resume, f_eq, manual_lifetime.construct_from,
    Machine.get, Machine.set, Machine.emit, Machine.deref, awaiter.await_ready,
    awaiter.await_suspend, suspend_always.await_resume, destructor_guard_trivial.dtor,
    destructor_guard.dtor, task.co_await,
    bind, Except.bind, h, h0, hs, Function.update_noteq (Ne.symm hs)]
  funext b
  by_cases hb : b = m.next
  · subst hb; simp
  · by_cases hb2 : b = s
    · subst hb2; simp [Function.update_noteq hb]
    · simp [Function.update_noteq hb, Function.update_noteq hb2]

theorem __f_destroy_eq (s : Nat) (m : Machine) (fr : Frame) (h : m.heap s = some fr)
    (hsp : fr.__suspend_point = 0 ∨ fr.__suspend_point = 1) :
    __f_destroy s m = .ok
      { heap := Function.update m.heap s none,
        next := m.next,
        log := .leave_destroy s :: .free s .destroy_state ::
          .destroy s (if fr.__suspend_point = 0 then .tmp1 else .tmp4) ::
          .enter_destroy s fr.__suspend_point :: m.log } := by
  rcases hsp with h0 | h1
  · simp [__f_destroy, manual_lifetime.destroy, Machine.get, Machine.set, Machine.emit,
      Machine.delete, bind, Except.bind, h, h0]
  · simp [__f_destroy, manual_lifetime.destroy, Machine.get, Machine.set, Machine.emit,
      Machine.delete, bind, Except.bind, h, h1]

theorem destroy_f_eq (n : Nat) (a : Nat) (m : Machine) (fr : Frame) (h : m.heap a = some fr)
    (hd : fr.__destroy = .f) :
    coroutine_handle.destroy (n + 1) (.frame a) m = __f_destroy a m := by
  simp [coroutine_handle.destroy, h, hd]

theorem destroy_g_eq (n : Nat) (a : Nat) (m : Machine) (fr : Frame) (h : m.heap a = some fr)
    (hd : fr.__destroy = .g) :
    coroutine_handle.destroy (n + 1) (.frame a) m =
      __g_destroy (coroutine_handle.destroy n) a m := by
  simp [coroutine_handle.destroy, h, hd]

theorem __g_destroy_0_eq (D : Ptr → Machine → Except Fault Machine) (s : Nat) (m : Machine)
    (fr : Frame) (h : m.heap s = some fr) (h0 : fr.__suspend_point = 0) :
    __g_destroy D s m = .ok
      { heap := Function.update m.heap s none,
        next := m.next,
        log := .leave_destroy s :: .free s .destroy_state :: .destroy s .tmp1 ::
          .enter_destroy s 0 :: m.log } := by
  simp [__g_destroy, manual_lifetime.destroy, Machine.get, Machine.set, Machine.emit,
    Machine.delete, bind, Except.bind, h, h0]

theorem __g_destroy_2_eq (D : Ptr → Machine → Except Fault Machine) (s : Nat) (m : Machine)
    (fr : Frame) (h : m.heap s = some fr) (h2 : fr.__suspend_point = 2) :
    __g_destroy D s m = .ok
      { heap := Function.update m.heap s none,
        next := m.next,
        log := .leave_destroy s :: .free s .destroy_state :: .destroy s .tmp4 ::
          .enter_destroy s 2 :: m.log } := by
  simp [__g_destroy, manual_lifetime.destroy, Machine.get, Machine.set, Machine.emit,
    Machine.delete, bind, Except.bind, h, h2]

theorem __g_destroy_1_eq (n : Nat) (s b : Nat) (m : Machine) (fr lf : Frame)
    (h : m.heap s = some fr) (h1 : fr.__suspend_point = 1)
    (ht : fr.__tmp2 = some { coro_ := .frame b }) (hb : m.heap b = some lf) (hsb : b ≠ s)
    (hd : lf.__destroy = .f) (hsp : lf.__suspend_point = 0 ∨ lf.__suspend_point = 1) :
    __g_destroy (coroutine_handle.destroy (n + 1)) s m = .ok
      { heap := Function.update (Function.update m.heap s none) b none,
        next := m.next,
        log := .leave_destroy s :: .free s .destroy_state ::
          .leave_destroy b :: .free b .destroy_state ::
          .destroy b (if lf.__suspend_point = 0 then .tmp1 else .tmp4) ::
          .enter_destroy b lf.__suspend_point ::
          .destroy s .tmp2 :: .destroy s .tmp3 :: .enter_destroy s 1 :: m.log } := by
  have hbm : ∀ v, (Function.update m.heap s v) b = some lf := by
    intro v; simp [Function.update_noteq hsb, hb]
  simp [__g_destroy, manual_lifetime.destroy, manual_lifetime.destroy_task, task.dtor,
    coroutine_handle.to_bool, Machine.get, Machine.set, Machine.emit,
    Machine.delete, bind, Except.bind, h, h1, ht]
  rw [destroy_f_eq n b _ lf (by simpa using hbm _) hd]
  rw [__f_destroy_eq b _ lf (by simpa using hbm _) hsp]
  simp [Function.update_noteq (Ne.symm hsb)]
  funext c
  simp only [Function.update_apply]
  split_ifs <;> simp_all

theorem __g_resume_1_value_eq (n : Nat) (s b : Nat) (m : Machine) (fr lf : Frame) (v : Int)
    (h : m.heap s = some fr) (h1 : fr.__suspend_point = 1)
    (ha : fr.__tmp3 = some (.frame b)) (ht : fr.__tmp2 = some { coro_ := .frame b })
    (hb : m.heap b = some lf) (hsb : b ≠ s) (hv : lf.result_ = .value v)
    (hd : lf.__destroy = .f) (hsp : lf.__suspend_point = 0 ∨ lf.__suspend_point = 1) :
    __g_resume (n + 1) s m = .ok (fr.continuation_,
      { heap := Function.update (Function.update m.heap b none) s
          (some { fr with __tmp2 := none, result_ := .value (wrap_int (v * v)),
                          __suspend_point := 2, __resume := none }),
        next := m.next,
        log := .leave_resume s fr.continuation_ :: .construct s .tmp4 ::
          .return_value s (wrap_int (v * v)) ::
          .leave_destroy b :: .free b .destroy_state ::
          .destroy b (if lf.__suspend_point = 0 then .tmp1 else .tmp4) ::
          .enter_destroy b lf.__suspend_point ::
          .destroy s .tmp2 :: .enter_resume s 1 :: m.log }) := by
  have hbm : ∀ w, (Function.update m.heap s w) b = some lf := by
    intro w; simp [Function.update_noteq hsb, hb]
  simp [__g_resume, __g_suspend_point_1, awaiter.await_resume, destructor_guard.dtor,
    destructor_guard_trivial.dtor, manual_lifetime.destroy_task, task.dtor,
    coroutine_handle.to_bool, Machine.get, Machine.set, Machine.emit, Machine.deref,
    bind, Except.bind, h, h1, ha, ht, hb, hv]
  rw [destroy_f_eq n b _ lf (by simpa using hbm _) hd]
  rw [__f_destroy_eq b _ lf (by simpa using hbm _) hsp]
  simp [final_suspend, promise_type.return_value, manual_lifetime.construct_from,
    final_awaiter.await_ready, final_awaiter.await_suspend, destructor_guard_trivial.dtor,
    Machine.get, Machine.set, Machine.emit, Machine.deref, bind, Except.bind,
    Function.update_noteq (Ne.symm hsb)]
  funext c
  simp only [Function.update_apply]
  split_ifs <;> simp_all

theorem __g_resume_1_error_eq (n : Nat) (s b : Nat) (m : Machine) (fr lf : Frame) (e : Exn)
    (h : m.heap s = some fr) (h1 : fr.__suspend_point = 1)
    (ha : fr.__tmp3 = some (.frame b)) (ht : fr.__tmp2 = some { coro_ := .frame b })
    (hb : m.heap b = some lf) (hsb : b ≠ s) (hv : lf.result_ = .error (some e))
    (hd : lf.__destroy = .f) (hsp : lf.__suspend_point = 0 ∨ lf.__suspend_point = 1) :
    __g_resume (n + 1) s m = .ok (fr.continuation_,
      { heap := Function.update (Function.update m.heap b none) s
          (some { fr with __tmp2 := none, result_ := .error (some e),
                          __suspend_point := 2, __resume := none }),
        next := m.next,
        log := .leave_resume s fr.continuation_ :: .construct s .tmp4 ::
          .unhandled_exception s e ::
          .leave_destroy b :: .free b .destroy_state ::
          .destroy b (if lf.__suspend_point = 0 then .tmp1 else .tmp4) ::
          .enter_destroy b lf.__suspend_point ::
          .destroy s .tmp2 :: .enter_resume s 1 :: m.log }) := by
  have hbm : ∀ w, (Function.update (Function.update m.heap b
      (some { lf with result_ := .error none })) s w) b =
      some { lf with result_ := .error none } := by
    intro w; simp [Function.update_noteq hsb]
  have hsm : ∀ w, (Function.update m.heap b w) s = some fr := by
    intro w; simp [Function.update_noteq (Ne.symm hsb), h]
  simp [__g_resume, __g_suspend_point_1, awaiter.await_resume, destructor_guard.dtor,
    destructor_guard_trivial.dtor, manual_lifetime.destroy_task, task.dtor,
    coroutine_handle.to_bool, Machine.get, Machine.set, Machine.emit, Machine.deref,
    bind, Except.bind, h, h1, ha, ht, hb, hv, hsm]
  rw [destroy_f_eq n b _ { lf with result_ := .error none } (by simpa using hbm _) hd]
  rw [__f_destroy_eq b _ { lf with result_ := .error none } (by simpa using hbm _) hsp]
  simp [final_suspend, promise_type.unhandled_exception, manual_lifetime.construct_from,
    final_awaiter.await_ready, final_awaiter.await_suspend, destructor_guard_trivial.dtor,
    Machine.get, Machine.set, Machine.emit, Machine.deref, bind, Except.bind,
    Function.update_noteq (Ne.symm hsb)]
  funext c
  simp only [Function.update_apply]
  split_ifs <;> simp_all

theorem call_resume_f_eq (n : Nat) (a : Nat) (m : Machine) (fr : Frame)
    (h : m.heap a = some fr) (hr : fr.__resume = some .f) :
    call_resume n (.frame a) m = __f_resume a m := by
  simp [call_resume, h, hr]

theorem call_resume_g_eq (n : Nat) (a : Nat) (m : Machine) (fr : Frame)
    (h : m.heap a = some fr) (hr : fr.__resume = some .g) :
    call_resume n (.frame a) m = __g_resume n a m := by
  simp [call_resume, h, hr]

theorem execute_f_eq (n : Nat) (a : Nat) (m : Machine) (fr : Frame)
    (h : m.heap a = some fr) (hr : fr.__resume = some .f) (h0 : fr.__suspend_point = 0) :
    task.execute (n + 1) { coro_ := .frame a } m = .ok (.ok fr.x,
      { heap := Function.update m.heap a
          (some { fr with continuation_ := .noop, result_ := .value fr.x,
                          __suspend_point := 1, __resume := none }),
        next := m.next,
        log := .leave_resume a .noop :: .construct a .tmp4 :: .return_value a fr.x ::
          .enter_resume a 0 :: .set_continuation a .noop :: m.log }) := by
  simp only [task.execute, awaiter.await_suspend, Machine.deref, Machine.set, Machine.emit,
    coroutine_handle.resume, bind, Except.bind, h]
  rw [call_resume_f_eq n a _ { fr with continuation_ := .noop } (by simp) hr]
  rw [__f_resume_eq a _ { fr with continuation_ := .noop } (by simp) h0]
  simp [awaiter.await_resume, Machine.deref, bind, Except.bind]

theorem execute_g_eq (n : Nat) (a : Nat) (m : Machine) (fr : Frame)
    (h : m.heap a = some fr) (hr : fr.__resume = some .g) (h0 : fr.__suspend_point = 0)
    (hn : a ≠ m.next) :
    task.execute (n + 4) { coro_ := .frame a } m = .ok (.ok (wrap_int (fr.x * fr.x)),
      { heap := Function.update (Function.update m.heap m.next none) a
          (some { fr with continuation_ := .noop, __tmp2 := none,
                          __tmp3 := some (.frame m.next),
                          result_ := .value (wrap_int (fr.x * fr.x)),
                          __suspend_point := 2, __resume := none }),
        next := m.next + 1,
        log := .leave_resume a .noop :: .construct a .tmp4 ::
          .return_value a (wrap_int (fr.x * fr.x)) ::
          .leave_destroy m.next :: .free m.next .destroy_state ::
          .destroy m.next .tmp4 :: .enter_destroy m.next 1 ::
          .destroy a .tmp2 :: .enter_resume a 1 ::
          .leave_resume m.next (.frame a) :: .construct m.next .tmp4 ::
          .return_value m.next fr.x :: .enter_resume m.next 0 ::
          .leave_resume a (.frame m.next) :: .set_continuation m.next (.frame a) ::
          .construct a .tmp3 :: .construct a .tmp2 :: .construct m.next .tmp1 ::
          .alloc m.next .f :: .enter_resume a 0 :: .set_continuation a .noop :: m.log }) := by
  simp only [task.execute, awaiter.await_suspend, Machine.deref, Machine.set, Machine.emit,
    coroutine_handle.resume, bind, Except.bind, h]
  rw [call_resume_g_eq _ a _ { fr with continuation_ := .noop } (by simp) hr]
  rw [__g_resume_0_eq _ a _ { fr with continuation_ := .noop } (by simp) h0 (by simpa using hn)]
  simp only [reduceCtorEq, if_false]
  rw [call_resume_f_eq _ m.next _
    { __resume := some .f, __destroy := .f, continuation_ := .frame a,
      result_ := .monostate, __suspend_point := 0, x := fr.x,
      __tmp2 := none, __tmp3 := none } (by simp) rfl]
  rw [__f_resume_eq m.next _
    { __resume := some .f, __destroy := .f, continuation_ := .frame a,
      result_ := .monostate, __suspend_point := 0, x := fr.x,
      __tmp2 := none, __tmp3 := none } (by simp) rfl]
  simp only [reduceCtorEq, if_false]
  rw [call_resume_g_eq _ a _
    { fr with continuation_ := .noop, __suspend_point := 1,
              __tmp2 := some { coro_ := .frame m.next },
              __tmp3 := some (.frame m.next) }
    (by simp [Function.update_noteq hn]) hr]
  rw [__g_resume_1_value_eq n a m.next _
    { fr with continuation_ := .noop, __suspend_point := 1,
              __tmp2 := some { coro_ := .frame m.next },
              __tmp3 := some (.frame m.next) }
    { __resume := none, __destroy := .f, continuation_ := .frame a,
      result_ := .value fr.x, __suspend_point := 1, x := fr.x,
      __tmp2 := none, __tmp3 := none } fr.x
    (by simp [Function.update_noteq hn])
    rfl rfl rfl (by simp) (Ne.symm hn) rfl rfl (Or.inr rfl)]
  simp [awaiter.await_resume, Machine.deref, bind, Except.bind]
  funext c
  simp only [Function.update_apply]
  split_ifs <;> simp_all

theorem g_eq (fuel : Nat) (x : Int) (m : Machine) :
    g fuel x m = .ok ({ coro_ := .frame m.next },
      { heap := Function.update m.heap m.next
          (some { __resume := some .g, __destroy := .g, continuation_ := .null,
                  result_ := .monostate, __suspend_point := 0, x := x,
                  __tmp2 := none, __tmp3 := none }),
        next := m.next + 1,
        log := .construct m.next .tmp1 :: .alloc m.next .g :: m.log }) := by
  simp [g, __g_state.new, promise_type.get_return_object, manual_lifetime.construct_from,
    Machine.get, Machine.set, Machine.emit, suspend_always.await_ready,
    suspend_always.await_suspend, bind, Except.bind]

theorem wrap_int_small (n : Int) (h1 : -2147483648 ≤ n) (h2 : n ≤ 2147483647) :
    wrap_int n = n := by
  unfold wrap_int
  omega

theorem square_small (x : Int) (h1 : -46340 ≤ x) (h2 : x ≤ 46340) :
    0 ≤ x * x ∧ x * x ≤ 2147483647 := by
  constructor
  · exact mul_self_nonneg x
  · nlinarith

theorem f_execute_eq (n : Nat) (x : Int) (m : Machine) :
    f_execute (n + 1) x m = .ok (.ok x,
      { heap := Function.update m.heap m.next
          (some { __resume := none, __destroy := .f, continuation_ := .noop,
                  result_ := .value x, __suspend_point := 1, x := x,
                  __tmp2 := none, __tmp3 := none }),
        next := m.next + 1,
        log := .leave_resume m.next .noop :: .construct m.next .tmp4 ::
          .return_value m.next x :: .enter_resume m.next 0 ::
          .set_continuation m.next .noop ::
          .construct m.next .tmp1 :: .alloc m.next .f :: m.log }) := by
  simp only [f_execute, f_eq, bind, Except.bind]
  rw [execute_f_eq n m.next _
    { __resume := some .f, __destroy := .f, continuation_ := .null,
      result_ := .monostate, __suspend_point := 0, x := x,
      __tmp2 := none, __tmp3 := none } (Function.update_same _ _ _) rfl rfl]
  simp

theorem g_execute_eq (n : Nat) (x : Int) (m : Machine) :
    g_execute (n + 4) x m = .ok (.ok (wrap_int (x * x)),
      { heap := Function.update (Function.update m.heap (m.next + 1) none) m.next
          (some { __resume := none, __destroy := .g, continuation_ := .noop,
                  result_ := .value (wrap_int (x * x)), __suspend_point := 2, x := x,
                  __tmp2 := none, __tmp3 := some (.frame (m.next + 1)) }),
        next := m.next + 2,
        log := .leave_resume m.next .noop :: .construct m.next .tmp4 ::
          .return_value m.next (wrap_int (x * x)) ::
          .leave_destroy (m.next + 1) :: .free (m.next + 1) .destroy_state ::
          .destroy (m.next + 1) .tmp4 :: .enter_destroy (m.next + 1) 1 ::
          .destroy m.next .tmp2 :: .enter_resume m.next 1 ::
          .leave_resume (m.next + 1) (.frame m.next) :: .construct (m.next + 1) .tmp4 ::
          .return_value (m.next + 1) x :: .enter_resume (m.next + 1) 0 ::
          .leave_resume m.next (.frame (m.next + 1)) ::
          .set_continuation (m.next + 1) (.frame m.next) ::
          .construct m.next .tmp3 :: .construct m.next .tmp2 ::
          .construct (m.next + 1) .tmp1 :: .alloc (m.next + 1) .f ::
          .enter_resume m.next 0 :: .set_continuation m.next .noop ::
          .construct m.next .tmp1 :: .alloc m.next .g :: m.log }) := by
  simp only [g_execute, g_eq, bind, Except.bind]
  rw [execute_g_eq n m.next _
    { __resume := some .g, __destroy := .g, continuation_ := .null,
      result_ := .monostate, __suspend_point := 0, x := x,
      __tmp2 := none, __tmp3 := none } (Function.update_same _ _ _) rfl rfl
    (Nat.ne_of_lt (Nat.lt_succ_self _))]
  simp
  funext c
  simp only [Function.update_apply]
  split_ifs <;> simp_all

theorem await_resume_error_eq (m : Machine) (a : Nat) (fr : Frame) (e : Exn)
    (h : m.heap a = some fr) (he : fr.result_ = .error (some e)) :
    awaiter.await_resume (.frame a) m =
      .ok (.error e, m.set a { fr with result_ := .error none }) := by
  simp [awaiter.await_resume, Machine.deref, bind, Except.bind, h, he]

/-! ## Calls that keep the control fields of every frame -/

theorem bind_ok {ε α β : Type} {a : Except ε α} {b : α → Except ε β} {r : β}
    (h : (a >>= b) = .ok r) : ∃ x, a = .ok x ∧ b x = .ok r := by
  cases a with
  | error e => simp [bind, Except.bind] at h
  | ok x => exact ⟨x, rfl, h⟩

theorem Frame.ok_of_ctl {fr fr1 : Frame} (h : fr1.ctl = fr.ctl) (hk : fr.ok) : fr1.ok := by
  simp only [Frame.ctl, Prod.mk.injEq] at h
  obtain ⟨h1, h2, h3⟩ := h
  simpa [Frame.ok, h1, h2, h3] using hk

theorem Keeps.refl (m : Machine) : Keeps m m :=
  ⟨rfl, fun _ fr1 h => ⟨fr1, h, rfl⟩⟩

theorem Keeps.trans {m m1 m2 : Machine} (h1 : Keeps m m1) (h2 : Keeps m1 m2) : Keeps m m2 := by
  refine ⟨h2.1.trans h1.1, fun a fr2 h => ?_⟩
  obtain ⟨fr1, hf1, hc1⟩ := h2.2 a fr2 h
  obtain ⟨fr, hf, hc⟩ := h1.2 a fr1 hf1
  exact ⟨fr, hf, hc1.trans hc⟩

theorem Keeps.ok {m m1 : Machine} (h : Keeps m m1) (hm : m.ok) : m1.ok := by
  refine ⟨fun a fr1 h1 => ?_, fun a ha => ?_⟩
  · obtain ⟨fr, hf, hc⟩ := h.2 a fr1 h1
    exact Frame.ok_of_ctl hc (hm.1 a fr hf)
  · cases h1 : m1.heap a with
    | none => rfl
    | some fr1 =>
      obtain ⟨fr, hf, _⟩ := h.2 a fr1 h1
      rw [hm.2 a (by rw [← h.1]; exact ha)] at hf
      cases hf

theorem keeps_emit (m : Machine) (e : Event) : Keeps m (m.emit e) :=
  ⟨rfl, fun _ fr1 h => ⟨fr1, h, rfl⟩⟩

theorem keeps_set {m : Machine} {a : Nat} {fr fr1 : Frame} (h : m.heap a = some fr)
    (hc : fr1.ctl = fr.ctl) : Keeps m (m.set a fr1) := by
  refine ⟨rfl, fun b fr2 h2 => ?_⟩
  simp only [Machine.set, Function.update_apply] at h2
  split_ifs at h2 with hb
  · subst hb
    simp only [Option.some.injEq] at h2
    subst h2
    exact ⟨fr, h, hc⟩
  · exact ⟨fr2, h2, rfl⟩

theorem keeps_delete {m m1 : Machine} {a : Nat} {s : Site} (h : m.delete a s = .ok m1) :
    Keeps m m1 := by
  unfold Machine.delete at h
  split at h
  · cases h
  · simp only [Except.ok.injEq] at h
    subst h
    refine ⟨rfl, fun b fr2 h2 => ?_⟩
    simp only [Function.update_apply] at h2
    split_ifs at h2
    exact ⟨fr2, h2, rfl⟩

theorem get_ok {m : Machine} {a : Nat} {fr : Frame} (h : m.get a = .ok fr) :
    m.heap a = some fr := by
  unfold Machine.get at h
  split at h
  · simp only [Except.ok.injEq] at h
    subst h
    assumption
  · cases h

theorem deref_ok {m : Machine} {p : Ptr} {a : Nat} {fr : Frame}
    (h : m.deref p = .ok (a, fr)) : p = .frame a ∧ m.heap a = some fr := by
  unfold Machine.deref at h
  split at h
  · cases h
  · cases h
  · split at h
    · simp only [Except.ok.injEq, Prod.mk.injEq] at h
      obtain ⟨h1, h2⟩ := h
      subst h1 h2
      exact ⟨rfl, by assumption⟩
    · cases h

theorem keeps_construct_from {m m1 : Machine} {a : Nat} {s : Slot} {store : Frame → Frame}
    (h : manual_lifetime.construct_from a s store m = .ok m1)
    (hs : ∀ fr, (store fr).ctl = fr.ctl) : Keeps m m1 := by
  unfold manual_lifetime.construct_from at h
  obtain ⟨fr, hg, h⟩ := bind_ok h
  simp only [Except.ok.injEq] at h
  subst h
  exact (keeps_set (get_ok hg) (hs fr)).trans (keeps_emit _ _)

theorem keeps_manual_destroy {m m1 : Machine} {a : Nat} {s : Slot} {clear : Frame → Frame}
    (h : manual_lifetime.destroy a s clear m = .ok m1)
    (hs : ∀ fr, (clear fr).ctl = fr.ctl) : Keeps m m1 := by
  unfold manual_lifetime.destroy at h
  obtain ⟨fr, hg, h⟩ := bind_ok h
  simp only [Except.ok.injEq] at h
  subst h
  exact (keeps_set (get_ok hg) (hs fr)).trans (keeps_emit _ _)

theorem keeps_return_value {m m1 : Machine} {a : Nat} {v : Int}
    (h : promise_type.return_value a v m = .ok m1) : Keeps m m1 := by
  unfold promise_type.return_value at h
  obtain ⟨fr, hg, h⟩ := bind_ok h
  simp only [Except.ok.injEq] at h
  subst h
  refine Keeps.trans (keeps_set (get_ok hg) ?_) (keeps_emit _ _)
  rfl

theorem keeps_unhandled_exception {m m1 : Machine} {a : Nat} {e : Exn}
    (h : promise_type.unhandled_exception a e m = .ok m1) : Keeps m m1 := by
  unfold promise_type.unhandled_exception at h
  obtain ⟨fr, hg, h⟩ := bind_ok h
  simp only [Except.ok.injEq] at h
  subst h
  refine Keeps.trans (keeps_set (get_ok hg) ?_) (keeps_emit _ _)
  rfl

theorem keeps_await_suspend {m m1 : Machine} {c h c1 : Ptr}
    (hx : awaiter.await_suspend c h m = .ok (c1, m1)) : Keeps m m1 := by
  unfold awaiter.await_suspend at hx
  obtain ⟨⟨a, fr⟩, hg, hx⟩ := bind_ok hx
  simp only [Except.ok.injEq, Prod.mk.injEq] at hx
  obtain ⟨_, hx⟩ := hx
  subst hx
  refine Keeps.trans (keeps_set (deref_ok hg).2 ?_) (keeps_emit _ _)
  rfl

theorem keeps_await_resume {m m1 : Machine} {c : Ptr} {r : Except Exn Int}
    (hx : awaiter.await_resume c m = .ok (r, m1)) : Keeps m m1 := by
  unfold awaiter.await_resume at hx
  obtain ⟨⟨a, fr⟩, hg, hx⟩ := bind_ok hx
  simp only at hx
  split at hx
  · simp only [Except.ok.injEq, Prod.mk.injEq] at hx
    obtain ⟨_, hx⟩ := hx
    subst hx
    exact keeps_set (deref_ok hg).2 rfl
  · cases hx
  · simp only [Except.ok.injEq, Prod.mk.injEq] at hx
    obtain ⟨_, hx⟩ := hx
    subst hx
    exact Keeps.refl _
  · simp only [Except.ok.injEq, Prod.mk.injEq] at hx
    obtain ⟨_, hx⟩ := hx
    subst hx
    exact Keeps.refl _

theorem keeps_f_destroy {m m1 : Machine} {s : Nat} (h : __f_destroy s m = .ok m1) :
    Keeps m m1 := by
  unfold __f_destroy at h
  obtain ⟨state, _, h⟩ := bind_ok h
  simp only at h
  split_ifs at h
  · obtain ⟨m2, h2, h⟩ := bind_ok h
    obtain ⟨m3, h3, h⟩ := bind_ok h
    simp only [Except.ok.injEq] at h
    subst h
    exact ((keeps_emit _ _).trans (keeps_manual_destroy h2 (fun _ => rfl))).trans
      ((keeps_delete h3).trans (keeps_emit _ _))
  · obtain ⟨m2, h2, h⟩ := bind_ok h
    obtain ⟨m3, h3, h⟩ := bind_ok h
    simp only [Except.ok.injEq] at h
    subst h
    exact ((keeps_emit _ _).trans (keeps_manual_destroy h2 (fun _ => rfl))).trans
      ((keeps_delete h3).trans (keeps_emit _ _))

theorem keeps_task_dtor {D : Ptr → Machine → Except Fault Machine}
    (hD : ∀ p m m1, D p m = .ok m1 → Keeps m m1) {t : task} {m m1 : Machine}
    (h : task.dtor D t m = .ok m1) : Keeps m m1 := by
  unfold task.dtor at h
  split_ifs at h
  · exact hD _ _ _ h
  · simp only [Except.ok.injEq] at h
    subst h
    exact Keeps.refl _

theorem keeps_destroy_task {D : Ptr → Machine → Except Fault Machine}
    (hD : ∀ p m m1, D p m = .ok m1 → Keeps m m1) {s : Nat} {m m1 : Machine}
    (h : manual_lifetime.destroy_task D s m = .ok m1) : Keeps m m1 := by
  unfold manual_lifetime.destroy_task at h
  obtain ⟨fr, hg, h⟩ := bind_ok h
  split at h
  · cases h
  · refine Keeps.trans (Keeps.trans (keeps_set (get_ok hg) ?_) (keeps_emit _ _))
      (keeps_task_dtor hD h)
    rfl

theorem keeps_g_destroy {D : Ptr → Machine → Except Fault Machine}
    (hD : ∀ p m m1, D p m = .ok m1 → Keeps m m1) {s : Nat} {m m1 : Machine}
    (h : __g_destroy D s m = .ok m1) : Keeps m m1 := by
  unfold __g_destroy at h
  obtain ⟨state, _, h⟩ := bind_ok h
  simp only at h
  split_ifs at h
  · obtain ⟨m2, h2, h⟩ := bind_ok h
    obtain ⟨m3, h3, h⟩ := bind_ok h
    simp only [Except.ok.injEq] at h
    subst h
    exact ((keeps_emit _ _).trans (keeps_manual_destroy h2 (fun _ => rfl))).trans
      ((keeps_delete h3).trans (keeps_emit _ _))
  · obtain ⟨m2, h2, h⟩ := bind_ok h
    obtain ⟨m3, h3, h⟩ := bind_ok h
    obtain ⟨m4, h4, h⟩ := bind_ok h
    simp only [Except.ok.injEq] at h
    subst h
    exact (((keeps_emit _ _).trans (keeps_manual_destroy h2 (fun _ => rfl))).trans
      (keeps_destroy_task hD h3)).trans ((keeps_delete h4).trans (keeps_emit _ _))
  · obtain ⟨m2, h2, h⟩ := bind_ok h
    obtain ⟨m3, h3, h⟩ := bind_ok h
    simp only [Except.ok.injEq] at h
    subst h
    exact ((keeps_emit _ _).trans (keeps_manual_destroy h2 (fun _ => rfl))).trans
      ((keeps_delete h3).trans (keeps_emit _ _))

theorem keeps_handle_destroy (fuel : Nat) :
    ∀ (p : Ptr) (m m1 : Machine), coroutine_handle.destroy fuel p m = .ok m1 → Keeps m m1 := by
  induction fuel with
  | zero =>
    intro p m m1 h
    simp [coroutine_handle.destroy] at h
  | succ n ih =>
    intro p m m1 h
    unfold coroutine_handle.destroy at h
    split at h
    · cases h
    · simp only [Except.ok.injEq] at h
      subst h
      exact Keeps.refl _
    · split at h
      · cases h
      · split at h
        · exact keeps_f_destroy h
        · exact keeps_g_destroy ih h

/-! ## Every reachable machine is well formed -/

theorem ok_update {m : Machine} (hm : m.ok) {s : Nat} {fr fr1 : Frame}
    (h : m.heap s = some fr) (hk : fr1.ok) (n : Nat) (hn : n = m.next) (l : List Event) :
    Machine.ok { heap := Function.update m.heap s (some fr1), next := n, log := l } := by
  subst hn
  refine ⟨fun a fr2 h2 => ?_, fun a ha => ?_⟩
  · simp only [Function.update_apply] at h2
    split_ifs at h2 with hb
    · simp only [Option.some.injEq] at h2
      subst h2
      exact hk
    · exact hm.1 a fr2 h2
  · simp only [Function.update_apply]
    split_ifs with hb
    · subst hb
      rw [hm.2 a ha] at h
      cases h
    · exact hm.2 a ha

theorem ok_alloc {m : Machine} (hm : m.ok) {fr1 : Frame} (hk : fr1.ok) (l : List Event) :
    Machine.ok { heap := Function.update m.heap m.next (some fr1), next := m.next + 1,
                 log := l } := by
  refine ⟨fun a fr2 h2 => ?_, fun a ha => ?_⟩
  · simp only [Function.update_apply] at h2
    split_ifs at h2 with hb
    · simp only [Option.some.injEq] at h2
      subst h2
      exact hk
    · exact hm.1 a fr2 h2
  · simp only [Function.update_apply]
    have ha1 : m.next + 1 ≤ a := ha
    split_ifs with hb
    · subst hb
      exact absurd ha1 (Nat.not_succ_le_self _)
    · exact hm.2 a (Nat.le_of_succ_le ha1)

theorem live_ne_next {m : Machine} (hm : m.ok) {s : Nat} {fr : Frame}
    (h : m.heap s = some fr) : s ≠ m.next := by
  intro hs
  rw [hm.2 s (Nat.le_of_eq hs.symm)] at h
  cases h

theorem final_suspend_ok {s : Nat} {index : Int} {m m1 : Machine} {p : Ptr}
    (h : final_suspend s index m = .ok (p, m1)) :
    ∃ fr, m.heap s = some fr ∧ m1.next = m.next ∧
      m1.heap = Function.update m.heap s
        (some { fr with __suspend_point := index, __resume := none }) := by
  cases hs : m.heap s with
  | none =>
    simp [final_suspend, manual_lifetime.construct_from, Machine.get, bind, Except.bind, hs] at h
  | some fr =>
    simp [final_suspend, manual_lifetime.construct_from, Machine.get, Machine.set,
      Machine.emit, Machine.deref, final_awaiter.await_ready, final_awaiter.await_suspend,
      destructor_guard_trivial.dtor, bind, Except.bind, hs] at h
    obtain ⟨_, h⟩ := h
    subst h
    exact ⟨fr, rfl, rfl, rfl⟩

theorem f_resume_ok {s : Nat} {m m1 : Machine} {p : Ptr} {fr : Frame} (hm : m.ok)
    (h : m.heap s = some fr) (hr : fr.__resume = some .f)
    (hx : __f_resume s m = .ok (p, m1)) : m1.ok := by
  have hk := hm.1 s fr h
  have h0 : fr.__destroy = .f ∧ fr.__suspend_point = 0 := by
    rcases hk with ⟨hd, ⟨_, h0⟩ | ⟨hn, _⟩⟩ | ⟨_, ⟨hg, _⟩ | ⟨hn, _⟩⟩
    · exact ⟨hd, h0⟩
    · rw [hr] at hn; cases hn
    · rw [hr] at hg; cases hg
    · rw [hr] at hn; cases hn
  rw [__f_resume_eq s m fr h h0.2] at hx
  simp only [Except.ok.injEq, Prod.mk.injEq] at hx
  obtain ⟨_, hx⟩ := hx
  subst hx
  refine ok_update hm h ?_ _ rfl _
  exact Or.inl ⟨h0.1, Or.inr ⟨rfl, rfl⟩⟩

theorem g_suspend_point_1_ok {fuel : Nat} {s : Nat} {m m1 : Machine} {p : Ptr} {fr : Frame}
    (hm : m.ok) (h : m.heap s = some fr) (hd : fr.__destroy = .g)
    (hx : __g_suspend_point_1 fuel s m = .ok (p, m1)) : m1.ok := by
  unfold __g_suspend_point_1 at hx
  obtain ⟨state, _, hx⟩ := bind_ok hx
  split at hx
  · cases hx
  · obtain ⟨⟨r, m2⟩, h2, hx⟩ := bind_ok hx
    obtain ⟨m3, h3, hx⟩ := bind_ok hx
    have k2 : Keeps m m2 := keeps_await_resume h2
    have k3 : Keeps m2 m3 := by
      simp only [destructor_guard.dtor, destructor_guard_trivial.dtor] at h3
      exact keeps_destroy_task (keeps_handle_destroy fuel) h3
    have fin : ∀ m4 : Machine, Keeps m3 m4 → final_suspend s 2 m4 = .ok (p, m1) → m1.ok := by
      intro m4 k4 hf
      have k : Keeps m m4 := (k2.trans k3).trans k4
      obtain ⟨fr4, h4, hn, hh⟩ := final_suspend_ok hf
      obtain ⟨fr0, h0, hc⟩ := k.2 s fr4 h4
      rw [h] at h0
      simp only [Option.some.injEq] at h0
      subst h0
      simp only [Frame.ctl, Prod.mk.injEq] at hc
      have hok := ok_update (k.ok hm) h4
        (show Frame.ok { fr4 with __suspend_point := 2, __resume := none } from
          Or.inr ⟨by rw [hc.2.1]; exact hd, Or.inr ⟨rfl, rfl⟩⟩) m1.next hn m1.log
      rw [← hh] at hok
      exact hok
    split at hx
    · obtain ⟨m4, h4, hx⟩ := bind_ok hx
      exact fin m4 (keeps_return_value h4) hx
    · obtain ⟨m4, h4, hx⟩ := bind_ok hx
      exact fin m4 (keeps_unhandled_exception h4) hx

theorem g_resume_ok {fuel : Nat} {s : Nat} {m m1 : Machine} {p : Ptr} {fr : Frame}
    (hm : m.ok) (h : m.heap s = some fr) (hr : fr.__resume = some .g)
    (hx : __g_resume fuel s m = .ok (p, m1)) : m1.ok := by
  have hk := hm.1 s fr h
  have h0 : fr.__destroy = .g ∧ (fr.__suspend_point = 0 ∨ fr.__suspend_point = 1) := by
    rcases hk with ⟨_, ⟨hf, _⟩ | ⟨hn, _⟩⟩ | ⟨hd, ⟨_, h0⟩ | ⟨hn, _⟩⟩
    · rw [hr] at hf; cases hf
    · rw [hr] at hn; cases hn
    · exact ⟨hd, h0⟩
    · rw [hr] at hn; cases hn
  rcases h0.2 with hz | ho
  · rw [__g_resume_0_eq fuel s m fr h hz (live_ne_next hm h)] at hx
    simp only [Except.ok.injEq, Prod.mk.injEq] at hx
    obtain ⟨_, hx⟩ := hx
    subst hx
    have h1 := ok_update hm h
      (show Frame.ok { fr with __suspend_point := 1,
                               __tmp2 := some { coro_ := .frame m.next },
                               __tmp3 := some (.frame m.next) } from
        Or.inr ⟨h0.1, Or.inl ⟨hr, Or.inr rfl⟩⟩) m.next rfl m.log
    exact ok_alloc h1 (Or.inl ⟨rfl, Or.inl ⟨rfl, rfl⟩⟩) _
  · have hx1 : __g_suspend_point_1 fuel s (m.emit (.enter_resume s fr.__suspend_point)) =
        .ok (p, m1) := by
      simpa [__g_resume, Machine.get, bind, Except.bind, h, ho] using hx
    exact g_suspend_point_1_ok ((keeps_emit m _).ok hm) h h0.1 hx1

theorem call_resume_ok {fuel : Nat} {s p : Ptr} {m m1 : Machine} (hm : m.ok)
    (hx : call_resume fuel s m = .ok (p, m1)) : m1.ok := by
  unfold call_resume at hx
  split at hx
  · cases hx
  · simp only [Except.ok.injEq, Prod.mk.injEq] at hx
    rw [← hx.2]
    exact hm
  · split at hx
    · cases hx
    · rename_i a fr hfr
      split at hx
      · cases hx
      · exact f_resume_ok hm hfr (by assumption) hx
      · exact g_resume_ok hm hfr (by assumption) hx

theorem task_dtor_frame (D : Ptr → Machine → Except Fault Machine) (a : Nat) (m : Machine) :
    task.dtor D { coro_ := .frame a } m = D (.frame a) m := by
  simp [task.dtor, coroutine_handle.to_bool]

theorem f_create_destroy_eq (n : Nat) (x : Int) (m : Machine) :
    f_create_destroy (n + 1) x m = .ok
      { heap := Function.update m.heap m.next none,
        next := m.next + 1,
        log := .leave_destroy m.next :: .free m.next .destroy_state ::
          .destroy m.next .tmp1 :: .enter_destroy m.next 0 ::
          .construct m.next .tmp1 :: .alloc m.next .f :: m.log } := by
  simp only [f_create_destroy, f_eq, bind, Except.bind, task_dtor_frame]
  rw [destroy_f_eq n m.next _
    { __resume := some .f, __destroy := .f, continuation_ := .null,
      result_ := .monostate, __suspend_point := 0, x := x,
      __tmp2 := none, __tmp3 := none } (Function.update_same _ _ _) rfl]
  rw [__f_destroy_eq m.next _
    { __resume := some .f, __destroy := .f, continuation_ := .null,
      result_ := .monostate, __suspend_point := 0, x := x,
      __tmp2 := none, __tmp3 := none } (Function.update_same _ _ _) (Or.inl rfl)]
  simp

theorem g_create_destroy_eq (n : Nat) (x : Int) (m : Machine) :
    g_create_destroy (n + 1) x m = .ok
      { heap := Function.update m.heap m.next none,
        next := m.next + 1,
        log := .leave_destroy m.next :: .free m.next .destroy_state ::
          .destroy m.next .tmp1 :: .enter_destroy m.next 0 ::
          .construct m.next .tmp1 :: .alloc m.next .g :: m.log } := by
  simp only [g_create_destroy, g_eq, bind, Except.bind, task_dtor_frame]
  rw [destroy_g_eq n m.next _
    { __resume := some .g, __destroy := .g, continuation_ := .null,
      result_ := .monostate, __suspend_point := 0, x := x,
      __tmp2 := none, __tmp3 := none } (Function.update_same _ _ _) rfl]
  rw [__g_destroy_0_eq _ m.next _
    { __resume := some .g, __destroy := .g, continuation_ := .null,
      result_ := .monostate, __suspend_point := 0, x := x,
      __tmp2 := none, __tmp3 := none } (Function.update_same _ _ _) rfl]
  simp

theorem f_execute_destroy_eq (n : Nat) (x : Int) (m : Machine) :
    f_execute_destroy (n + 1) x m = .ok (.ok x,
      { heap := Function.update m.heap m.next none,
        next := m.next + 1,
        log := .leave_destroy m.next :: .free m.next .destroy_state ::
          .destroy m.next .tmp4 :: .enter_destroy m.next 1 ::
          .leave_resume m.next .noop :: .construct m.next .tmp4 ::
          .return_value m.next x :: .enter_resume m.next 0 ::
          .set_continuation m.next .noop ::
          .construct m.next .tmp1 :: .alloc m.next .f :: m.log }) := by
  simp only [f_execute_destroy, f_eq, bind, Except.bind, task_dtor_frame]
  rw [execute_f_eq n m.next _
    { __resume := some .f, __destroy := .f, continuation_ := .null,
      result_ := .monostate, __suspend_point := 0, x := x,
      __tmp2 := none, __tmp3 := none } (Function.update_same _ _ _) rfl rfl]
  simp only
  rw [destroy_f_eq n m.next _
    { __resume := none, __destroy := .f, continuation_ := .noop,
      result_ := .value x, __suspend_point := 1, x := x,
      __tmp2 := none, __tmp3 := none } (Function.update_same _ _ _) rfl]
  rw [__f_destroy_eq m.next _
    { __resume := none, __destroy := .f, continuation_ := .noop,
      result_ := .value x, __suspend_point := 1, x := x,
      __tmp2 := none, __tmp3 := none } (Function.update_same _ _ _) (Or.inr rfl)]
  simp

theorem g_execute_destroy_eq (n : Nat) (x : Int) (m : Machine) :
    g_execute_destroy (n + 4) x m = .ok (.ok (wrap_int (x * x)),
      { heap := Function.update (Function.update m.heap (m.next + 1) none) m.next none,
        next := m.next + 2,
        log := .leave_destroy m.next :: .free m.next .destroy_state ::
          .destroy m.next .tmp4 :: .enter_destroy m.next 2 ::
          .leave_resume m.next .noop :: .construct m.next .tmp4 ::
          .return_value m.next (wrap_int (x * x)) ::
          .leave_destroy (m.next + 1) :: .free (m.next + 1) .destroy_state ::
          .destroy (m.next + 1) .tmp4 :: .enter_destroy (m.next + 1) 1 ::
          .destroy m.next .tmp2 :: .enter_resume m.next 1 ::
          .leave_resume (m.next + 1) (.frame m.next) :: .construct (m.next + 1) .tmp4 ::
          .return_value (m.next + 1) x :: .enter_resume (m.next + 1) 0 ::
          .leave_resume m.next (.frame (m.next + 1)) ::
          .set_continuation (m.next + 1) (.frame m.next) ::
          .construct m.next .tmp3 :: .construct m.next .tmp2 ::
          .construct (m.next + 1) .tmp1 :: .alloc (m.next + 1) .f ::
          .enter_resume m.next 0 :: .set_continuation m.next .noop ::
          .construct m.next .tmp1 :: .alloc m.next .g :: m.log }) := by
  simp only [g_execute_destroy, g_eq, bind, Except.bind, task_dtor_frame]
  rw [execute_g_eq n m.next _
    { __resume := some .g, __destroy := .g, continuation_ := .null,
      result_ := .monostate, __suspend_point := 0, x := x,
      __tmp2 := none, __tmp3 := none } (Function.update_same _ _ _) rfl rfl
    (Nat.ne_of_lt (Nat.lt_succ_self _))]
  simp only
  rw [destroy_g_eq (n + 3) m.next _
    { __resume := none, __destroy := .g, continuation_ := .noop,
      result_ := .value (wrap_int (x * x)), __suspend_point := 2, x := x,
      __tmp2 := none, __tmp3 := some (.frame (m.next + 1)) }
    (Function.update_same _ _ _) rfl]
  rw [__g_destroy_2_eq _ m.next _
    { __resume := none, __destroy := .g, continuation_ := .noop,
      result_ := .value (wrap_int (x * x)), __suspend_point := 2, x := x,
      __tmp2 := none, __tmp3 := some (.frame (m.next + 1)) }
    (Function.update_same _ _ _) rfl]
  simp
  funext c
  simp only [Function.update_apply]
  split_ifs <;> simp_all

theorem g_resume_once_destroy_eq (n : Nat) (x : Int) (m : Machine) :
    g_resume_once_destroy (n + 2) x m = .ok
      { heap := Function.update (Function.update m.heap (m.next + 1) none) m.next none,
        next := m.next + 2,
        log := .leave_destroy m.next :: .free m.next .destroy_state ::
          .leave_destroy (m.next + 1) :: .free (m.next + 1) .destroy_state ::
          .destroy (m.next + 1) .tmp1 :: .enter_destroy (m.next + 1) 0 ::
          .destroy m.next .tmp2 :: .destroy m.next .tmp3 :: .enter_destroy m.next 1 ::
          .leave_resume m.next (.frame (m.next + 1)) ::
          .set_continuation (m.next + 1) (.frame m.next) ::
          .construct m.next .tmp3 :: .construct m.next .tmp2 ::
          .construct (m.next + 1) .tmp1 :: .alloc (m.next + 1) .f ::
          .enter_resume m.next 0 ::
          .construct m.next .tmp1 :: .alloc m.next .g :: m.log } := by
  simp only [g_resume_once_destroy, g_eq, bind, Except.bind, task_dtor_frame]
  rw [call_resume_g_eq _ m.next _
    { __resume := some .g, __destroy := .g, continuation_ := .null,
      result_ := .monostate, __suspend_point := 0, x := x,
      __tmp2 := none, __tmp3 := none } (Function.update_same _ _ _) rfl]
  rw [__g_resume_0_eq _ m.next _
    { __resume := some .g, __destroy := .g, continuation_ := .null,
      result_ := .monostate, __suspend_point := 0, x := x,
      __tmp2 := none, __tmp3 := none } (Function.update_same _ _ _) rfl
    (Nat.ne_of_lt (Nat.lt_succ_self _))]
  simp only
  rw [destroy_g_eq (n + 1) m.next _
    { __resume := some .g, __destroy := .g, continuation_ := .null,
      result_ := .monostate, __suspend_point := 1, x := x,
      __tmp2 := some { coro_ := .frame (m.next + 1) },
      __tmp3 := some (.frame (m.next + 1)) } (by simp) rfl]
  rw [__g_destroy_1_eq n m.next (m.next + 1) _
    { __resume := some .g, __destroy := .g, continuation_ := .null,
      result_ := .monostate, __suspend_point := 1, x := x,
      __tmp2 := some { coro_ := .frame (m.next + 1) },
      __tmp3 := some (.frame (m.next + 1)) }
    { __resume := some .f, __destroy := .f, continuation_ := .frame m.next,
      result_ := .monostate, __suspend_point := 0, x := x,
      __tmp2 := none, __tmp3 := none } (by simp) rfl rfl (by simp) (by simp) rfl (Or.inl rfl)]
  simp
  funext c
  simp only [Function.update_apply]
  split_ifs <;> simp_all

theorem g_resume_twice_destroy_eq (n : Nat) (x : Int) (m : Machine) :
    g_resume_twice_destroy (n + 2) x m = .ok
      { heap := Function.update (Function.update m.heap (m.next + 1) none) m.next none,
        next := m.next + 2,
        log := .leave_destroy m.next :: .free m.next .destroy_state ::
          .leave_destroy (m.next + 1) :: .free (m.next + 1) .destroy_state ::
          .destroy (m.next + 1) .tmp4 :: .enter_destroy (m.next + 1) 1 ::
          .destroy m.next .tmp2 :: .destroy m.next .tmp3 :: .enter_destroy m.next 1 ::
          .leave_resume (m.next + 1) (.frame m.next) :: .construct (m.next + 1) .tmp4 ::
          .return_value (m.next + 1) x :: .enter_resume (m.next + 1) 0 ::
          .leave_resume m.next (.frame (m.next + 1)) ::
          .set_continuation (m.next + 1) (.frame m.next) ::
          .construct m.next .tmp3 :: .construct m.next .tmp2 ::
          .construct (m.next + 1) .tmp1 :: .alloc (m.next + 1) .f ::
          .enter_resume m.next 0 ::
          .construct m.next .tmp1 :: .alloc m.next .g :: m.log } := by
  simp only [g_resume_twice_destroy, g_eq, bind, Except.bind, task_dtor_frame]
  rw [call_resume_g_eq _ m.next _
    { __resume := some .g, __destroy := .g, continuation_ := .null,
      result_ := .monostate, __suspend_point := 0, x := x,
      __tmp2 := none, __tmp3 := none } (Function.update_same _ _ _) rfl]
  rw [__g_resume_0_eq _ m.next _
    { __resume := some .g, __destroy := .g, continuation_ := .null,
      result_ := .monostate, __suspend_point := 0, x := x,
      __tmp2 := none, __tmp3 := none } (Function.update_same _ _ _) rfl
    (Nat.ne_of_lt (Nat.lt_succ_self _))]
  simp only
  rw [call_resume_f_eq _ (m.next + 1) _
    { __resume := some .f, __destroy := .f, continuation_ := .frame m.next,
      result_ := .monostate, __suspend_point := 0, x := x,
      __tmp2 := none, __tmp3 := none } (by simp) rfl]
  rw [__f_resume_eq (m.next + 1) _
    { __resume := some .f, __destroy := .f, continuation_ := .frame m.next,
      result_ := .monostate, __suspend_point := 0, x := x,
      __tmp2 := none, __tmp3 := none } (by simp) rfl]
  simp only
  rw [destroy_g_eq (n + 1) m.next _
    { __resume := some .g, __destroy := .g, continuation_ := .null,
      result_ := .monostate, __suspend_point := 1, x := x,
      __tmp2 := some { coro_ := .frame (m.next + 1) },
      __tmp3 := some (.frame (m.next + 1)) } (by simp) rfl]
  rw [__g_destroy_1_eq n m.next (m.next + 1) _
    { __resume := some .g, __destroy := .g, continuation_ := .null,
      result_ := .monostate, __suspend_point := 1, x := x,
      __tmp2 := some { coro_ := .frame (m.next + 1) },
      __tmp3 := some (.frame (m.next + 1)) }
    { __resume := none, __destroy := .f, continuation_ := .frame m.next,
      result_ := .value x, __suspend_point := 1, x := x,
      __tmp2 := none, __tmp3 := none } (by simp) rfl rfl (by simp) (by simp) rfl (Or.inr rfl)]
  simp
  funext c
  simp only [Function.update_apply]
  split_ifs <;> simp_all

/-! ## Destroy calls never call a resume entry -/

theorem nrn_ok {α : Type} (x : α) : no_resume_null (Except.ok x : Except Fault α) := by
  intro a h
  cases h

theorem nrn_bind {α β : Type} {a : Except Fault α} {b : α → Except Fault β}
    (ha : no_resume_null a) (hb : ∀ x, no_resume_null (b x)) : no_resume_null (a >>= b) := by
  cases a with
  | error e =>
    intro c h
    exact ha c (by simpa [bind, Except.bind] using h)
  | ok x => exact hb x

theorem nrn_get (m : Machine) (a : Nat) : no_resume_null (m.get a) := by
  unfold Machine.get
  split <;> simp [no_resume_null]

theorem nrn_delete (m : Machine) (a : Nat) (s : Site) : no_resume_null (m.delete a s) := by
  unfold Machine.delete
  split <;> simp [no_resume_null]

theorem nrn_manual_destroy (a : Nat) (s : Slot) (clear : Frame → Frame) (m : Machine) :
    no_resume_null (manual_lifetime.destroy a s clear m) := by
  unfold manual_lifetime.destroy
  exact nrn_bind (nrn_get _ _) (fun _ => nrn_ok _)

theorem nrn_f_destroy (s : Nat) (m : Machine) : no_resume_null (__f_destroy s m) := by
  unfold __f_destroy
  refine nrn_bind (nrn_get _ _) (fun state => ?_)
  dsimp only
  split_ifs
  · exact nrn_bind (nrn_manual_destroy _ _ _ _)
      (fun _ => nrn_bind (nrn_delete _ _ _) (fun _ => nrn_ok _))
  · exact nrn_bind (nrn_manual_destroy _ _ _ _)
      (fun _ => nrn_bind (nrn_delete _ _ _) (fun _ => nrn_ok _))
  · simp [no_resume_null]

theorem nrn_task_dtor {D : Ptr → Machine → Except Fault Machine}
    (hD : ∀ p m, no_resume_null (D p m)) (t : task) (m : Machine) :
    no_resume_null (task.dtor D t m) := by
  unfold task.dtor
  split_ifs
  · exact hD _ _
  · exact nrn_ok _

theorem nrn_destroy_task {D : Ptr → Machine → Except Fault Machine}
    (hD : ∀ p m, no_resume_null (D p m)) (s : Nat) (m : Machine) :
    no_resume_null (manual_lifetime.destroy_task D s m) := by
  unfold manual_lifetime.destroy_task
  refine nrn_bind (nrn_get _ _) (fun fr => ?_)
  split
  · simp [no_resume_null]
  · exact nrn_task_dtor hD _ _

theorem nrn_g_destroy {D : Ptr → Machine → Except Fault Machine}
    (hD : ∀ p m, no_resume_null (D p m)) (s : Nat) (m : Machine) :
    no_resume_null (__g_destroy D s m) := by
  unfold __g_destroy
  refine nrn_bind (nrn_get _ _) (fun state => ?_)
  dsimp only
  split_ifs
  · exact nrn_bind (nrn_manual_destroy _ _ _ _)
      (fun _ => nrn_bind (nrn_delete _ _ _) (fun _ => nrn_ok _))
  · exact nrn_bind (nrn_manual_destroy _ _ _ _)
      (fun _ => nrn_bind (nrn_destroy_task hD _ _)
        (fun _ => nrn_bind (nrn_delete _ _ _) (fun _ => nrn_ok _)))
  · exact nrn_bind (nrn_manual_destroy _ _ _ _)
      (fun _ => nrn_bind (nrn_delete _ _ _) (fun _ => nrn_ok _))
  · simp [no_resume_null]

theorem nrn_handle_destroy (fuel : Nat) :
    ∀ (p : Ptr) (m : Machine), no_resume_null (coroutine_handle.destroy fuel p m) := by
  induction fuel with
  | zero =>
    intro p m
    simp [coroutine_handle.destroy, no_resume_null]
  | succ n ih =>
    intro p m
    unfold coroutine_handle.destroy
    split
    · simp [no_resume_null]
    · exact nrn_ok _
    · split
      · simp [no_resume_null]
      · split
        · exact nrn_f_destroy _ _
        · exact nrn_g_destroy ih _ _

theorem Keeps.rest {m m1 : Machine} (h : Keeps m m1) (hm : m.rest) : m1.rest := by
  refine ⟨h.ok hm.1, fun a fr1 h1 hd => ?_⟩
  obtain ⟨fr, hf, hc⟩ := h.2 a fr1 h1
  simp only [Frame.ctl, Prod.mk.injEq] at hc
  rw [hc.2.2]
  exact hm.2 a fr hf (by rw [← hc.2.1]; exact hd)

/-- A task destructor either keeps the machine at rest or stops with a fault
that is not a call through a null resume entry. -/
theorem task_dtor_rest (fuel : Nat) (t : task) (m : Machine) (hm : m.rest) :
    (∃ m1, task.dtor (coroutine_handle.destroy fuel) t m = .ok m1 ∧ m1.rest) ∨
    (∃ e, task.dtor (coroutine_handle.destroy fuel) t m = .error e ∧
      ∀ a, e ≠ .resume_null a) := by
  cases hr : task.dtor (coroutine_handle.destroy fuel) t m with
  | ok m1 =>
    exact Or.inl ⟨m1, rfl, (keeps_task_dtor (keeps_handle_destroy fuel) hr).rest hm⟩
  | error e =>
    refine Or.inr ⟨e, rfl, fun a ha => ?_⟩
    subst ha
    exact nrn_task_dtor (nrn_handle_destroy fuel) t m a hr

/-! ## `execute` on a machine at rest -/

theorem __g_resume_1_no_fuel (s b : Nat) (m : Machine) (fr lf : Frame) (v : Int)
    (h : m.heap s = some fr) (h1 : fr.__suspend_point = 1)
    (ha : fr.__tmp3 = some (.frame b)) (ht : fr.__tmp2 = some { coro_ := .frame b })
    (hb : m.heap b = some lf) (hv : lf.result_ = .value v) :
    __g_resume 0 s m = .error .out_of_fuel := by
  simp [__g_resume, __g_suspend_point_1, awaiter.await_resume, destructor_guard.dtor,
    destructor_guard_trivial.dtor, manual_lifetime.destroy_task, task.dtor,
    coroutine_handle.to_bool, coroutine_handle.destroy, Machine.get, Machine.set,
    Machine.emit, Machine.deref, bind, Except.bind, h, h1, ha, ht, hb, hv]

theorem execute_f_no_fuel (a : Nat) (m : Machine) (fr : Frame) (h : m.heap a = some fr) :
    task.execute 0 { coro_ := .frame a } m = .error .out_of_fuel := by
  simp [task.execute, awaiter.await_suspend, Machine.deref, coroutine_handle.resume,
    bind, Except.bind, h]

theorem execute_g_small (k : Nat) (hk : k < 4) (a : Nat) (m : Machine) (fr : Frame)
    (h : m.heap a = some fr) (hr : fr.__resume = some .g) (h0 : fr.__suspend_point = 0)
    (hn : a ≠ m.next) :
    task.execute k { coro_ := .frame a } m = .error .out_of_fuel := by
  match k, hk with
  | 0, _ => exact execute_f_no_fuel a m fr h
  | 1, _ =>
    simp only [task.execute, awaiter.await_suspend, Machine.deref, Machine.set, Machine.emit,
      coroutine_handle.resume, bind, Except.bind, h]
    rw [call_resume_g_eq _ a _ { fr with continuation_ := .noop } (by simp) hr]
    rw [__g_resume_0_eq _ a _ { fr with continuation_ := .noop } (by simp) h0
      (by simpa using hn)]
    simp
  | 2, _ =>
    simp only [task.execute, awaiter.await_suspend, Machine.deref, Machine.set, Machine.emit,
      coroutine_handle.resume, bind, Except.bind, h]
    rw [call_resume_g_eq _ a _ { fr with continuation_ := .noop } (by simp) hr]
    rw [__g_resume_0_eq _ a _ { fr with continuation_ := .noop } (by simp) h0
      (by simpa using hn)]
    simp only [reduceCtorEq, if_false]
    rw [call_resume_f_eq _ m.next _
      { __resume := some .f, __destroy := .f, continuation_ := .frame a,
        result_ := .monostate, __suspend_point := 0, x := fr.x,
        __tmp2 := none, __tmp3 := none } (by simp) rfl]
    rw [__f_resume_eq m.next _
      { __resume := some .f, __destroy := .f, continuation_ := .frame a,
        result_ := .monostate, __suspend_point := 0, x := fr.x,
        __tmp2 := none, __tmp3 := none } (by simp) rfl]
    simp
  | 3, _ =>
    simp only [task.execute, awaiter.await_suspend, Machine.deref, Machine.set, Machine.emit,
      coroutine_handle.resume, bind, Except.bind, h]
    rw [call_resume_g_eq _ a _ { fr with continuation_ := .noop } (by simp) hr]
    rw [__g_resume_0_eq _ a _ { fr with continuation_ := .noop } (by simp) h0
      (by simpa using hn)]
    simp only [reduceCtorEq, if_false]
    rw [call_resume_f_eq _ m.next _
      { __resume := some .f, __destroy := .f, continuation_ := .frame a,
        result_ := .monostate, __suspend_point := 0, x := fr.x,
        __tmp2 := none, __tmp3 := none } (by simp) rfl]
    rw [__f_resume_eq m.next _
      { __resume := some .f, __destroy := .f, continuation_ := .frame a,
        result_ := .monostate, __suspend_point := 0, x := fr.x,
        __tmp2 := none, __tmp3 := none } (by simp) rfl]
    simp only [reduceCtorEq, if_false]
    rw [call_resume_g_eq _ a _
      { fr with continuation_ := .noop, __suspend_point := 1,
                __tmp2 := some { coro_ := .frame m.next },
                __tmp3 := some (.frame m.next) }
      (by simp [Function.update_noteq hn]) hr]
    rw [__g_resume_1_no_fuel a m.next _
      { fr with continuation_ := .noop, __suspend_point := 1,
                __tmp2 := some { coro_ := .frame m.next },
                __tmp3 := some (.frame m.next) }
      { __resume := none, __destroy := .f, continuation_ := .frame a,
        result_ := .value fr.x, __suspend_point := 1, x := fr.x,
        __tmp2 := none, __tmp3 := none } fr.x
      (by simp [Function.update_noteq hn]) rfl rfl rfl (by simp) rfl]

theorem rest_frame {m : Machine} (hm : m.rest) {a : Nat} {fr : Frame}
    (h : m.heap a = some fr) :
    fr.__resume = none ∨ (fr.__resume = some .f ∧ fr.__suspend_point = 0) ∨
      (fr.__resume = some .g ∧ fr.__suspend_point = 0) := by
  rcases hm.1.1 a fr h with ⟨_, ⟨hr, h0⟩ | ⟨hr, _⟩⟩ | ⟨hd, ⟨hr, h0 | h1⟩ | ⟨hr, _⟩⟩
  · exact Or.inr (Or.inl ⟨hr, h0⟩)
  · exact Or.inl hr
  · exact Or.inr (Or.inr ⟨hr, h0⟩)
  · exact absurd h1 (hm.2 a fr h hd)
  · exact Or.inl hr

theorem rest_done {m : Machine} (hm : m.rest) {a : Nat} {fr fr1 : Frame}
    (h : m.heap a = some fr) (hr : fr1.__resume = none) (hd : fr1.__destroy = fr.__destroy)
    (hs : fr1.__suspend_point = fr.__destroy.final_index) (l : List Event) :
    Machine.rest { heap := Function.update m.heap a (some fr1), next := m.next, log := l } := by
  have hk : fr1.ok := by
    cases hc : fr.__destroy with
    | f => exact Or.inl ⟨by rw [hd, hc], Or.inr ⟨hr, by rw [hs, hc]; rfl⟩⟩
    | g => exact Or.inr ⟨by rw [hd, hc], Or.inr ⟨hr, by rw [hs, hc]; rfl⟩⟩
  refine ⟨ok_update hm.1 h hk _ rfl _, fun c fr2 h2 hg => ?_⟩
  simp only [Function.update_apply] at h2
  split_ifs at h2 with hb
  · simp only [Option.some.injEq] at h2
    subst h2
    rw [hs, ← hd, hg]
    decide
  · exact hm.2 c fr2 h2 hg

theorem rest_skip {m : Machine} (hm : m.rest) (l : List Event) :
    Machine.rest { heap := Function.update m.heap m.next none, next := m.next + 1,
                   log := l } := by
  refine ⟨⟨fun c fr2 h2 => ?_, fun c hc => ?_⟩, fun c fr2 h2 hg => ?_⟩
  · simp only [Function.update_apply] at h2
    split_ifs at h2
    exact hm.1.1 c fr2 h2
  · simp only [Function.update_apply]
    split_ifs
    · rfl
    · exact hm.1.2 c (Nat.le_of_succ_le hc)
  · simp only [Function.update_apply] at h2
    split_ifs at h2
    exact hm.2 c fr2 h2 hg

/-- On a machine at rest, `execute` on a task whose frame is not done either
returns and leaves the machine at rest, or stops with a fault that is not a
call through a null resume entry. -/
theorem execute_rest (fuel : Nat) (t : task) (m : Machine) (hm : m.rest)
    (hnd : coroutine_handle.done t.coro_ m ≠ .ok true) :
    (∃ r m1, task.execute fuel t m = .ok (r, m1) ∧ m1.rest) ∨
    (∃ e, task.execute fuel t m = .error e ∧ ∀ a, e ≠ .resume_null a) := by
  obtain ⟨p⟩ := t
  cases p with
  | null =>
    exact Or.inr ⟨.null_handle, by
      simp [task.execute, awaiter.await_suspend, Machine.deref, bind, Except.bind], by simp⟩
  | noop =>
    exact Or.inr ⟨.noop_frame, by
      simp [task.execute, awaiter.await_suspend, Machine.deref, bind, Except.bind], by simp⟩
  | frame a =>
    cases h : m.heap a with
    | none =>
      exact Or.inr ⟨.no_frame a, by
        simp [task.execute, awaiter.await_suspend, Machine.deref, bind, Except.bind, h],
        by simp⟩
    | some fr =>
      rcases rest_frame hm h with hr | ⟨hr, h0⟩ | ⟨hr, h0⟩
      · exact absurd (by simp [coroutine_handle.done, h, hr]) hnd
      · cases fuel with
        | zero => exact Or.inr ⟨.out_of_fuel, execute_f_no_fuel a m fr h, by simp⟩
        | succ n =>
          refine Or.inl ⟨_, _, execute_f_eq n a m fr h hr h0, ?_⟩
          have hd : fr.__destroy = .f := by
            rcases hm.1.1 a fr h with ⟨hd, _⟩ | ⟨_, ⟨hg, _⟩ | ⟨hn, _⟩⟩
            · exact hd
            · rw [hr] at hg; cases hg
            · rw [hr] at hn; cases hn
          refine rest_done hm h ?_ ?_ ?_ _
          · rfl
          · rfl
          · rw [hd]
            rfl
      · have hn : a ≠ m.next := live_ne_next hm.1 h
        by_cases hk : fuel < 4
        · exact Or.inr ⟨.out_of_fuel, execute_g_small fuel hk a m fr h hr h0 hn, by simp⟩
        · obtain ⟨n, rfl⟩ : ∃ n, fuel = n + 4 := ⟨fuel - 4, by omega⟩
          refine Or.inl ⟨_, _, execute_g_eq n a m fr h hr h0 hn, ?_⟩
          have hd : fr.__destroy = .g := by
            rcases hm.1.1 a fr h with ⟨_, ⟨hf, _⟩ | ⟨hn, _⟩⟩ | ⟨hd, _⟩
            · rw [hr] at hf; cases hf
            · rw [hr] at hn; cases hn
            · exact hd
          have h1 := rest_skip hm m.log
          have h2 : (Function.update m.heap m.next none) a = some fr := by
            simpa [Function.update_noteq hn] using h
          refine rest_done h1 h2 ?_ ?_ ?_ _
          · rfl
          · rfl
          · rw [hd]
            rfl

/-! ## Callers that execute a task once -/

theorem rest_alloc {m : Machine} (hm : m.rest) {fr1 : Frame} (hk : fr1.ok)
    (h0 : fr1.__suspend_point = 0) (l : List Event) :
    Machine.rest { heap := Function.update m.heap m.next (some fr1), next := m.next + 1,
                   log := l } := by
  refine ⟨ok_alloc hm.1 hk l, fun c fr2 h2 hg => ?_⟩
  simp only [Function.update_apply] at h2
  split_ifs at h2
  · simp only [Option.some.injEq] at h2
    subst h2
    rw [h0]
    decide
  · exact hm.2 c fr2 h2 hg

theorem task_ok {w : World} {i : Nat} {t : task} (h : w.task i = .ok t) :
    w.tasks[i]? = some (some t) := by
  unfold World.task at h
  split at h
  · simp only [Except.ok.injEq] at h
    subst h
    assumption
  · cases h

theorem task_error {w : World} {i : Nat} {e : Fault} (h : w.task i = .error e) :
    ∀ a, e ≠ .resume_null a := by
  unfold World.task at h
  split at h
  · cases h
  · simp only [Except.error.injEq] at h
    subst h
    simp

theorem run_op_rest (fuel : Nat) (op : Op) (w : World) (hm : w.m.rest)
    (hg : ∀ i, op = .execute i → w.task_done i = false) :
    (∃ w1, run_op fuel op w = .ok w1 ∧ w1.m.rest) ∨
    (∃ e, run_op fuel op w = .error e ∧ ∀ a, e ≠ .resume_null a) := by
  cases op with
  | call_f x =>
    refine Or.inl ⟨_, by simp only [run_op, f_eq, bind, Except.bind]; rfl, ?_⟩
    exact rest_alloc hm (Or.inl ⟨rfl, Or.inl ⟨rfl, rfl⟩⟩) rfl _
  | call_g x =>
    refine Or.inl ⟨_, by simp only [run_op, g_eq, bind, Except.bind]; rfl, ?_⟩
    exact rest_alloc hm (Or.inr ⟨rfl, Or.inl ⟨rfl, Or.inl rfl⟩⟩) rfl _
  | execute i =>
    cases ht : w.task i with
    | error e =>
      exact Or.inr ⟨e, by simp [run_op, bind, Except.bind, ht], task_error ht⟩
    | ok t =>
      have hnd : coroutine_handle.done t.coro_ w.m ≠ .ok true := by
        have hd := hg i rfl
        simp only [World.task_done, task_ok ht] at hd
        intro hx
        rw [hx] at hd
        cases hd
      rcases execute_rest fuel t w.m hm hnd with ⟨r, m1, hx, h1⟩ | ⟨e, hx, he⟩
      · refine Or.inl ⟨_, by simp only [run_op, bind, Except.bind, ht, hx]; rfl, ?_⟩
        exact h1
      · exact Or.inr ⟨e, by simp only [run_op, bind, Except.bind, ht, hx], he⟩
  | move_construct i =>
    cases ht : w.task i with
    | error e =>
      exact Or.inr ⟨e, by simp [run_op, bind, Except.bind, ht], task_error ht⟩
    | ok t =>
      refine Or.inl ⟨_, by simp only [run_op, bind, Except.bind, ht, task.move_ctor]; rfl, ?_⟩
      exact hm
  | move_assign i j =>
    cases ht : w.task j with
    | error e =>
      exact Or.inr ⟨e, by simp [run_op, task.move_assign, bind, Except.bind, ht],
        task_error ht⟩
    | ok t =>
      cases hs : World.task { w with tasks := w.tasks.set j (some { coro_ := .null }) } i with
      | error e =>
        exact Or.inr ⟨e, by
          simp [run_op, task.move_assign, task.move_ctor, bind, Except.bind, ht, hs],
          task_error hs⟩
      | ok self =>
        rcases task_dtor_rest fuel self w.m hm with ⟨m1, hx, h1⟩ | ⟨e, hx, he⟩
        · refine Or.inl ⟨_, by
            simp only [run_op, task.move_assign, task.move_ctor, bind, Except.bind, ht, hs,
              hx]; rfl, ?_⟩
          exact h1
        · exact Or.inr ⟨e, by
            simp only [run_op, task.move_assign, task.move_ctor, bind, Except.bind, ht, hs,
              hx], he⟩
  | destruct i =>
    cases ht : w.task i with
    | error e =>
      exact Or.inr ⟨e, by simp [run_op, bind, Except.bind, ht], task_error ht⟩
    | ok t =>
      rcases task_dtor_rest fuel t w.m hm with ⟨m1, hx, h1⟩ | ⟨e, hx, he⟩
      · refine Or.inl ⟨_, by simp only [run_op, bind, Except.bind, ht, hx]; rfl, ?_⟩
        exact h1
      · exact Or.inr ⟨e, by simp only [run_op, bind, Except.bind, ht, hx], he⟩

theorem run_ops_rest (fuel : Nat) (ops : List Op) :
    ∀ w : World, w.m.rest → executes_once fuel ops w →
      no_resume_null (run_ops fuel ops w) := by
  induction ops with
  | nil =>
    intro w _ _
    exact nrn_ok w
  | cons op ops ih =>
    intro w hm hg a
    rcases run_op_rest fuel op w hm hg.1 with ⟨w1, hx, h1⟩ | ⟨e, hx, he⟩
    · simp only [run_ops, hx]
      exact ih w1 h1 (hg.2 w1 hx) a
    · simp only [run_ops, hx]
      intro hc
      simp only [Except.error.injEq] at hc
      exact he a hc

theorem executes_once_cons {fuel : Nat} {op : Op} {ops : List Op} {w w1 : World}
    (hr : run_op fuel op w = .ok w1) (hd : ∀ i, op = .execute i → w.task_done i = false)
    (ht : executes_once fuel ops w1) : executes_once fuel (op :: ops) w := by
  refine ⟨hd, fun w2 h2 => ?_⟩
  rw [hr] at h2
  cases h2
  exact ht

theorem rest_init : Machine.init.rest :=
  ⟨⟨fun a fr h => by simp [Machine.init] at h, fun _ _ => rfl⟩,
    fun a fr h => by simp [Machine.init] at h⟩

/-! ## The shape of every destroy call and of every resume call -/

theorem manual_destroy_ok {m m1 : Machine} {a : Nat} {s : Slot} {clear : Frame → Frame}
    (h : manual_lifetime.destroy a s clear m = .ok m1) :
    ∃ fr, m.heap a = some fr ∧ m1 = (m.set a (clear fr)).emit (.destroy a s) := by
  unfold manual_lifetime.destroy at h
  obtain ⟨fr, hg, h⟩ := bind_ok h
  simp only [Except.ok.injEq] at h
  exact ⟨fr, get_ok hg, h.symm⟩

theorem delete_ok {m m1 : Machine} {a : Nat} {s : Site} (h : m.delete a s = .ok m1) :
    ∃ fr, m.heap a = some fr ∧
      m1 = { m with heap := Function.update m.heap a none, log := .free a s :: m.log } := by
  unfold Machine.delete at h
  split at h
  · cases h
  · simp only [Except.ok.injEq] at h
    exact ⟨_, by assumption, h.symm⟩

theorem destroy_task_ok {D : Ptr → Machine → Except Fault Machine} {m m1 : Machine} {a : Nat}
    (h : manual_lifetime.destroy_task D a m = .ok m1) :
    ∃ fr t, m.heap a = some fr ∧ fr.__tmp2 = some t ∧
      task.dtor D t ((m.set a { fr with __tmp2 := none }).emit (.destroy a .tmp2)) = .ok m1 := by
  unfold manual_lifetime.destroy_task at h
  obtain ⟨fr, hg, h⟩ := bind_ok h
  split at h
  · cases h
  · exact ⟨fr, _, get_ok hg, by assumption, h⟩

theorem return_value_ok {m m1 : Machine} {a : Nat} {v : Int}
    (h : promise_type.return_value a v m = .ok m1) :
    ∃ fr, m.heap a = some fr ∧
      m1 = (m.set a { fr with result_ := .value v }).emit (.return_value a v) := by
  unfold promise_type.return_value at h
  obtain ⟨fr, hg, h⟩ := bind_ok h
  simp only [Except.ok.injEq] at h
  exact ⟨fr, get_ok hg, h.symm⟩

theorem unhandled_exception_ok {m m1 : Machine} {a : Nat} {e : Exn}
    (h : promise_type.unhandled_exception a e m = .ok m1) :
    ∃ fr, m.heap a = some fr ∧
      m1 = (m.set a { fr with result_ := .error (some e) }).emit
        (.unhandled_exception a e) := by
  unfold promise_type.unhandled_exception at h
  obtain ⟨fr, hg, h⟩ := bind_ok h
  simp only [Except.ok.injEq] at h
  exact ⟨fr, get_ok hg, h.symm⟩

theorem await_resume_log {m m1 : Machine} {c : Ptr} {r : Except Exn Int}
    (hx : awaiter.await_resume c m = .ok (r, m1)) : m1.log = m.log := by
  unfold awaiter.await_resume at hx
  obtain ⟨⟨a, fr⟩, _, hx⟩ := bind_ok hx
  simp only at hx
  split at hx
  · simp only [Except.ok.injEq, Prod.mk.injEq] at hx
    rw [← hx.2]
    rfl
  · cases hx
  · simp only [Except.ok.injEq, Prod.mk.injEq] at hx
    rw [← hx.2]
  · simp only [Except.ok.injEq, Prod.mk.injEq] at hx
    rw [← hx.2]

theorem Tears.nil (m : Machine) : Tears m m :=
  ⟨[], rfl, fun _ h => by cases h⟩

theorem f_destroy_ok {m m1 : Machine} {s : Nat} (h : __f_destroy s m = .ok m1) :
    ∃ fr, m.heap s = some fr ∧ (fr.__suspend_point = 0 ∨ fr.__suspend_point = 1) := by
  cases hs : m.heap s with
  | none => simp [__f_destroy, Machine.get, bind, Except.bind, hs] at h
  | some fr =>
    refine ⟨fr, rfl, ?_⟩
    by_contra hc
    simp only [not_or] at hc
    simp [__f_destroy, Machine.get, bind, Except.bind, hs, hc.1, hc.2] at h

theorem tears_f_destroy {m m1 : Machine} {s : Nat} (h : __f_destroy s m = .ok m1) :
    Tears m m1 := by
  obtain ⟨fr, hs, hsp⟩ := f_destroy_ok h
  rw [__f_destroy_eq s m fr hs hsp] at h
  simp only [Except.ok.injEq] at h
  subst h
  refine ⟨[.leave_destroy s, .free s .destroy_state,
    .destroy s (if fr.__suspend_point = 0 then .tmp1 else .tmp4),
    .enter_destroy s fr.__suspend_point], rfl, fun e he => ?_⟩
  simp only [List.mem_cons, List.mem_singleton, List.not_mem_nil, or_false] at he
  rcases he with rfl | rfl | rfl | rfl <;> simp [Event.teardown, Event.addr]

theorem tears_task_dtor {D : Ptr → Machine → Except Fault Machine}
    (hD : ∀ p m m1, D p m = .ok m1 → Tears m m1) {t : task} {m m1 : Machine}
    (h : task.dtor D t m = .ok m1) : Tears m m1 := by
  unfold task.dtor at h
  split_ifs at h
  · exact hD _ _ _ h
  · simp only [Except.ok.injEq] at h
    subst h
    exact Tears.nil _

theorem tears_g_destroy {D : Ptr → Machine → Except Fault Machine}
    (hD : ∀ p m m1, D p m = .ok m1 → Tears m m1) {s : Nat} {m m1 : Machine}
    (h : __g_destroy D s m = .ok m1) : Tears m m1 := by
  unfold __g_destroy at h
  obtain ⟨state, _, h⟩ := bind_ok h
  simp only at h
  split_ifs at h
  · obtain ⟨m2, h2, h⟩ := bind_ok h
    obtain ⟨m3, h3, h⟩ := bind_ok h
    obtain ⟨fr2, _, rfl⟩ := manual_destroy_ok h2
    obtain ⟨fr3, _, rfl⟩ := delete_ok h3
    simp only [Except.ok.injEq] at h
    subst h
    refine ⟨[.leave_destroy s, .free s .destroy_state, .destroy s .tmp1,
      .enter_destroy s state.__suspend_point], rfl, fun e he => ?_⟩
    simp only [List.mem_cons, List.mem_singleton, List.not_mem_nil, or_false] at he
    rcases he with rfl | rfl | rfl | rfl <;>
      simp [Event.teardown, Event.addr, Machine.emit, Machine.set]
  · obtain ⟨m2, h2, h⟩ := bind_ok h
    obtain ⟨m3, h3, h⟩ := bind_ok h
    obtain ⟨m4, h4, h⟩ := bind_ok h
    obtain ⟨fr2, _, rfl⟩ := manual_destroy_ok h2
    obtain ⟨fr3, t, _, _, h3⟩ := destroy_task_ok h3
    obtain ⟨q, hq, hqe⟩ := tears_task_dtor hD h3
    obtain ⟨fr4, _, rfl⟩ := delete_ok h4
    simp only [Except.ok.injEq] at h
    subst h
    refine ⟨.leave_destroy s :: .free s .destroy_state ::
      (q ++ [.destroy s .tmp2, .destroy s .tmp3,
        .enter_destroy s state.__suspend_point]), ?_, fun e he => ?_⟩
    · simp only [Machine.emit, hq, Machine.set, List.cons_append, List.append_assoc,
        List.nil_append]
    · simp only [List.mem_cons, List.mem_append, List.mem_singleton, List.not_mem_nil,
        or_false] at he
      rcases he with rfl | rfl | he | rfl | rfl | rfl
      · simp [Event.teardown, Event.addr, Machine.emit]
      · simp [Event.teardown, Event.addr, Machine.emit]
      · refine ⟨(hqe e he).1, ?_⟩
        simp only [Machine.emit, Function.update_apply]
        split_ifs
        · rfl
        · exact (hqe e he).2
      · simp [Event.teardown, Event.addr, Machine.emit]
      · simp [Event.teardown, Event.addr, Machine.emit]
      · simp [Event.teardown, Event.addr, Machine.emit]
  · obtain ⟨m2, h2, h⟩ := bind_ok h
    obtain ⟨m3, h3, h⟩ := bind_ok h
    obtain ⟨fr2, _, rfl⟩ := manual_destroy_ok h2
    obtain ⟨fr3, _, rfl⟩ := delete_ok h3
    simp only [Except.ok.injEq] at h
    subst h
    refine ⟨[.leave_destroy s, .free s .destroy_state, .destroy s .tmp4,
      .enter_destroy s state.__suspend_point], rfl, fun e he => ?_⟩
    simp only [List.mem_cons, List.mem_singleton, List.not_mem_nil, or_false] at he
    rcases he with rfl | rfl | rfl | rfl <;>
      simp [Event.teardown, Event.addr, Machine.emit, Machine.set]

theorem tears_handle_destroy (fuel : Nat) :
    ∀ (p : Ptr) (m m1 : Machine), coroutine_handle.destroy fuel p m = .ok m1 → Tears m m1 := by
  induction fuel with
  | zero =>
    intro p m m1 h
    simp [coroutine_handle.destroy] at h
  | succ n ih =>
    intro p m m1 h
    unfold coroutine_handle.destroy at h
    split at h
    · cases h
    · simp only [Except.ok.injEq] at h
      subst h
      exact Tears.nil _
    · split at h
      · cases h
      · split at h
        · exact tears_f_destroy h
        · exact tears_g_destroy ih h

theorem final_suspend_shape {s : Nat} {index : Int} {m m1 : Machine} {p : Ptr}
    (h : final_suspend s index m = .ok (p, m1)) :
    ∃ fr, m.heap s = some fr ∧ p = fr.continuation_ ∧
      m1 = { heap := Function.update m.heap s
               (some { fr with __suspend_point := index, __resume := none }),
             next := m.next,
             log := .leave_resume s fr.continuation_ :: .construct s .tmp4 :: m.log } := by
  cases hs : m.heap s with
  | none =>
    simp [final_suspend, manual_lifetime.construct_from, Machine.get, bind, Except.bind, hs] at h
  | some fr =>
    simp [final_suspend, manual_lifetime.construct_from, Machine.get, Machine.set,
      Machine.emit, Machine.deref, final_awaiter.await_ready, final_awaiter.await_suspend,
      destructor_guard_trivial.dtor, bind, Except.bind, hs] at h
    obtain ⟨h1, h2⟩ := h
    subst h1 h2
    exact ⟨fr, rfl, rfl, rfl⟩

theorem none_of_keeps {m m1 : Machine} (h : Keeps m m1) {a : Nat} (ha : m.heap a = none) :
    m1.heap a = none := by
  cases h1 : m1.heap a with
  | none => rfl
  | some fr1 =>
    obtain ⟨fr, hf, _⟩ := h.2 a fr1 h1
    rw [ha] at hf
    cases hf

theorem g_suspend_point_1_shape {fuel : Nat} {s : Nat} {m m1 : Machine} {p : Ptr}
    (hx : __g_suspend_point_1 fuel s m = .ok (p, m1)) :
    ∃ m4 fr4 q w, Keeps m m4 ∧ m4.heap s = some fr4 ∧ p = fr4.continuation_ ∧
      m1.heap = Function.update m4.heap s
        (some { fr4 with __suspend_point := 2, __resume := none }) ∧
      m1.next = m.next ∧
      m1.log = .leave_resume s fr4.continuation_ :: .construct s .tmp4 :: w ::
        (q ++ .destroy s .tmp2 :: m.log) ∧
      (∀ e ∈ q, e.teardown = true ∧ m1.heap e.addr = none) ∧
      ((∃ v, w = .return_value s v ∧ fr4.result_ = .value v) ∨
        (∃ e, w = .unhandled_exception s e ∧ fr4.result_ = .error (some e))) := by
  unfold __g_suspend_point_1 at hx
  obtain ⟨state, _, hx⟩ := bind_ok hx
  split at hx
  · cases hx
  · obtain ⟨⟨r, m2⟩, h2, hx⟩ := bind_ok hx
    obtain ⟨m3, h3, hx⟩ := bind_ok hx
    have k2 : Keeps m m2 := keeps_await_resume h2
    have l2 : m2.log = m.log := await_resume_log h2
    simp only [destructor_guard.dtor, destructor_guard_trivial.dtor] at h3
    have k3 : Keeps m2 m3 := keeps_destroy_task (keeps_handle_destroy fuel) h3
    obtain ⟨fr2, t, hf2, _, h3⟩ := destroy_task_ok h3
    obtain ⟨q, hq, hqe⟩ := tears_task_dtor (tears_handle_destroy fuel) h3
    have l3 : m3.log = q ++ .destroy s .tmp2 :: m.log := by
      rw [hq]
      simp only [Machine.emit, Machine.set, l2]
    have fin : ∀ (m4 : Machine) (fr3 fr4 : Frame) (w : Event),
        m3.heap s = some fr3 → m4 = (m3.set s fr4).emit w → fr4.ctl = fr3.ctl →
        final_suspend s 2 m4 = .ok (p, m1) →
        ((∃ v, w = .return_value s v ∧ fr4.result_ = .value v) ∨
          (∃ e, w = .unhandled_exception s e ∧ fr4.result_ = .error (some e))) →
        ∃ m4 fr4 q w, Keeps m m4 ∧ m4.heap s = some fr4 ∧ p = fr4.continuation_ ∧
          m1.heap = Function.update m4.heap s
            (some { fr4 with __suspend_point := 2, __resume := none }) ∧
          m1.next = m.next ∧
          m1.log = .leave_resume s fr4.continuation_ :: .construct s .tmp4 :: w ::
            (q ++ .destroy s .tmp2 :: m.log) ∧
          (∀ e ∈ q, e.teardown = true ∧ m1.heap e.addr = none) ∧
          ((∃ v, w = .return_value s v ∧ fr4.result_ = .value v) ∨
            (∃ e, w = .unhandled_exception s e ∧ fr4.result_ = .error (some e))) := by
      intro m4 fr3 fr4 w hf3 hm4 hc hf hw
      have k4 : Keeps m3 m4 := by
        rw [hm4]
        exact (keeps_set hf3 hc).trans (keeps_emit _ _)
      obtain ⟨fr5, hf5, hp, hm1⟩ := final_suspend_shape hf
      have h45 : fr5 = fr4 := by
        rw [hm4] at hf5
        simpa [Machine.emit, Machine.set] using hf5.symm
      subst h45
      refine ⟨m4, fr5, q, w, (k2.trans k3).trans k4, hf5, hp, by rw [hm1], ?_, ?_, ?_, hw⟩
      · rw [hm1, hm4]
        exact k3.1.trans k2.1
      · rw [hm1, hm4]
        simp only [Machine.emit, Machine.set, l3]
      · intro e he
        refine ⟨(hqe e he).1, ?_⟩
        have hn : m4.heap e.addr = none := none_of_keeps k4 (hqe e he).2
        rw [hm1]
        simp only [Function.update_apply]
        split_ifs with hes
        · rw [hes, hf5] at hn
          cases hn
        · exact hn
    split at hx
    · obtain ⟨m4, h4, hx⟩ := bind_ok hx
      obtain ⟨fr3, hf3, hm4⟩ := return_value_ok h4
      exact fin m4 fr3 _ _ hf3 hm4 rfl hx (Or.inl ⟨_, rfl, rfl⟩)
    · obtain ⟨m4, h4, hx⟩ := bind_ok hx
      obtain ⟨fr3, hf3, hm4⟩ := unhandled_exception_ok h4
      exact fin m4 fr3 _ _ hf3 hm4 rfl hx (Or.inr ⟨_, rfl, rfl⟩)

theorem call_resume_shape {fuel : Nat} {p p1 : Ptr} {m m1 : Machine} (hm : m.ok)
    (hx : call_resume fuel p m = .ok (p1, m1)) :
    (p = .noop ∧ p1 = .noop ∧ m1 = m) ∨
    ∃ a fr, p = .frame a ∧ m.heap a = some fr ∧ Resumed m a fr p1 m1 := by
  unfold call_resume at hx
  split at hx
  · cases hx
  · simp only [Except.ok.injEq, Prod.mk.injEq] at hx
    exact Or.inl ⟨rfl, hx.1.symm, hx.2.symm⟩
  · rename_i a
    split at hx
    · cases hx
    · rename_i fr hfr
      refine Or.inr ⟨a, fr, rfl, hfr, ?_⟩
      have hk := hm.1 a fr hfr
      split at hx
      · cases hx
      · rename_i hr
        have h0 : fr.__destroy = .f ∧ fr.__suspend_point = 0 := by
          rcases hk with ⟨hd, ⟨_, h0⟩ | ⟨hn, _⟩⟩ | ⟨_, ⟨hg, _⟩ | ⟨hn, _⟩⟩
          · exact ⟨hd, h0⟩
          · rw [hr] at hn; cases hn
          · rw [hr] at hg; cases hg
          · rw [hr] at hn; cases hn
        rw [__f_resume_eq a m fr hfr h0.2] at hx
        simp only [Except.ok.injEq, Prod.mk.injEq] at hx
        obtain ⟨h1, h2⟩ := hx
        subst h1 h2
        exact Resumed.leaf hr h0.1 h0.2
      · rename_i hr
        have h0 : fr.__destroy = .g ∧ (fr.__suspend_point = 0 ∨ fr.__suspend_point = 1) := by
          rcases hk with ⟨_, ⟨hf, _⟩ | ⟨hn, _⟩⟩ | ⟨hd, ⟨_, h0⟩ | ⟨hn, _⟩⟩
          · rw [hr] at hf; cases hf
          · rw [hr] at hn; cases hn
          · exact ⟨hd, h0⟩
          · rw [hr] at hn; cases hn
        rcases h0.2 with hz | ho
        · rw [__g_resume_0_eq fuel a m fr hfr hz (live_ne_next hm hfr)] at hx
          simp only [Except.ok.injEq, Prod.mk.injEq] at hx
          obtain ⟨h1, h2⟩ := hx
          subst h1 h2
          exact Resumed.await hr h0.1 hz
        · have hx1 : __g_suspend_point_1 fuel a (m.emit (.enter_resume a fr.__suspend_point)) =
              .ok (p1, m1) := by
            simpa [__g_resume, Machine.get, bind, Except.bind, hfr, ho] using hx
          obtain ⟨m4, fr4, q, w, k, hf4, hp, hh, hn, hl, hq, hw⟩ :=
            g_suspend_point_1_shape hx1
          subst hp
          refine Resumed.final m4 m1 fr4 q w hr h0.1 ho ((keeps_emit m _).trans k) hf4 hh hn
            ?_ hq hw
          rw [hl, ho]
          rfl

/-! ## Resume calls are never nested -/

theorem resume_depth_quiet (q l : List Event) (hq : ∀ e ∈ q, e.resume_mark = false) :
    resume_depth (q ++ l) = resume_depth l ∧
      max_resume_depth (q ++ l) ≤ max (resume_depth l) (max_resume_depth l) := by
  induction q with
  | nil => exact ⟨rfl, le_max_right _ _⟩
  | cons e q ih =>
    have ih1 := ih (fun e he => hq e (List.mem_cons_of_mem _ he))
    have he := hq e (List.mem_cons_self _ _)
    have hd : resume_depth (e :: (q ++ l)) = resume_depth (q ++ l) := by
      cases e <;> simp [Event.resume_mark] at he <;> rfl
    refine ⟨hd.trans ih1.1, ?_⟩
    show max (resume_depth (e :: (q ++ l))) (max_resume_depth (q ++ l)) ≤ _
    rw [hd, ih1.1]
    exact max_le (le_max_left _ _) ih1.2

theorem resume_depth_append (l2 l1 : List Event) (h1 : resume_depth l1 = 0) :
    resume_depth (l2 ++ l1) = resume_depth l2 ∧
      max_resume_depth (l2 ++ l1) = max (max_resume_depth l2) (max_resume_depth l1) := by
  induction l2 with
  | nil => exact ⟨h1, by simp [max_resume_depth]⟩
  | cons e l2 ih =>
    have hd : resume_depth (e :: (l2 ++ l1)) = resume_depth (e :: l2) := by
      cases e <;> simp [resume_depth, ih.1]
    refine ⟨hd, ?_⟩
    show max (resume_depth (e :: (l2 ++ l1))) (max_resume_depth (l2 ++ l1)) = _
    rw [hd, ih.2]
    show _ = max (max (resume_depth (e :: l2)) (max_resume_depth l2)) _
    rw [max_assoc]

theorem teardown_quiet {e : Event} (h : e.teardown = true) : e.resume_mark = false := by
  cases e <;> simp [Event.teardown] at h <;> rfl

/-- The events of one resume call form a block with one entry, one return
and no resume mark in between. -/
theorem resumed_block {m m1 : Machine} {a : Nat} {fr : Frame} {p1 : Ptr}
    (h : Resumed m a fr p1 m1) :
    ∃ mid, m1.log = .leave_resume a p1 :: (mid ++ .enter_resume a fr.__suspend_point :: m.log) ∧
      ∀ e ∈ mid, e.resume_mark = false := by
  cases h with
  | leaf hr hd h0 =>
    refine ⟨[.construct a .tmp4, .return_value a fr.x], by rw [h0]; rfl, fun e he => ?_⟩
    simp only [List.mem_cons, List.mem_singleton, List.not_mem_nil, or_false] at he
    rcases he with rfl | rfl <;> rfl
  | await hr hd h0 =>
    refine ⟨[.set_continuation m.next (.frame a), .construct a .tmp3, .construct a .tmp2,
      .construct m.next .tmp1, .alloc m.next .f], by rw [h0]; rfl, fun e he => ?_⟩
    simp only [List.mem_cons, List.mem_singleton, List.not_mem_nil, or_false] at he
    rcases he with rfl | rfl | rfl | rfl | rfl <;> rfl
  | final m4 _ fr4 q w hr hd h1 k hf hh hn hl hq hw =>
    refine ⟨.construct a .tmp4 :: w :: (q ++ [.destroy a .tmp2]), ?_, fun e he => ?_⟩
    · rw [hl, h1]
      simp
    · simp only [List.mem_cons, List.mem_append, List.mem_singleton, List.not_mem_nil,
        or_false] at he
      rcases he with rfl | rfl | he | rfl
      · rfl
      · rcases hw with ⟨v, rfl, _⟩ | ⟨x, rfl, _⟩ <;> rfl
      · exact teardown_quiet (hq e he).1
      · rfl

theorem block_depth (a : Nat) (p1 : Ptr) (sp : Int) (mid : List Event)
    (hq : ∀ e ∈ mid, e.resume_mark = false) :
    resume_depth (.leave_resume a p1 :: (mid ++ [.enter_resume a sp])) = 0 ∧
      max_resume_depth (.leave_resume a p1 :: (mid ++ [.enter_resume a sp])) ≤ 1 := by
  have h := resume_depth_quiet mid [.enter_resume a sp] hq
  have h1 : resume_depth [Event.enter_resume a sp] = 1 := rfl
  have h2 : max_resume_depth [Event.enter_resume a sp] = 1 := rfl
  rw [h1, h2] at h
  have hd : resume_depth (.leave_resume a p1 :: (mid ++ [.enter_resume a sp])) = 0 := by
    show resume_depth (mid ++ [.enter_resume a sp]) - 1 = 0
    rw [h.1]
  refine ⟨hd, ?_⟩
  show max (resume_depth (.leave_resume a p1 :: (mid ++ [.enter_resume a sp])))
    (max_resume_depth (mid ++ [.enter_resume a sp])) ≤ 1
  rw [hd]
  exact max_le (Nat.zero_le _) (by simpa using h.2)

theorem call_resume_block {fuel : Nat} {p p1 : Ptr} {m m1 : Machine} (hm : m.ok)
    (hx : call_resume fuel p m = .ok (p1, m1)) :
    ∃ b, m1.log = b ++ m.log ∧ resume_depth b = 0 ∧ max_resume_depth b ≤ 1 := by
  rcases call_resume_shape hm hx with ⟨_, _, rfl⟩ | ⟨a, fr, _, _, hr⟩
  · exact ⟨[], rfl, rfl, Nat.zero_le _⟩
  · obtain ⟨mid, hl, hq⟩ := resumed_block hr
    refine ⟨.leave_resume a p1 :: (mid ++ [.enter_resume a fr.__suspend_point]), ?_,
      block_depth a p1 _ mid hq⟩
    rw [hl]
    simp

theorem resume_blocks (fuel : Nat) :
    ∀ (p : Ptr) (m m1 : Machine), m.ok → coroutine_handle.resume fuel p m = .ok m1 →
      ∃ new, m1.log = new ++ m.log ∧ resume_depth new = 0 ∧ max_resume_depth new ≤ 1 := by
  induction fuel with
  | zero =>
    intro p m m1 _ h
    simp [coroutine_handle.resume] at h
  | succ n ih =>
    intro p m m1 hm h
    unfold coroutine_handle.resume at h
    split at h
    · cases h
    · rename_i s1 m2 hc
      obtain ⟨b, hb, hb0, hb1⟩ := call_resume_block hm hc
      split_ifs at h
      · simp only [Except.ok.injEq] at h
        subst h
        exact ⟨b, hb, hb0, hb1⟩
      · obtain ⟨new, hn, hn0, hn1⟩ := ih s1 m2 m1 (call_resume_ok hm hc) h
        have ha := resume_depth_append new b hb0
        refine ⟨new ++ b, by rw [hn, hb, List.append_assoc], ha.1.trans hn0, ?_⟩
        rw [ha.2]
        exact max_le hn1 hb1

theorem sample_composed_ok : sample_composed_machine.ok := by
  refine ⟨fun a fr h => ?_, fun a ha => ?_⟩
  · simp only [sample_composed_machine, Function.update_apply] at h
    split_ifs at h
    simp only [Option.some.injEq] at h
    subst h
    exact Or.inr ⟨rfl, Or.inl ⟨rfl, Or.inl rfl⟩⟩
  · have h1 : 1 ≤ a := ha
    simp only [sample_composed_machine, Function.update_apply]
    split_ifs with h0
    · omega
    · rfl

/-! ## The calls the trampoline makes for `g` -/

theorem resume_calls_g_eq (n : Nat) (a : Nat) (m : Machine) (fr : Frame)
    (h : m.heap a = some fr) (hr : fr.__resume = some .g) (h0 : fr.__suspend_point = 0)
    (hc : fr.continuation_ = .noop) (hn : a ≠ m.next) :
    ∃ m1 m2, coroutine_handle.resume_calls (n + 4) (.frame a) m =
        [(.frame a, m), (.frame m.next, m1), (.frame a, m2)] ∧
      call_resume (n + 3) (.frame a) m = .ok (.frame m.next, m1) ∧
      call_resume (n + 2) (.frame m.next) m1 = .ok (.frame a, m2) ∧
      m2.heap a = some { fr with __suspend_point := 1,
                                 __tmp2 := some { coro_ := .frame m.next },
                                 __tmp3 := some (.frame m.next) } ∧
      m2.heap m.next = some { __resume := none, __destroy := .f, continuation_ := .frame a,
                              result_ := .value fr.x, __suspend_point := 1, x := fr.x,
                              __tmp2 := none, __tmp3 := none } := by
  have e1 := call_resume_g_eq (n + 3) a m fr h hr
  rw [__g_resume_0_eq _ a m fr h h0 hn] at e1
  have e2 := call_resume_f_eq (n + 2) m.next
    { heap := Function.update (Function.update m.heap a
          (some { fr with __suspend_point := 1, __tmp2 := some { coro_ := .frame m.next },
                          __tmp3 := some (.frame m.next) }))
        m.next
        (some { __resume := some .f, __destroy := .f, continuation_ := .frame a,
                result_ := .monostate, __suspend_point := 0, x := fr.x,
                __tmp2 := none, __tmp3 := none }),
      next := m.next + 1,
      log := .leave_resume a (.frame m.next) :: .set_continuation m.next (.frame a) ::
        .construct a .tmp3 :: .construct a .tmp2 :: .construct m.next .tmp1 ::
        .alloc m.next .f :: .enter_resume a 0 :: m.log }
    { __resume := some .f, __destroy := .f, continuation_ := .frame a,
      result_ := .monostate, __suspend_point := 0, x := fr.x,
      __tmp2 := none, __tmp3 := none } (Function.update_same _ _ _) rfl
  rw [__f_resume_eq m.next _
    { __resume := some .f, __destroy := .f, continuation_ := .frame a,
      result_ := .monostate, __suspend_point := 0, x := fr.x,
      __tmp2 := none, __tmp3 := none } (Function.update_same _ _ _) rfl] at e2
  have e3 := call_resume_g_eq (n + 1) a
    { heap := Function.update (Function.update (Function.update m.heap a
          (some { fr with __suspend_point := 1, __tmp2 := some { coro_ := .frame m.next },
                          __tmp3 := some (.frame m.next) }))
        m.next
        (some { __resume := some .f, __destroy := .f, continuation_ := .frame a,
                result_ := .monostate, __suspend_point := 0, x := fr.x,
                __tmp2 := none, __tmp3 := none })) m.next
        (some { __resume := none, __destroy := .f, continuation_ := .frame a,
                result_ := .value fr.x, __suspend_point := 1, x := fr.x,
                __tmp2 := none, __tmp3 := none }),
      next := m.next + 1,
      log := .leave_resume m.next (.frame a) :: .construct m.next .tmp4 ::
        .return_value m.next fr.x :: .enter_resume m.next 0 ::
        .leave_resume a (.frame m.next) :: .set_continuation m.next (.frame a) ::
        .construct a .tmp3 :: .construct a .tmp2 :: .construct m.next .tmp1 ::
        .alloc m.next .f :: .enter_resume a 0 :: m.log }
    { fr with __suspend_point := 1, __tmp2 := some { coro_ := .frame m.next },
              __tmp3 := some (.frame m.next) }
    (by simp [Function.update_noteq hn]) hr
  rw [__g_resume_1_value_eq n a m.next _
    { fr with __suspend_point := 1, __tmp2 := some { coro_ := .frame m.next },
              __tmp3 := some (.frame m.next) }
    { __resume := none, __destroy := .f, continuation_ := .frame a,
      result_ := .value fr.x, __suspend_point := 1, x := fr.x,
      __tmp2 := none, __tmp3 := none } fr.x
    (by simp [Function.update_noteq hn]) rfl rfl rfl (by simp) (Ne.symm hn) rfl rfl
    (Or.inr rfl)] at e3
  refine ⟨_, _, ?_, e1, e2, by simp [Function.update_noteq hn], by simp⟩
  simp only [coroutine_handle.resume_calls, e1, e2, e3, reduceCtorEq, if_false]
  simp [hc]

theorem g_execute_calls_eq (n : Nat) (x : Int) (m : Machine) :
    g_execute_calls n x m = coroutine_handle.resume_calls n (.frame m.next)
      { heap := Function.update m.heap m.next
          (some { __resume := some .g, __destroy := .g, continuation_ := .noop,
                  result_ := .monostate, __suspend_point := 0, x := x,
                  __tmp2 := none, __tmp3 := none }),
        next := m.next + 1,
        log := .set_continuation m.next .noop :: .construct m.next .tmp1 ::
          .alloc m.next .g :: m.log } := by
  simp [g_execute_calls, g_eq, awaiter.await_suspend, Machine.deref, Machine.set, Machine.emit,
    bind, Except.bind]

/-! ## Calls that leave every surviving frame as it is -/

theorem Holds.keeps {m m1 : Machine} (h : Holds m m1) : Keeps m m1 := by
  refine ⟨h.1, fun a fr1 h1 => ?_⟩
  obtain ⟨fr, hf, hc⟩ := h.2 a fr1 h1
  exact ⟨fr, hf, congrArg Prod.fst hc⟩

theorem Holds.stay (m : Machine) : Holds m m :=
  ⟨rfl, fun _ fr1 h => ⟨fr1, h, rfl⟩⟩

theorem Holds.chain {m m1 m2 : Machine} (h1 : Holds m m1) (h2 : Holds m1 m2) : Holds m m2 := by
  refine ⟨h2.1.trans h1.1, fun a fr2 h => ?_⟩
  obtain ⟨fr1, hf1, hc1⟩ := h2.2 a fr2 h
  obtain ⟨fr, hf, hc⟩ := h1.2 a fr1 hf1
  exact ⟨fr, hf, hc1.trans hc⟩

theorem holds_emit (m : Machine) (e : Event) : Holds m (m.emit e) :=
  ⟨rfl, fun _ fr1 h => ⟨fr1, h, rfl⟩⟩

theorem holds_set {m : Machine} {a : Nat} {fr fr1 : Frame} (h : m.heap a = some fr)
    (hc : fr1.core = fr.core) : Holds m (m.set a fr1) := by
  refine ⟨rfl, fun b fr2 h2 => ?_⟩
  simp only [Machine.set, Function.update_apply] at h2
  split_ifs at h2 with hb
  · subst hb
    simp only [Option.some.injEq] at h2
    subst h2
    exact ⟨fr, h, hc⟩
  · exact ⟨fr2, h2, rfl⟩

theorem holds_delete {m m1 : Machine} {a : Nat} {s : Site} (h : m.delete a s = .ok m1) :
    Holds m m1 := by
  unfold Machine.delete at h
  split at h
  · cases h
  · simp only [Except.ok.injEq] at h
    subst h
    refine ⟨rfl, fun b fr2 h2 => ?_⟩
    simp only [Function.update_apply] at h2
    split_ifs at h2
    exact ⟨fr2, h2, rfl⟩

theorem holds_manual_destroy {m m1 : Machine} {a : Nat} {s : Slot} {clear : Frame → Frame}
    (h : manual_lifetime.destroy a s clear m = .ok m1)
    (hs : ∀ fr, (clear fr).core = fr.core) : Holds m m1 := by
  unfold manual_lifetime.destroy at h
  obtain ⟨fr, hg, h⟩ := bind_ok h
  simp only [Except.ok.injEq] at h
  subst h
  exact (holds_set (get_ok hg) (hs fr)).chain (holds_emit _ _)

theorem holds_await_resume {m m1 : Machine} {c : Ptr} {r : Except Exn Int}
    (hx : awaiter.await_resume c m = .ok (r, m1)) : Holds m m1 := by
  unfold awaiter.await_resume at hx
  obtain ⟨⟨a, fr⟩, hg, hx⟩ := bind_ok hx
  simp only at hx
  split at hx
  · rename_i e he
    simp only [Except.ok.injEq, Prod.mk.injEq] at hx
    obtain ⟨_, hx⟩ := hx
    subst hx
    refine holds_set (deref_ok hg).2 ?_
    simp [Frame.core, Frame.ctl, Result.outcome, he]
  · cases hx
  · simp only [Except.ok.injEq, Prod.mk.injEq] at hx
    obtain ⟨_, hx⟩ := hx
    subst hx
    exact Holds.stay _
  · simp only [Except.ok.injEq, Prod.mk.injEq] at hx
    obtain ⟨_, hx⟩ := hx
    subst hx
    exact Holds.stay _

theorem holds_f_destroy {m m1 : Machine} {s : Nat} (h : __f_destroy s m = .ok m1) :
    Holds m m1 := by
  unfold __f_destroy at h
  obtain ⟨state, _, h⟩ := bind_ok h
  simp only at h
  split_ifs at h
  · obtain ⟨m2, h2, h⟩ := bind_ok h
    obtain ⟨m3, h3, h⟩ := bind_ok h
    simp only [Except.ok.injEq] at h
    subst h
    exact ((holds_emit _ _).chain (holds_manual_destroy h2 (fun _ => rfl))).chain
      ((holds_delete h3).chain (holds_emit _ _))
  · obtain ⟨m2, h2, h⟩ := bind_ok h
    obtain ⟨m3, h3, h⟩ := bind_ok h
    simp only [Except.ok.injEq] at h
    subst h
    exact ((holds_emit _ _).chain (holds_manual_destroy h2 (fun _ => rfl))).chain
      ((holds_delete h3).chain (holds_emit _ _))

theorem holds_task_dtor {D : Ptr → Machine → Except Fault Machine}
    (hD : ∀ p m m1, D p m = .ok m1 → Holds m m1) {t : task} {m m1 : Machine}
    (h : task.dtor D t m = .ok m1) : Holds m m1 := by
  unfold task.dtor at h
  split_ifs at h
  · exact hD _ _ _ h
  · simp only [Except.ok.injEq] at h
    subst h
    exact Holds.stay _

theorem holds_destroy_task {D : Ptr → Machine → Except Fault Machine}
    (hD : ∀ p m m1, D p m = .ok m1 → Holds m m1) {s : Nat} {m m1 : Machine}
    (h : manual_lifetime.destroy_task D s m = .ok m1) : Holds m m1 := by
  unfold manual_lifetime.destroy_task at h
  obtain ⟨fr, hg, h⟩ := bind_ok h
  split at h
  · cases h
  · refine Holds.chain (Holds.chain (holds_set (get_ok hg) ?_) (holds_emit _ _))
      (holds_task_dtor hD h)
    rfl

theorem holds_g_destroy {D : Ptr → Machine → Except Fault Machine}
    (hD : ∀ p m m1, D p m = .ok m1 → Holds m m1) {s : Nat} {m m1 : Machine}
    (h : __g_destroy D s m = .ok m1) : Holds m m1 := by
  unfold __g_destroy at h
  obtain ⟨state, _, h⟩ := bind_ok h
  simp only at h
  split_ifs at h
  · obtain ⟨m2, h2, h⟩ := bind_ok h
    obtain ⟨m3, h3, h⟩ := bind_ok h
    simp only [Except.ok.injEq] at h
    subst h
    exact ((holds_emit _ _).chain (holds_manual_destroy h2 (fun _ => rfl))).chain
      ((holds_delete h3).chain (holds_emit _ _))
  · obtain ⟨m2, h2, h⟩ := bind_ok h
    obtain ⟨m3, h3, h⟩ := bind_ok h
    obtain ⟨m4, h4, h⟩ := bind_ok h
    simp only [Except.ok.injEq] at h
    subst h
    exact (((holds_emit _ _).chain (holds_manual_destroy h2 (fun _ => rfl))).chain
      (holds_destroy_task hD h3)).chain ((holds_delete h4).chain (holds_emit _ _))
  · obtain ⟨m2, h2, h⟩ := bind_ok h
    obtain ⟨m3, h3, h⟩ := bind_ok h
    simp only [Except.ok.injEq] at h
    subst h
    exact ((holds_emit _ _).chain (holds_manual_destroy h2 (fun _ => rfl))).chain
      ((holds_delete h3).chain (holds_emit _ _))

theorem holds_handle_destroy (fuel : Nat) :
    ∀ (p : Ptr) (m m1 : Machine), coroutine_handle.destroy fuel p m = .ok m1 → Holds m m1 := by
  induction fuel with
  | zero =>
    intro p m m1 h
    simp [coroutine_handle.destroy] at h
  | succ n ih =>
    intro p m m1 h
    unfold coroutine_handle.destroy at h
    split at h
    · cases h
    · simp only [Except.ok.injEq] at h
      subst h
      exact Holds.stay _
    · split at h
      · cases h
      · split at h
        · exact holds_f_destroy h
        · exact holds_g_destroy ih h

theorem holds_frame {m m1 : Machine} (h : Holds m m1) {a : Nat} {fr1 : Frame}
    (h1 : m1.heap a = some fr1) :
    ∃ fr, m.heap a = some fr ∧ fr1.ctl = fr.ctl ∧ fr1.continuation_ = fr.continuation_ ∧
      fr1.result_.outcome = fr.result_.outcome ∧ fr1.x = fr.x := by
  obtain ⟨fr, hf, hc⟩ := h.2 a fr1 h1
  simp only [Frame.core, Prod.mk.injEq] at hc
  exact ⟨fr, hf, hc.1, hc.2.1, hc.2.2.1, hc.2.2.2⟩

/-- The frames after the part of `__g_resume` from `suspend_point_1` on:
every other frame that survives is as before, and the frame itself keeps its
continuation and its argument. -/
theorem g_suspend_point_1_frames {fuel : Nat} {s : Nat} {m m1 : Machine} {p : Ptr}
    (hx : __g_suspend_point_1 fuel s m = .ok (p, m1)) :
    ∀ b fr1, m1.heap b = some fr1 → ∃ fr, m.heap b = some fr ∧
      (b ≠ s → fr1.core = fr.core) ∧
      (b = s → fr1.continuation_ = fr.continuation_ ∧ fr1.x = fr.x) := by
  unfold __g_suspend_point_1 at hx
  obtain ⟨state, _, hx⟩ := bind_ok hx
  split at hx
  · cases hx
  · obtain ⟨⟨r, m2⟩, h2, hx⟩ := bind_ok hx
    obtain ⟨m3, h3, hx⟩ := bind_ok hx
    simp only [destructor_guard.dtor, destructor_guard_trivial.dtor] at h3
    have k : Holds m m3 :=
      (holds_await_resume h2).chain (holds_destroy_task (holds_handle_destroy fuel) h3)
    have fin : ∀ (m4 : Machine) (fr3 fr4 : Frame) (w : Event),
        m3.heap s = some fr3 → m4 = (m3.set s fr4).emit w →
        fr4.continuation_ = fr3.continuation_ → fr4.x = fr3.x →
        final_suspend s 2 m4 = .ok (p, m1) →
        ∀ b fr1, m1.heap b = some fr1 → ∃ fr, m.heap b = some fr ∧
          (b ≠ s → fr1.core = fr.core) ∧
          (b = s → fr1.continuation_ = fr.continuation_ ∧ fr1.x = fr.x) := by
      intro m4 fr3 fr4 w hf3 hm4 hc hxx hf b fr1 hb
      obtain ⟨fr5, hf5, _, hm1⟩ := final_suspend_shape hf
      have h45 : fr5 = fr4 := by
        rw [hm4] at hf5
        simpa [Machine.emit, Machine.set] using hf5.symm
      subst h45
      rw [hm1] at hb
      simp only [Function.update_apply] at hb
      split_ifs at hb with hbs
      · subst hbs
        simp only [Option.some.injEq] at hb
        subst hb
        obtain ⟨fr, hfr, _, hc0, _, hx0⟩ := holds_frame k hf3
        exact ⟨fr, hfr, fun hne => absurd rfl hne, fun _ => ⟨hc.trans hc0, hxx.trans hx0⟩⟩
      · rw [hm4] at hb
        simp only [Machine.emit, Machine.set, Function.update_apply, if_neg hbs] at hb
        obtain ⟨fr, hfr, hcc⟩ := k.2 b fr1 hb
        exact ⟨fr, hfr, fun _ => hcc, fun he => absurd he hbs⟩
    split at hx
    · obtain ⟨m4, h4, hx⟩ := bind_ok hx
      obtain ⟨fr3, hf3, hm4⟩ := return_value_ok h4
      exact fin m4 fr3 _ _ hf3 hm4 rfl rfl hx
    · obtain ⟨m4, h4, hx⟩ := bind_ok hx
      obtain ⟨fr3, hf3, hm4⟩ := unhandled_exception_ok h4
      exact fin m4 fr3 _ _ hf3 hm4 rfl rfl hx

/-- What a call of a resume entry does to the frames: the frame resumed
keeps continuation and argument, a new frame is the leaf that `__g_resume`
creates at the bump pointer, every other frame is as before. -/
theorem call_resume_frames {fuel : Nat} {a : Nat} {p1 : Ptr} {m m1 : Machine} (hm : m.ok)
    (hx : call_resume fuel (.frame a) m = .ok (p1, m1)) :
    ∀ b fr1, m1.heap b = some fr1 →
      (∃ fr, m.heap b = some fr ∧ (b ≠ a → fr1.core = fr.core) ∧
        (b = a → fr1.continuation_ = fr.continuation_ ∧ fr1.x = fr.x)) ∨
      (b = m.next ∧ m.heap b = none ∧ fr1.__resume = some .f ∧ fr1.__destroy = .f ∧
        fr1.__suspend_point = 0 ∧ fr1.result_ = .monostate ∧
        fr1.continuation_ = .frame a) := by
  intro b fr1 hb
  rcases call_resume_shape hm hx with ⟨hp, _⟩ | ⟨a1, fr, hp, hfr, hr⟩
  · cases hp
  · cases hp
    cases hr with
    | leaf hr hd h0 =>
      simp only [Function.update_apply] at hb
      split_ifs at hb with hba
      · subst hba
        simp only [Option.some.injEq] at hb
        subst hb
        exact Or.inl ⟨fr, hfr, fun hne => absurd rfl hne, fun _ => ⟨rfl, rfl⟩⟩
      · exact Or.inl ⟨fr1, hb, fun _ => rfl, fun he => absurd he hba⟩
    | await hr hd h0 =>
      simp only [Function.update_apply] at hb
      split_ifs at hb with hbn hba
      · simp only [Option.some.injEq] at hb
        subst hb
        exact Or.inr ⟨hbn, by rw [hbn]; exact hm.2 _ (le_refl _), rfl, rfl, rfl, rfl, rfl⟩
      · subst hba
        simp only [Option.some.injEq] at hb
        subst hb
        exact Or.inl ⟨fr, hfr, fun hne => absurd rfl hne, fun _ => ⟨rfl, rfl⟩⟩
      · exact Or.inl ⟨fr1, hb, fun _ => rfl, fun he => absurd he hba⟩
    | final m4 _ fr4 q w hr hd h1 k hf hh hn hl hq hw =>
      have hx1 : __g_suspend_point_1 fuel a (m.emit (.enter_resume a fr.__suspend_point)) =
          .ok (fr4.continuation_, m1) := by
        simpa [call_resume, __g_resume, Machine.get, bind, Except.bind, hfr, hr, h1] using hx
      exact Or.inl (g_suspend_point_1_frames hx1 b fr1 hb)

theorem step_moved {m m1 : Machine} (hm : m.ok) (h : Step m m1) : Moved m m1 := by
  cases h with
  | create_f x t h =>
    rw [f_eq] at h
    simp only [Except.ok.injEq, Prod.mk.injEq] at h
    rw [← h.2]
    exact Moved.create_f x
  | create_g fuel x t h =>
    rw [g_eq] at h
    simp only [Except.ok.injEq, Prod.mk.injEq] at h
    rw [← h.2]
    exact Moved.create_g x
  | resume_entry fuel s s1 h =>
    rcases call_resume_shape hm h with ⟨_, _, h1⟩ | ⟨a, fr, hp, hfr, hr⟩
    · rw [h1]
      exact Moved.quiet m (Holds.stay m) (Tears.nil m)
    · subst hp
      refine Moved.resumed a fr s1 m1 hfr hr (fun b fr1 hba hb => ?_) (fun fr1 hb => ?_)
      · rcases call_resume_frames hm h b fr1 hb with ⟨fr0, h0, hc, _⟩ | ⟨hn, _⟩
        · exact Or.inl ⟨fr0, h0, hc hba⟩
        · exact Or.inr hn
      · rcases call_resume_frames hm h a fr1 hb with ⟨fr0, h0, _, hc⟩ | ⟨hn, hnone, _⟩
        · rw [hfr] at h0
          cases h0
          exact hc rfl
        · rw [hfr] at hnone
          cases hnone
  | destroy_entry fuel p h =>
    exact Moved.quiet m1 (holds_handle_destroy fuel p m m1 h) (tears_handle_destroy fuel p m m1 h)
  | await_suspend c h c1 hx =>
    unfold awaiter.await_suspend at hx
    obtain ⟨⟨a, fr⟩, hg, hx⟩ := bind_ok hx
    simp only [Except.ok.injEq, Prod.mk.injEq] at hx
    rw [← hx.2]
    exact Moved.continued a fr h (deref_ok hg).2
  | await_resume c r hx =>
    exact Moved.quiet m1 (holds_await_resume hx) ⟨[], await_resume_log hx, fun _ h => by cases h⟩

/-! ## Every result is written at most once -/

theorem resumed_index {m m1 : Machine} {a : Nat} {fr : Frame} {p1 : Ptr} (hm : m.ok)
    (hfr : m.heap a = some fr) (h : Resumed m a fr p1 m1) :
    ∃ fr1, m1.heap a = some fr1 ∧ fr1.__destroy = fr.__destroy ∧
      ((fr.__destroy = .f ∧ fr.__suspend_point = 0 ∧ fr1.__suspend_point = 1) ∨
        (fr.__destroy = .g ∧ fr.__suspend_point = 0 ∧ fr1.__suspend_point = 1) ∨
        (fr.__destroy = .g ∧ fr.__suspend_point = 1 ∧ fr1.__suspend_point = 2)) := by
  cases h with
  | leaf hr hd h0 =>
    exact ⟨_, Function.update_same _ _ _, rfl, Or.inl ⟨hd, h0, rfl⟩⟩
  | await hr hd h0 =>
    refine ⟨{ fr with __suspend_point := 1, __tmp2 := some { coro_ := .frame m.next },
                      __tmp3 := some (.frame m.next) }, ?_, rfl, Or.inr (Or.inl ⟨hd, h0, rfl⟩)⟩
    simp only
    rw [Function.update_noteq (live_ne_next hm hfr), Function.update_same]
  | final m4 _ fr4 q w hr hd h1 k hf hh hn hl hq hw =>
    obtain ⟨fr0, hf0, hc⟩ := k.2 a fr4 hf
    rw [hfr] at hf0
    cases hf0
    simp only [Frame.ctl, Prod.mk.injEq] at hc
    refine ⟨{ fr4 with __suspend_point := 2, __resume := none }, ?_, hc.2.1,
      Or.inr (Or.inr ⟨hd, h1, rfl⟩)⟩
    rw [hh, Function.update_same]

theorem moved_index {m m1 : Machine} (hm : m.ok) (h : Moved m m1) {b : Nat} {fr fr1 : Frame}
    (hb : m.heap b = some fr) (hb1 : m1.heap b = some fr1) :
    fr.__suspend_point ≤ fr1.__suspend_point ∧ fr1.__destroy = fr.__destroy := by
  have hlt : b ≠ m.next := live_ne_next hm hb
  have same : ∀ fr0, m.heap b = some fr0 → fr1.ctl = fr0.ctl →
      fr.__suspend_point ≤ fr1.__suspend_point ∧ fr1.__destroy = fr.__destroy := by
    intro fr0 h0 hc
    rw [hb] at h0
    cases h0
    simp only [Frame.ctl, Prod.mk.injEq] at hc
    exact ⟨le_of_eq hc.2.2.symm, hc.2.1⟩
  cases h with
  | create_f x =>
    simp only [Function.update_noteq hlt] at hb1
    exact same fr1 hb1 rfl
  | create_g x =>
    simp only [Function.update_noteq hlt] at hb1
    exact same fr1 hb1 rfl
  | resumed a fr0 p1 _ hfr hr ho hs =>
    by_cases hba : b = a
    · subst hba
      rw [hb] at hfr
      cases hfr
      obtain ⟨fr2, h2, hd, hi⟩ := resumed_index hm hb hr
      rw [hb1] at h2
      cases h2
      refine ⟨?_, hd⟩
      rcases hi with ⟨_, h0, h1⟩ | ⟨_, h0, h1⟩ | ⟨_, h0, h1⟩ <;> rw [h0, h1] <;> decide
    · rcases ho b fr1 hba hb1 with ⟨fr2, h2, hc⟩ | hn
      · exact same fr2 h2 (congrArg Prod.fst hc)
      · exact absurd hn hlt
  | quiet _ hh ht =>
    obtain ⟨fr2, h2, hc⟩ := hh.2 b fr1 hb1
    exact same fr2 h2 (congrArg Prod.fst hc)
  | continued a fr0 p hfr =>
    simp only [Machine.emit, Machine.set, Function.update_apply] at hb1
    split_ifs at hb1 with hba
    · subst hba
      simp only [Option.some.injEq] at hb1
      subst hb1
      exact same fr0 hfr rfl
    · exact same fr1 hb1 rfl

theorem destroyed_slots_skip (a : Nat) (q l : List Event) (hq : ∀ e ∈ q, e.addr ≠ a) :
    destroyed_slots a (q ++ l) = destroyed_slots a l := by
  induction q with
  | nil => rfl
  | cons e q ih =>
    have ih1 := ih (fun e he => hq e (List.mem_cons_of_mem _ he))
    have he := hq e (List.mem_cons_self _ _)
    cases e <;> simp [Event.addr] at he <;> simp [destroyed_slots, ih1, he]

theorem handle_destroy_slots {fuel : Nat} {a : Nat} {m m1 : Machine} {fr : Frame}
    (hfr : m.heap a = some fr) (h : coroutine_handle.destroy fuel (.frame a) m = .ok m1) :
    ∃ new, m1.log = new ++ m.log ∧ m1.heap a = none ∧
      destroyed_slots a new = fr.__destroy.teardown fr.__suspend_point := by
  cases fuel with
  | zero => simp [coroutine_handle.destroy] at h
  | succ n =>
    simp only [coroutine_handle.destroy, hfr] at h
    cases hd : fr.__destroy with
    | f =>
      simp only [hd] at h
      obtain ⟨fr0, h0, hsp⟩ := f_destroy_ok h
      rw [hfr] at h0
      cases h0
      rw [__f_destroy_eq a m fr hfr hsp] at h
      simp only [Except.ok.injEq] at h
      subst h
      refine ⟨[.leave_destroy a, .free a .destroy_state,
        .destroy a (if fr.__suspend_point = 0 then .tmp1 else .tmp4),
        .enter_destroy a fr.__suspend_point], rfl, Function.update_same _ _ _, ?_⟩
      rcases hsp with h0 | h1
      · simp [destroyed_slots, Code.teardown, h0]
      · simp [destroyed_slots, Code.teardown, h1]
    | g =>
      simp only [hd] at h
      unfold __g_destroy at h
      obtain ⟨state, hg, h⟩ := bind_ok h
      have hst := get_ok hg
      rw [hfr] at hst
      cases hst
      simp only at h
      split_ifs at h with h0 h1 h2
      · obtain ⟨m2, h2, h⟩ := bind_ok h
        obtain ⟨m3, h3, h⟩ := bind_ok h
        obtain ⟨fr2, _, rfl⟩ := manual_destroy_ok h2
        obtain ⟨fr3, _, rfl⟩ := delete_ok h3
        simp only [Except.ok.injEq] at h
        subst h
        refine ⟨[.leave_destroy a, .free a .destroy_state, .destroy a .tmp1,
          .enter_destroy a fr.__suspend_point], rfl, ?_, ?_⟩
        · simp [Machine.emit, Machine.set]
        · simp [destroyed_slots, Code.teardown, h0]
      · obtain ⟨m2, h2, h⟩ := bind_ok h
        obtain ⟨m3, h3, h⟩ := bind_ok h
        obtain ⟨m4, h4, h⟩ := bind_ok h
        obtain ⟨fr2, _, rfl⟩ := manual_destroy_ok h2
        obtain ⟨fr3, t, _, _, h3⟩ := destroy_task_ok h3
        obtain ⟨q, hq, hqe⟩ := tears_task_dtor (tears_handle_destroy n) h3
        obtain ⟨fr4, hf4, rfl⟩ := delete_ok h4
        simp only [Except.ok.injEq] at h
        subst h
        refine ⟨.leave_destroy a :: .free a .destroy_state ::
          (q ++ [.destroy a .tmp2, .destroy a .tmp3,
            .enter_destroy a fr.__suspend_point]), ?_, ?_, ?_⟩
        · simp only [Machine.emit, hq, Machine.set, List.cons_append, List.append_assoc,
            List.nil_append]
        · simp [Machine.emit]
        · have hqa : ∀ e ∈ q, e.addr ≠ a := by
            intro e he hea
            have hn := (hqe e he).2
            rw [hea, hf4] at hn
            cases hn
          simp only [destroyed_slots]
          rw [destroyed_slots_skip a q _ hqa]
          simp [destroyed_slots, Code.teardown, h1]
      · obtain ⟨m2, h2', h⟩ := bind_ok h
        obtain ⟨m3, h3, h⟩ := bind_ok h
        obtain ⟨fr2, _, rfl⟩ := manual_destroy_ok h2'
        obtain ⟨fr3, _, rfl⟩ := delete_ok h3
        simp only [Except.ok.injEq] at h
        subst h
        refine ⟨[.leave_destroy a, .free a .destroy_state, .destroy a .tmp4,
          .enter_destroy a fr.__suspend_point], rfl, ?_, ?_⟩
        · simp [Machine.emit, Machine.set]
        · simp [destroyed_slots, Code.teardown, h2]

/-! ## The slots that share storage -/

theorem g_resume_once_eq (fuel : Nat) (x : Int) (m : Machine) :
    call_resume fuel (.frame m.next)
      { heap := Function.update m.heap m.next
          (some { __resume := some .g, __destroy := .g, continuation_ := .null,
                  result_ := .monostate, __suspend_point := 0, x := x,
                  __tmp2 := none, __tmp3 := none }),
        next := m.next + 1,
        log := .construct m.next .tmp1 :: .alloc m.next .g :: m.log } =
    .ok (.frame (m.next + 1),
      { heap := Function.update (Function.update (Function.update m.heap m.next
            (some { __resume := some .g, __destroy := .g, continuation_ := .null,
                    result_ := .monostate, __suspend_point := 0, x := x,
                    __tmp2 := none, __tmp3 := none })) m.next
            (some { __resume := some .g, __destroy := .g, continuation_ := .null,
                    result_ := .monostate, __suspend_point := 1, x := x,
                    __tmp2 := some { coro_ := .frame (m.next + 1) },
                    __tmp3 := some (.frame (m.next + 1)) })) (m.next + 1)
            (some { __resume := some .f, __destroy := .f, continuation_ := .frame m.next,
                    result_ := .monostate, __suspend_point := 0, x := x,
                    __tmp2 := none, __tmp3 := none }),
        next := m.next + 1 + 1,
        log := .leave_resume m.next (.frame (m.next + 1)) ::
          .set_continuation (m.next + 1) (.frame m.next) ::
          .construct m.next .tmp3 :: .construct m.next .tmp2 ::
          .construct (m.next + 1) .tmp1 :: .alloc (m.next + 1) .f ::
          .enter_resume m.next 0 :: .construct m.next .tmp1 :: .alloc m.next .g :: m.log }) := by
  rw [call_resume_g_eq fuel m.next _
    { __resume := some .g, __destroy := .g, continuation_ := .null,
      result_ := .monostate, __suspend_point := 0, x := x,
      __tmp2 := none, __tmp3 := none } (by simp) rfl]
  rw [__g_resume_0_eq fuel m.next _
    { __resume := some .g, __destroy := .g, continuation_ := .null,
      result_ := .monostate, __suspend_point := 0, x := x,
      __tmp2 := none, __tmp3 := none } (by simp) rfl (Nat.ne_of_lt (Nat.lt_succ_self _))]

theorem wrap_int_range (n : Int) : INT_MIN ≤ wrap_int n ∧ wrap_int n ≤ INT_MAX := by
  unfold wrap_int INT_MIN INT_MAX
  omega

theorem square_large (x : Int) (h : x < -46340 ∨ 46340 < x) : INT_MAX < x * x := by
  unfold INT_MAX
  rcases h with h | h <;> nlinarith

/-! ## The calls of the trampoline in the two fixtures -/

theorem f_execute_calls_eq (n : Nat) (x : Int) (m : Machine) :
    f_execute_calls (n + 1) x m = [(.frame m.next,
      { heap := Function.update m.heap m.next
          (some { __resume := some .f, __destroy := .f, continuation_ := .noop,
                  result_ := .monostate, __suspend_point := 0, x := x,
                  __tmp2 := none, __tmp3 := none }),
        next := m.next + 1,
        log := .set_continuation m.next .noop :: .construct m.next .tmp1 ::
          .alloc m.next .f :: m.log })] ∧
    call_resume n (.frame m.next)
      { heap := Function.update m.heap m.next
          (some { __resume := some .f, __destroy := .f, continuation_ := .noop,
                  result_ := .monostate, __suspend_point := 0, x := x,
                  __tmp2 := none, __tmp3 := none }),
        next := m.next + 1,
        log := .set_continuation m.next .noop :: .construct m.next .tmp1 ::
          .alloc m.next .f :: m.log } = .ok (.noop,
      { heap := Function.update m.heap m.next
          (some { __resume := none, __destroy := .f, continuation_ := .noop,
                  result_ := .value x, __suspend_point := 1, x := x,
                  __tmp2 := none, __tmp3 := none }),
        next := m.next + 1,
        log := .leave_resume m.next .noop :: .construct m.next .tmp4 ::
          .return_value m.next x :: .enter_resume m.next 0 ::
          .set_continuation m.next .noop ::
          .construct m.next .tmp1 :: .alloc m.next .f :: m.log }) := by
  have e1 := call_resume_f_eq n m.next
    { heap := Function.update m.heap m.next
        (some { __resume := some .f, __destroy := .f, continuation_ := .noop,
                result_ := .monostate, __suspend_point := 0, x := x,
                __tmp2 := none, __tmp3 := none }),
      next := m.next + 1,
      log := .set_continuation m.next .noop :: .construct m.next .tmp1 ::
        .alloc m.next .f :: m.log }
    { __resume := some .f, __destroy := .f, continuation_ := .noop,
      result_ := .monostate, __suspend_point := 0, x := x,
      __tmp2 := none, __tmp3 := none } (by simp) rfl
  rw [__f_resume_eq m.next _
    { __resume := some .f, __destroy := .f, continuation_ := .noop,
      result_ := .monostate, __suspend_point := 0, x := x,
      __tmp2 := none, __tmp3 := none } (by simp) rfl] at e1
  simp only [Function.update_idem] at e1
  refine ⟨?_, e1⟩
  simp [f_execute_calls, f_eq, awaiter.await_suspend, Machine.deref, Machine.set, Machine.emit,
    bind, Except.bind, coroutine_handle.resume_calls, e1]

theorem g_execute_calls_run (n : Nat) (x : Int) (m : Machine) :
    ∃ m0 m1 m2 m3,
      g_execute_calls (n + 4) x m =
        [(.frame m.next, m0), (.frame (m.next + 1), m1), (.frame m.next, m2)] ∧
      call_resume (n + 3) (.frame m.next) m0 = .ok (.frame (m.next + 1), m1) ∧
      call_resume (n + 2) (.frame (m.next + 1)) m1 = .ok (.frame m.next, m2) ∧
      call_resume (n + 1) (.frame m.next) m2 = .ok (.noop, m3) ∧
      m0.heap m.next = some { __resume := some .g, __destroy := .g, continuation_ := .noop,
                              result_ := .monostate, __suspend_point := 0, x := x,
                              __tmp2 := none, __tmp3 := none } ∧
      m1.heap (m.next + 1) =
        some { __resume := some .f, __destroy := .f, continuation_ := .frame m.next,
               result_ := .monostate, __suspend_point := 0, x := x,
               __tmp2 := none, __tmp3 := none } ∧
      m2.heap m.next =
        some { __resume := some .g, __destroy := .g, continuation_ := .noop,
               result_ := .monostate, __suspend_point := 1, x := x,
               __tmp2 := some { coro_ := .frame (m.next + 1) },
               __tmp3 := some (.frame (m.next + 1)) } ∧
      m2.heap (m.next + 1) =
        some { __resume := none, __destroy := .f, continuation_ := .frame m.next,
               result_ := .value x, __suspend_point := 1, x := x,
               __tmp2 := none, __tmp3 := none } ∧
      g_execute (n + 4) x m = .ok (.ok (wrap_int (x * x)), m3) := by
  have hne : m.next ≠ m.next + 1 := Nat.ne_of_lt (Nat.lt_succ_self _)
  obtain ⟨m1, m2, hc, e1, e2, h2, h3⟩ := resume_calls_g_eq n m.next
    { heap := Function.update m.heap m.next
        (some { __resume := some .g, __destroy := .g, continuation_ := .noop,
                result_ := .monostate, __suspend_point := 0, x := x,
                __tmp2 := none, __tmp3 := none }),
      next := m.next + 1,
      log := .set_continuation m.next .noop :: .construct m.next .tmp1 ::
        .alloc m.next .g :: m.log }
    { __resume := some .g, __destroy := .g, continuation_ := .noop,
      result_ := .monostate, __suspend_point := 0, x := x,
      __tmp2 := none, __tmp3 := none }
    (Function.update_same _ _ _) rfl rfl rfl hne
  have e1c := e1
  rw [call_resume_g_eq (n + 3) m.next _
    { __resume := some .g, __destroy := .g, continuation_ := .noop,
      result_ := .monostate, __suspend_point := 0, x := x,
      __tmp2 := none, __tmp3 := none } (by simp) rfl] at e1c
  rw [__g_resume_0_eq _ m.next _
    { __resume := some .g, __destroy := .g, continuation_ := .noop,
      result_ := .monostate, __suspend_point := 0, x := x,
      __tmp2 := none, __tmp3 := none } (by simp) rfl hne] at e1c
  simp only [Except.ok.injEq, Prod.mk.injEq, true_and] at e1c
  subst e1c
  have e2c := e2
  rw [call_resume_f_eq (n + 2) (m.next + 1) _
    { __resume := some .f, __destroy := .f, continuation_ := .frame m.next,
      result_ := .monostate, __suspend_point := 0, x := x,
      __tmp2 := none, __tmp3 := none } (by simp) rfl] at e2c
  rw [__f_resume_eq (m.next + 1) _
    { __resume := some .f, __destroy := .f, continuation_ := .frame m.next,
      result_ := .monostate, __suspend_point := 0, x := x,
      __tmp2 := none, __tmp3 := none } (by simp) rfl] at e2c
  simp only [Except.ok.injEq, Prod.mk.injEq, true_and] at e2c
  subst e2c
  have e3 := call_resume_g_eq (n + 1) m.next _ _ h2 rfl
  rw [__g_resume_1_value_eq n m.next (m.next + 1) _ _ _ x h2 rfl rfl rfl h3 (Ne.symm hne)
    rfl rfl (Or.inr rfl)] at e3
  refine ⟨_, _, _, _, ?_, e1, e2, e3, Function.update_same _ _ _, by simp, h2, h3, ?_⟩
  · rw [g_execute_calls_eq, hc]
  · rw [g_execute_eq n x m]
    simp
    funext c
    simp only [Function.update_apply]
    split_ifs <;> simp_all

/-! ## Task objects and the frames they own -/

theorem frees_skip (a : Nat) (q l : List Event) (hq : ∀ e ∈ q, e.addr ≠ a) :
    frees a (q ++ l) = frees a l := by
  induction q with
  | nil => rfl
  | cons e q ih =>
    have ih1 := ih (fun e he => hq e (List.mem_cons_of_mem _ he))
    have he := hq e (List.mem_cons_self _ _)
    simp only [frees, List.cons_append, List.countP_cons] at ih1 ⊢
    rw [ih1]
    cases e <;> simp [Event.addr] at he <;> simp [he]

theorem handle_destroy_frees {fuel : Nat} {a : Nat} {m m1 : Machine} {fr : Frame}
    (hfr : m.heap a = some fr) (h : coroutine_handle.destroy fuel (.frame a) m = .ok m1) :
    ∃ new, m1.log = new ++ m.log ∧ m1.heap a = none ∧
      frees a new = 1 := by
  cases fuel with
  | zero => simp [coroutine_handle.destroy] at h
  | succ n =>
    simp only [coroutine_handle.destroy, hfr] at h
    cases hd : fr.__destroy with
    | f =>
      simp only [hd] at h
      obtain ⟨fr0, h0, hsp⟩ := f_destroy_ok h
      rw [hfr] at h0
      cases h0
      rw [__f_destroy_eq a m fr hfr hsp] at h
      simp only [Except.ok.injEq] at h
      subst h
      refine ⟨[.leave_destroy a, .free a .destroy_state,
        .destroy a (if fr.__suspend_point = 0 then .tmp1 else .tmp4),
        .enter_destroy a fr.__suspend_point], rfl, Function.update_same _ _ _, ?_⟩
      simp [frees, List.countP_cons]
    | g =>
      simp only [hd] at h
      unfold __g_destroy at h
      obtain ⟨state, hg, h⟩ := bind_ok h
      have hst := get_ok hg
      rw [hfr] at hst
      cases hst
      simp only at h
      split_ifs at h with h0 h1 h2
      · obtain ⟨m2, h2, h⟩ := bind_ok h
        obtain ⟨m3, h3, h⟩ := bind_ok h
        obtain ⟨fr2, _, rfl⟩ := manual_destroy_ok h2
        obtain ⟨fr3, _, rfl⟩ := delete_ok h3
        simp only [Except.ok.injEq] at h
        subst h
        refine ⟨[.leave_destroy a, .free a .destroy_state, .destroy a .tmp1,
          .enter_destroy a fr.__suspend_point], rfl, ?_, ?_⟩
        · simp [Machine.emit, Machine.set]
        · simp [frees, List.countP_cons]
      · obtain ⟨m2, h2, h⟩ := bind_ok h
        obtain ⟨m3, h3, h⟩ := bind_ok h
        obtain ⟨m4, h4, h⟩ := bind_ok h
        obtain ⟨fr2, _, rfl⟩ := manual_destroy_ok h2
        obtain ⟨fr3, t, _, _, h3⟩ := destroy_task_ok h3
        obtain ⟨q, hq, hqe⟩ := tears_task_dtor (tears_handle_destroy n) h3
        obtain ⟨fr4, hf4, rfl⟩ := delete_ok h4
        simp only [Except.ok.injEq] at h
        subst h
        refine ⟨.leave_destroy a :: .free a .destroy_state ::
          (q ++ [.destroy a .tmp2, .destroy a .tmp3,
            .enter_destroy a fr.__suspend_point]), ?_, ?_, ?_⟩
        · simp only [Machine.emit, hq, Machine.set, List.cons_append, List.append_assoc,
            List.nil_append]
        · simp [Machine.emit]
        · have hqa : ∀ e ∈ q, e.addr ≠ a := by
            intro e he hea
            have hn := (hqe e he).2
            rw [hea, hf4] at hn
            cases hn
          have hq0 := frees_skip a q [.destroy a .tmp2, .destroy a .tmp3,
            .enter_destroy a fr.__suspend_point] hqa
          simp only [frees] at hq0 ⊢
          simp [List.countP_cons, hq0]
      · obtain ⟨m2, h2', h⟩ := bind_ok h
        obtain ⟨m3, h3, h⟩ := bind_ok h
        obtain ⟨fr2, _, rfl⟩ := manual_destroy_ok h2'
        obtain ⟨fr3, _, rfl⟩ := delete_ok h3
        simp only [Except.ok.injEq] at h
        subst h
        refine ⟨[.leave_destroy a, .free a .destroy_state, .destroy a .tmp4,
          .enter_destroy a fr.__suspend_point], rfl, ?_, ?_⟩
        · simp [Machine.emit, Machine.set]
        · simp [frees, List.countP_cons]

/-! ## Calls that put no task into a frame -/

theorem Frame.fades_same (fr : Frame) : fr.fades fr :=
  Or.inr rfl

theorem Frame.fades_link {fr2 fr1 fr : Frame} (h2 : fr2.fades fr1) (h1 : fr1.fades fr) :
    fr2.fades fr := by
  rcases h2 with h2 | h2
  · exact Or.inl h2
  · rcases h1 with h1 | h1
    · exact Or.inl (h2.trans h1)
    · exact Or.inr (h2.trans h1)

theorem Fades.idle (m : Machine) : Fades m m :=
  ⟨rfl, fun _ fr1 h => ⟨fr1, h, Frame.fades_same fr1⟩⟩

theorem Fades.join {m m1 m2 : Machine} (h1 : Fades m m1) (h2 : Fades m1 m2) : Fades m m2 := by
  refine ⟨h2.1.trans h1.1, fun a fr2 h => ?_⟩
  obtain ⟨fr1, hf1, hc1⟩ := h2.2 a fr2 h
  obtain ⟨fr, hf, hc⟩ := h1.2 a fr1 hf1
  exact ⟨fr, hf, Frame.fades_link hc1 hc⟩

theorem fades_emit (m : Machine) (e : Event) : Fades m (m.emit e) :=
  ⟨rfl, fun _ fr1 h => ⟨fr1, h, Frame.fades_same fr1⟩⟩

theorem fades_set {m : Machine} {a : Nat} {fr fr1 : Frame} (h : m.heap a = some fr)
    (hc : fr1.fades fr) : Fades m (m.set a fr1) := by
  refine ⟨rfl, fun b fr2 h2 => ?_⟩
  simp only [Machine.set, Function.update_apply] at h2
  split_ifs at h2 with hb
  · subst hb
    simp only [Option.some.injEq] at h2
    subst h2
    exact ⟨fr, h, hc⟩
  · exact ⟨fr2, h2, Frame.fades_same fr2⟩

theorem fades_delete {m m1 : Machine} {a : Nat} {s : Site} (h : m.delete a s = .ok m1) :
    Fades m m1 := by
  unfold Machine.delete at h
  split at h
  · cases h
  · simp only [Except.ok.injEq] at h
    subst h
    refine ⟨rfl, fun b fr2 h2 => ?_⟩
    simp only [Function.update_apply] at h2
    split_ifs at h2
    exact ⟨fr2, h2, Frame.fades_same fr2⟩

theorem fades_manual_destroy {m m1 : Machine} {a : Nat} {s : Slot} {clear : Frame → Frame}
    (h : manual_lifetime.destroy a s clear m = .ok m1)
    (hs : ∀ fr, (clear fr).fades fr) : Fades m m1 := by
  unfold manual_lifetime.destroy at h
  obtain ⟨fr, hg, h⟩ := bind_ok h
  simp only [Except.ok.injEq] at h
  subst h
  exact (fades_set (get_ok hg) (hs fr)).join (fades_emit _ _)

theorem fades_await_resume {m m1 : Machine} {c : Ptr} {r : Except Exn Int}
    (hx : awaiter.await_resume c m = .ok (r, m1)) : Fades m m1 := by
  unfold awaiter.await_resume at hx
  obtain ⟨⟨a, fr⟩, hg, hx⟩ := bind_ok hx
  simp only at hx
  split at hx
  · rename_i e he
    simp only [Except.ok.injEq, Prod.mk.injEq] at hx
    obtain ⟨_, hx⟩ := hx
    subst hx
    exact fades_set (deref_ok hg).2 (Or.inr rfl)
  · cases hx
  · simp only [Except.ok.injEq, Prod.mk.injEq] at hx
    obtain ⟨_, hx⟩ := hx
    subst hx
    exact Fades.idle _
  · simp only [Except.ok.injEq, Prod.mk.injEq] at hx
    obtain ⟨_, hx⟩ := hx
    subst hx
    exact Fades.idle _

theorem fades_f_destroy {m m1 : Machine} {s : Nat} (h : __f_destroy s m = .ok m1) :
    Fades m m1 := by
  unfold __f_destroy at h
  obtain ⟨state, _, h⟩ := bind_ok h
  simp only at h
  split_ifs at h
  · obtain ⟨m2, h2, h⟩ := bind_ok h
    obtain ⟨m3, h3, h⟩ := bind_ok h
    simp only [Except.ok.injEq] at h
    subst h
    exact ((fades_emit _ _).join (fades_manual_destroy h2 (fun fr => Frame.fades_same fr))).join
      ((fades_delete h3).join (fades_emit _ _))
  · obtain ⟨m2, h2, h⟩ := bind_ok h
    obtain ⟨m3, h3, h⟩ := bind_ok h
    simp only [Except.ok.injEq] at h
    subst h
    exact ((fades_emit _ _).join (fades_manual_destroy h2 (fun fr => Frame.fades_same fr))).join
      ((fades_delete h3).join (fades_emit _ _))

theorem fades_task_dtor {D : Ptr → Machine → Except Fault Machine}
    (hD : ∀ p m m1, D p m = .ok m1 → Fades m m1) {t : task} {m m1 : Machine}
    (h : task.dtor D t m = .ok m1) : Fades m m1 := by
  unfold task.dtor at h
  split_ifs at h
  · exact hD _ _ _ h
  · simp only [Except.ok.injEq] at h
    subst h
    exact Fades.idle _

theorem fades_destroy_task {D : Ptr → Machine → Except Fault Machine}
    (hD : ∀ p m m1, D p m = .ok m1 → Fades m m1) {s : Nat} {m m1 : Machine}
    (h : manual_lifetime.destroy_task D s m = .ok m1) : Fades m m1 := by
  unfold manual_lifetime.destroy_task at h
  obtain ⟨fr, hg, h⟩ := bind_ok h
  split at h
  · cases h
  · refine Fades.join (Fades.join (fades_set (get_ok hg) ?_) (fades_emit _ _))
      (fades_task_dtor hD h)
    exact Or.inl rfl

theorem fades_g_destroy {D : Ptr → Machine → Except Fault Machine}
    (hD : ∀ p m m1, D p m = .ok m1 → Fades m m1) {s : Nat} {m m1 : Machine}
    (h : __g_destroy D s m = .ok m1) : Fades m m1 := by
  unfold __g_destroy at h
  obtain ⟨state, _, h⟩ := bind_ok h
  simp only at h
  split_ifs at h
  · obtain ⟨m2, h2, h⟩ := bind_ok h
    obtain ⟨m3, h3, h⟩ := bind_ok h
    simp only [Except.ok.injEq] at h
    subst h
    exact ((fades_emit _ _).join (fades_manual_destroy h2 (fun fr => Frame.fades_same fr))).join
      ((fades_delete h3).join (fades_emit _ _))
  · obtain ⟨m2, h2, h⟩ := bind_ok h
    obtain ⟨m3, h3, h⟩ := bind_ok h
    obtain ⟨m4, h4, h⟩ := bind_ok h
    simp only [Except.ok.injEq] at h
    subst h
    exact (((fades_emit _ _).join (fades_manual_destroy h2 (fun fr => Frame.fades_same fr))).join
      (fades_destroy_task hD h3)).join ((fades_delete h4).join (fades_emit _ _))
  · obtain ⟨m2, h2, h⟩ := bind_ok h
    obtain ⟨m3, h3, h⟩ := bind_ok h
    simp only [Except.ok.injEq] at h
    subst h
    exact ((fades_emit _ _).join (fades_manual_destroy h2 (fun fr => Frame.fades_same fr))).join
      ((fades_delete h3).join (fades_emit _ _))

theorem fades_handle_destroy (fuel : Nat) :
    ∀ (p : Ptr) (m m1 : Machine), coroutine_handle.destroy fuel p m = .ok m1 → Fades m m1 := by
  induction fuel with
  | zero =>
    intro p m m1 h
    simp [coroutine_handle.destroy] at h
  | succ n ih =>
    intro p m m1 h
    unfold coroutine_handle.destroy at h
    split at h
    · cases h
    · simp only [Except.ok.injEq] at h
      subst h
      exact Fades.idle _
    · split at h
      · cases h
      · split at h
        · exact fades_f_destroy h
        · exact fades_g_destroy ih h


theorem fades_return_value {m m1 : Machine} {a : Nat} {v : Int}
    (h : promise_type.return_value a v m = .ok m1) : Fades m m1 := by
  obtain ⟨fr, hf, rfl⟩ := return_value_ok h
  refine Fades.join (fades_set hf ?_) (fades_emit _ _)
  exact Or.inr rfl

theorem fades_unhandled_exception {m m1 : Machine} {a : Nat} {e : Exn}
    (h : promise_type.unhandled_exception a e m = .ok m1) : Fades m m1 := by
  obtain ⟨fr, hf, rfl⟩ := unhandled_exception_ok h
  refine Fades.join (fades_set hf ?_) (fades_emit _ _)
  exact Or.inr rfl

theorem fades_final_suspend {s : Nat} {index : Int} {m m1 : Machine} {p : Ptr}
    (h : final_suspend s index m = .ok (p, m1)) : Fades m m1 := by
  obtain ⟨fr, hf, _, rfl⟩ := final_suspend_shape h
  refine ⟨rfl, fun b fr1 hb => ?_⟩
  simp only [Function.update_apply] at hb
  split_ifs at hb with hbs
  · subst hbs
    simp only [Option.some.injEq] at hb
    subst hb
    exact ⟨fr, hf, Or.inr rfl⟩
  · exact ⟨fr1, hb, Frame.fades_same fr1⟩

theorem fades_await_suspend {m m1 : Machine} {c h c1 : Ptr}
    (hx : awaiter.await_suspend c h m = .ok (c1, m1)) : Fades m m1 := by
  unfold awaiter.await_suspend at hx
  obtain ⟨⟨a, fr⟩, hg, hx⟩ := bind_ok hx
  simp only [Except.ok.injEq, Prod.mk.injEq] at hx
  obtain ⟨_, hx⟩ := hx
  subst hx
  refine Fades.join (fades_set (deref_ok hg).2 ?_) (fades_emit _ _)
  exact Or.inr rfl

theorem g_suspend_point_1_fades {fuel : Nat} {s : Nat} {m m1 : Machine} {p : Ptr}
    (hx : __g_suspend_point_1 fuel s m = .ok (p, m1)) : Fades m m1 := by
  unfold __g_suspend_point_1 at hx
  obtain ⟨state, _, hx⟩ := bind_ok hx
  split at hx
  · cases hx
  · obtain ⟨⟨r, m2⟩, h2, hx⟩ := bind_ok hx
    obtain ⟨m3, h3, hx⟩ := bind_ok hx
    simp only [destructor_guard.dtor, destructor_guard_trivial.dtor] at h3
    have k : Fades m m3 :=
      (fades_await_resume h2).join (fades_destroy_task (fades_handle_destroy fuel) h3)
    split at hx
    · obtain ⟨m4, h4, hx⟩ := bind_ok hx
      exact (k.join (fades_return_value h4)).join (fades_final_suspend hx)
    · obtain ⟨m4, h4, hx⟩ := bind_ok hx
      exact (k.join (fades_unhandled_exception h4)).join (fades_final_suspend hx)

/-- What a call of a resume entry does to the tasks in the frames: none
receives a task, except that `__g_resume` at index 0 puts the task of the new
leaf into `__tmp2` of its frame. -/
theorem call_resume_tasks {fuel : Nat} {p p1 : Ptr} {m m1 : Machine} (hm : m.ok)
    (hx : call_resume fuel p m = .ok (p1, m1)) :
    Fades m m1 ∨
    (∃ a, m.heap a ≠ none ∧ m1.next = m.next + 1 ∧ ∀ b fr1, m1.heap b = some fr1 →
      (b = a ∧ fr1.__tmp2 = some { coro_ := .frame m.next }) ∨
      (b = m.next ∧ fr1.__tmp2 = none) ∨ m.heap b = some fr1) := by
  rcases call_resume_shape hm hx with ⟨_, _, h1⟩ | ⟨a, fr, hp, hfr, hr⟩
  · rw [h1]
    exact Or.inl (Fades.idle m)
  · subst hp
    cases hr with
    | leaf hr hd h0 =>
      refine Or.inl ⟨rfl, fun b fr1 hb => ?_⟩
      simp only [Function.update_apply] at hb
      split_ifs at hb with hba
      · subst hba
        simp only [Option.some.injEq] at hb
        subst hb
        exact ⟨fr, hfr, Or.inr rfl⟩
      · exact ⟨fr1, hb, Frame.fades_same fr1⟩
    | await hr hd h0 =>
      refine Or.inr ⟨a, by simp [hfr], rfl, fun b fr1 hb => ?_⟩
      simp only [Function.update_apply] at hb
      split_ifs at hb with hbn hba
      · simp only [Option.some.injEq] at hb
        subst hb
        exact Or.inr (Or.inl ⟨hbn, rfl⟩)
      · simp only [Option.some.injEq] at hb
        subst hb
        exact Or.inl ⟨hba, rfl⟩
      · exact Or.inr (Or.inr hb)
    | final m4 _ fr4 q w hr hd h1 k hf hh hn hl hq hw =>
      have hx1 : __g_suspend_point_1 fuel a (m.emit (.enter_resume a fr.__suspend_point)) =
          .ok (fr4.continuation_, m1) := by
        simpa [call_resume, __g_resume, Machine.get, bind, Except.bind, hfr, hr, h1] using hx
      exact Or.inl ((fades_emit m _).join (g_suspend_point_1_fades hx1))

/-! ## Every frame has at most one owner -/

theorem owns_object {w : World} {i a : Nat} :
    w.owns (.object i) a ↔ w.tasks[i]? = some (some { coro_ := .frame a }) := by
  simp only [World.owns, World.handle]
  cases w.tasks[i]? with
  | none => simp
  | some o =>
    cases o with
    | none => simp
    | some t =>
      cases t
      simp

theorem owns_slot {w : World} {b a : Nat} :
    w.owns (.slot b) a ↔
      ∃ fr, w.m.heap b = some fr ∧ fr.__tmp2 = some { coro_ := .frame a } := by
  simp only [World.owns, World.handle]
  cases w.m.heap b with
  | none => simp
  | some fr =>
    cases h : fr.__tmp2 with
    | none => simp [h]
    | some t =>
      cases t
      simp [h]

theorem wf_of_map {w w1 : World} (hw : w.wf) (hok : w1.m.ok) (hn : w.m.next ≤ w1.m.next)
    (φ : Owner → Owner) (h : ∀ o a, w1.owns o a → w.owns (φ o) a)
    (hinj : ∀ o1 o2 a, w1.owns o1 a → w1.owns o2 a → φ o1 = φ o2 → o1 = o2) : w1.wf := by
  refine ⟨hok, fun o a ho => lt_of_lt_of_le (hw.2.1 _ a (h o a ho)) hn, fun o1 o2 a h1 h2 => ?_⟩
  exact hinj o1 o2 a h1 h2 (hw.2.2 _ _ a (h o1 a h1) (h o2 a h2))

theorem wf_of_fresh {w w1 : World} (hw : w.wf) (hok : w1.m.ok) (hn : w.m.next < w1.m.next)
    (o0 : Owner) (h : ∀ o a, w1.owns o a → w.owns o a ∨ (o = o0 ∧ a = w.m.next)) :
    w1.wf := by
  refine ⟨hok, fun o a ho => ?_, fun o1 o2 a h1 h2 => ?_⟩
  · rcases h o a ho with hi | ⟨_, ha⟩
    · exact lt_trans (hw.2.1 o a hi) hn
    · rw [ha]; exact hn
  · rcases h o1 a h1 with hi1 | ⟨ho1, ha1⟩ <;> rcases h o2 a h2 with hi2 | ⟨ho2, ha2⟩
    · exact hw.2.2 o1 o2 a hi1 hi2
    · have := hw.2.1 o1 a hi1
      omega
    · have := hw.2.1 o2 a hi2
      omega
    · rw [ho1, ho2]

theorem wf_fades {ts : List (Option task)} {m m1 : Machine}
    (hw : World.wf { m := m, tasks := ts }) (hok : m1.ok) (hf : Fades m m1) :
    World.wf { m := m1, tasks := ts } := by
  refine wf_of_map hw hok (le_of_eq hf.1.symm) id (fun o a ho => ?_) (fun _ _ _ _ _ h => h)
  cases o with
  | object i => exact owns_object.2 (owns_object.1 ho)
  | slot b =>
    obtain ⟨fr1, hfr1, ht⟩ := owns_slot.1 ho
    obtain ⟨fr, hfr, hfd⟩ := hf.2 b fr1 hfr1
    rcases hfd with hnone | hsame
    · rw [hnone] at ht
      cases ht
    · exact owns_slot.2 ⟨fr, hfr, by rw [← hsame]; exact ht⟩

theorem wf_call_resume {ts : List (Option task)} {fuel : Nat} {p p1 : Ptr} {m m1 : Machine}
    (hw : World.wf { m := m, tasks := ts }) (hx : call_resume fuel p m = .ok (p1, m1)) :
    World.wf { m := m1, tasks := ts } := by
  have hm : m.ok := hw.1
  have hok1 : m1.ok := call_resume_ok hm hx
  rcases call_resume_tasks hm hx with hf | ⟨a, _, hn, hb⟩
  · exact wf_fades hw hok1 hf
  · refine wf_of_fresh hw hok1 (by show m.next < m1.next; omega) (.slot a) (fun o a1 ho => ?_)
    cases o with
    | object i => exact Or.inl (owns_object.2 (owns_object.1 ho))
    | slot b =>
      obtain ⟨fr1, hfr1, ht⟩ := owns_slot.1 ho
      rcases hb b fr1 hfr1 with ⟨hba, ht1⟩ | ⟨_, ht1⟩ | hold
      · rw [ht1] at ht
        simp only [Option.some.injEq, task.mk.injEq, Ptr.frame.injEq] at ht
        exact Or.inr ⟨by rw [hba], ht.symm⟩
      · rw [ht1] at ht
        cases ht
      · exact Or.inl (owns_slot.2 ⟨fr1, hold, ht⟩)

theorem wf_resume {ts : List (Option task)} (fuel : Nat) :
    ∀ (p : Ptr) (m m1 : Machine), World.wf { m := m, tasks := ts } →
      coroutine_handle.resume fuel p m = .ok m1 → World.wf { m := m1, tasks := ts } := by
  induction fuel with
  | zero =>
    intro p m m1 _ h
    simp [coroutine_handle.resume] at h
  | succ n ih =>
    intro p m m1 hw h
    unfold coroutine_handle.resume at h
    split at h
    · cases h
    · rename_i s1 m2 hc
      have hw2 := wf_call_resume hw hc
      split_ifs at h
      · simp only [Except.ok.injEq] at h
        subst h
        exact hw2
      · exact ih s1 m2 m1 hw2 h

theorem wf_execute {ts : List (Option task)} {fuel : Nat} {t : task} {m m1 : Machine}
    {r : Except Exn Int} (hw : World.wf { m := m, tasks := ts })
    (hx : task.execute fuel t m = .ok (r, m1)) : World.wf { m := m1, tasks := ts } := by
  unfold task.execute at hx
  obtain ⟨⟨c, m2⟩, h2, hx⟩ := bind_ok hx
  obtain ⟨m3, h3, hx⟩ := bind_ok hx
  have hw2 := wf_fades hw ((keeps_await_suspend h2).ok hw.1) (fades_await_suspend h2)
  have hw3 := wf_resume fuel _ _ _ hw2 h3
  exact wf_fades hw3 ((keeps_await_resume hx).ok hw3.1) (fades_await_resume hx)

theorem wf_dtor {ts : List (Option task)} {fuel : Nat} {t : task} {m m1 : Machine}
    (hw : World.wf { m := m, tasks := ts })
    (hx : task.dtor (coroutine_handle.destroy fuel) t m = .ok m1) :
    World.wf { m := m1, tasks := ts } :=
  wf_fades hw ((keeps_task_dtor (keeps_handle_destroy fuel) hx).ok hw.1)
    (fades_task_dtor (fades_handle_destroy fuel) hx)

theorem object_set_null {ts : List (Option task)} {m : Machine} {j a : Nat} {x : Option task}
    (hx : ∀ t, x = some t → t.coro_ = .null)
    (h : World.owns { m := m, tasks := ts.set j x } (.object j) a) : False := by
  have h1 := owns_object.1 h
  simp only [List.getElem?_set, if_true] at h1
  split_ifs at h1
  simp only [Option.some.injEq] at h1
  have := hx _ h1
  cases this

theorem run_op_wf {fuel : Nat} {op : Op} {w w1 : World} (hw : w.wf)
    (h : run_op fuel op w = .ok w1) : w1.wf := by
  have hm : w.m.ok := hw.1
  have slot_same : ∀ (ts : List (Option task)) b a,
      World.owns { m := w.m, tasks := ts } (.slot b) a → w.owns (.slot b) a :=
    fun ts b a ho => owns_slot.2 (owns_slot.1 ho)
  cases op with
  | call_f x =>
    simp only [run_op, f_eq, bind, Except.bind, Except.ok.injEq] at h
    subst h
    refine wf_of_fresh hw (ok_alloc hm (Or.inl ⟨rfl, Or.inl ⟨rfl, rfl⟩⟩) _)
      (Nat.lt_succ_self _) (.object w.tasks.length) (fun o a ho => ?_)
    cases o with
    | object i =>
      have h1 := owns_object.1 ho
      simp only [List.getElem?_append] at h1
      split_ifs at h1 with hi
      · exact Or.inl (owns_object.2 h1)
      · have hi0 : i - w.tasks.length = 0 := by
          by_contra hc
          rw [List.getElem?_cons, if_neg hc] at h1
          simp at h1
        rw [hi0] at h1
        simp only [List.getElem?_cons_zero, Option.some.injEq, task.mk.injEq,
          Ptr.frame.injEq] at h1
        exact Or.inr ⟨by congr 1; omega, h1.symm⟩
    | slot b =>
      obtain ⟨fr1, hfr1, ht⟩ := owns_slot.1 ho
      simp only [Function.update_apply] at hfr1
      split_ifs at hfr1
      · simp only [Option.some.injEq] at hfr1
        subst hfr1
        cases ht
      · exact Or.inl (owns_slot.2 ⟨fr1, hfr1, ht⟩)
  | call_g x =>
    simp only [run_op, g_eq, bind, Except.bind, Except.ok.injEq] at h
    subst h
    refine wf_of_fresh hw (ok_alloc hm (Or.inr ⟨rfl, Or.inl ⟨rfl, Or.inl rfl⟩⟩) _)
      (Nat.lt_succ_self _) (.object w.tasks.length) (fun o a ho => ?_)
    cases o with
    | object i =>
      have h1 := owns_object.1 ho
      simp only [List.getElem?_append] at h1
      split_ifs at h1 with hi
      · exact Or.inl (owns_object.2 h1)
      · have hi0 : i - w.tasks.length = 0 := by
          by_contra hc
          rw [List.getElem?_cons, if_neg hc] at h1
          simp at h1
        rw [hi0] at h1
        simp only [List.getElem?_cons_zero, Option.some.injEq, task.mk.injEq,
          Ptr.frame.injEq] at h1
        exact Or.inr ⟨by congr 1; omega, h1.symm⟩
    | slot b =>
      obtain ⟨fr1, hfr1, ht⟩ := owns_slot.1 ho
      simp only [Function.update_apply] at hfr1
      split_ifs at hfr1
      · simp only [Option.some.injEq] at hfr1
        subst hfr1
        cases ht
      · exact Or.inl (owns_slot.2 ⟨fr1, hfr1, ht⟩)
  | execute i =>
    simp only [run_op] at h
    obtain ⟨t, _, h⟩ := bind_ok h
    obtain ⟨⟨r, m1⟩, hx, h⟩ := bind_ok h
    simp only [Except.ok.injEq] at h
    subst h
    exact wf_execute hw hx
  | move_construct i =>
    simp only [run_op] at h
    obtain ⟨t, ht, h⟩ := bind_ok h
    simp only [task.move_ctor, Except.ok.injEq] at h
    subst h
    have hti := task_ok ht
    refine wf_of_map hw hm (le_refl _)
      (fun o => match o with
        | .object k => if k = w.tasks.length then .object i else .object k
        | .slot b => .slot b)
      (fun o a ho => ?_) (fun o1 o2 a h1 h2 he => ?_)
    · cases o with
      | object k =>
        have h1 := owns_object.1 ho
        simp only [List.getElem?_append, List.length_set] at h1
        split_ifs at h1 with hk
        · simp only [List.getElem?_set] at h1
          split_ifs at h1 with hik
          · simp at h1
          · simp only [if_neg (Nat.ne_of_lt hk)]
            exact owns_object.2 h1
        · have hk0 : k - w.tasks.length = 0 := by
            by_contra hc
            rw [List.getElem?_cons, if_neg hc] at h1
            simp at h1
          rw [hk0] at h1
          simp only [List.getElem?_cons_zero, Option.some.injEq, task.mk.injEq] at h1
          have hkl : k = w.tasks.length := by omega
          simp only [if_pos hkl]
          refine owns_object.2 ?_
          rw [hti, ← h1]
      | slot b => exact slot_same _ b a ho
    · have null_i : ∀ a, ¬ World.owns
          ⟨w.m, w.tasks.set i (some { coro_ := .null }) ++ [some { coro_ := t.coro_ }]⟩
          (.object i) a := by
        intro a ho
        have h1 := owns_object.1 ho
        have hil : i < w.tasks.length := (List.getElem?_eq_some.1 hti).1
        rw [List.getElem?_append_left (by simpa using hil),
          List.getElem?_set_self hil] at h1
        simp at h1
      cases o1 with
      | object k1 =>
        cases o2 with
        | object k2 =>
          simp only at he
          split_ifs at he with e1 e2 e2
          · rw [e1, e2]
          · simp only [Owner.object.injEq] at he
            rw [← he] at h2
            exact absurd h2 (null_i a)
          · simp only [Owner.object.injEq] at he
            rw [he] at h1
            exact absurd h1 (null_i a)
          · exact he
        | slot b2 =>
          simp only at he
          split_ifs at he
      | slot b1 =>
        cases o2 with
        | object k2 =>
          simp only at he
          split_ifs at he
        | slot b2 => exact he
  | move_assign i j =>
    simp only [run_op, task.move_assign] at h
    obtain ⟨t, ht, h⟩ := bind_ok h
    simp only [task.move_ctor] at h
    obtain ⟨self, hs, h⟩ := bind_ok h
    obtain ⟨m1, hx, h⟩ := bind_ok h
    simp only [Except.ok.injEq] at h
    subst h
    have htj := task_ok ht
    have hsi := task_ok hs
    have hil : i < w.tasks.length := by
      have := (List.getElem?_eq_some.1 hsi).1
      simpa using this
    refine wf_dtor (wf_of_map hw hm (le_refl _)
      (fun o => match o with
        | .object k => if k = i then .object j else .object k
        | .slot b => .slot b)
      (fun o a ho => ?_) (fun o1 o2 a h1 h2 he => ?_)) hx
    · cases o with
      | object k =>
        have h1 := owns_object.1 ho
        simp only [List.getElem?_set, List.length_set] at h1
        split_ifs at h1 with hik _ hjk
        · simp only [Option.some.injEq, task.mk.injEq] at h1
          simp only [if_pos hik.symm]
          refine owns_object.2 ?_
          rw [htj, ← h1]
        · simp at h1
        · simp only [if_neg (Ne.symm hik)]
          exact owns_object.2 h1
      | slot b => exact slot_same _ b a ho
    · have null_j : i ≠ j → ∀ a, ¬ World.owns
          ⟨w.m, (w.tasks.set j (some { coro_ := .null })).set i (some { coro_ := t.coro_ })⟩
          (.object j) a := by
        intro hij a ho
        have h1 := owns_object.1 ho
        have hjl : j < w.tasks.length := (List.getElem?_eq_some.1 htj).1
        rw [List.getElem?_set_ne hij, List.getElem?_set_self hjl] at h1
        simp at h1
      cases o1 with
      | object k1 =>
        cases o2 with
        | object k2 =>
          simp only at he
          split_ifs at he with e1 e2 e2
          · rw [e1, e2]
          · simp only [Owner.object.injEq] at he
            rw [← he] at h2
            have hij : i ≠ j := fun hij => e2 (by rw [← he, hij])
            exact absurd h2 (null_j hij a)
          · simp only [Owner.object.injEq] at he
            rw [he] at h1
            have hij : i ≠ j := fun hij => e1 (by rw [he, hij])
            exact absurd h1 (null_j hij a)
          · exact he
        | slot b2 =>
          simp only at he
          split_ifs at he
      | slot b1 =>
        cases o2 with
        | object k2 =>
          simp only at he
          split_ifs at he
        | slot b2 => exact he
  | destruct i =>
    simp only [run_op] at h
    obtain ⟨t, ht, h⟩ := bind_ok h
    obtain ⟨m1, hx, h⟩ := bind_ok h
    simp only [Except.ok.injEq] at h
    subst h
    have hw1 : World.wf { m := m1, tasks := w.tasks } := wf_dtor hw hx
    refine wf_of_map hw1 hw1.1 (le_refl _) id (fun o a ho => ?_) (fun _ _ _ _ _ h => h)
    cases o with
    | object k =>
      have h1 := owns_object.1 ho
      simp only [List.getElem?_set] at h1
      split_ifs at h1 with hik
      · simp at h1
      · exact owns_object.2 h1
    | slot b => exact owns_slot.2 (owns_slot.1 ho)

theorem run_ops_wf (fuel : Nat) (ops : List Op) :
    ∀ w w1 : World, w.wf → run_ops fuel ops w = .ok w1 → w1.wf := by
  induction ops with
  | nil =>
    intro w w1 hw h
    simp only [run_ops, Except.ok.injEq] at h
    rw [← h]
    exact hw
  | cons op ops ih =>
    intro w w1 hw h
    simp only [run_ops] at h
    split at h
    · cases h
    · rename_i w2 h2
      exact ih w2 w1 (run_op_wf hw h2) h

theorem wf_init : World.init.wf := by
  refine ⟨⟨fun a fr h => by simp [World.init, Machine.init] at h, fun a _ => rfl⟩,
    fun o a ho => ?_, fun o1 o2 a h1 _ => ?_⟩
  · cases o with
    | object i => simp [World.owns, World.handle, World.init] at ho
    | slot b => simp [World.owns, World.handle, World.init, Machine.init] at ho
  · cases o1 with
    | object i => simp [World.owns, World.handle, World.init] at h1
    | slot b => simp [World.owns, World.handle, World.init, Machine.init] at h1

/-! ## Moves of task objects -/

theorem task_iff {w : World} {i : Nat} {t : task} :
    w.task i = .ok t ↔ w.tasks[i]? = some (some t) := by
  constructor
  · exact task_ok
  · intro h
    simp [World.task, h]

theorem set_same {α : Type} (l : List α) (i : Nat) (x : α) (h : l[i]? = some x) :
    l.set i x = l := by
  apply List.ext_getElem?
  intro n
  rw [List.getElem?_set]
  split_ifs with hin hil
  · rw [← hin, h]
  · rw [← hin]
    exact absurd (List.getElem?_eq_some.1 h).1 hil
  · rfl

theorem destroy_live {fuel : Nat} {a : Nat} {m m1 : Machine}
    (h : coroutine_handle.destroy fuel (.frame a) m = .ok m1) : ∃ fr, m.heap a = some fr := by
  cases fuel with
  | zero => simp [coroutine_handle.destroy] at h
  | succ n =>
    cases hfr : m.heap a with
    | none => simp [coroutine_handle.destroy, hfr] at h
    | some fr => exact ⟨fr, rfl⟩

theorem move_construct_eq {fuel : Nat} {w : World} {i : Nat} {t : task}
    (ht : w.task i = .ok t) :
    run_op fuel (.move_construct i) w = .ok
      { m := w.m,
        tasks := w.tasks.set i (some { coro_ := .null }) ++ [some { coro_ := t.coro_ }] } := by
  simp [run_op, ht, task.move_ctor, bind, Except.bind]

theorem move_assign_eq {fuel : Nat} {w : World} {i j : Nat} {ti tj : task} (hij : i ≠ j)
    (hi : w.task i = .ok ti) (hj : w.task j = .ok tj) :
    run_op fuel (.move_assign i j) w =
      match task.dtor (coroutine_handle.destroy fuel) ti w.m with
      | .ok m1 => .ok ⟨m1, (w.tasks.set j (some { coro_ := .null })).set i
          (some { coro_ := tj.coro_ })⟩
      | .error e => .error e := by
  have hs : World.task ⟨w.m, w.tasks.set j (some { coro_ := .null })⟩ i = .ok ti := by
    rw [task_iff]
    simp only
    rw [List.getElem?_set_ne (Ne.symm hij)]
    exact task_ok hi
  simp only [run_op, task.move_assign, task.move_ctor, bind, Except.bind, hj, hs]
  cases task.dtor (coroutine_handle.destroy fuel) ti w.m <;> rfl

theorem move_assign_self {fuel : Nat} {w : World} {i : Nat} {t : task}
    (ht : w.task i = .ok t) : run_op fuel (.move_assign i i) w = .ok w := by
  have hti := task_ok ht
  have hil : i < w.tasks.length := (List.getElem?_eq_some.1 hti).1
  have hs : World.task ⟨w.m, w.tasks.set i (some { coro_ := .null })⟩ i =
      .ok { coro_ := .null } := by
    rw [task_iff]
    simp only
    rw [List.getElem?_set_self hil]
  simp only [run_op, task.move_assign, task.move_ctor, bind, Except.bind, ht, hs, task.dtor,
    coroutine_handle.to_bool]
  simp only [Bool.false_eq_true, if_false, List.set_set]
  rw [set_same w.tasks i _ hti]
  simp

/-! ## Resume entries on a bounded free store -/

theorem __g_resume_bounded_room (cap : Nat) (fuel : Nat) (s : Nat) (m : Machine)
    (h : m.next < cap) : __g_resume_bounded cap fuel s m = __g_resume fuel s m := by
  cases hs : m.get s with
  | error e => simp [__g_resume_bounded, __g_resume, hs, bind, Except.bind]
  | ok state =>
    simp only [__g_resume_bounded, __g_resume, hs, bind, Except.bind, f_bounded, f_eq,
      suspend_always.await_resume, destructor_guard_trivial.dtor, Machine.emit, h, if_true]

theorem __g_resume_bounded_later (cap : Nat) (fuel : Nat) (s : Nat) (m : Machine) (fr : Frame)
    (h : m.heap s = some fr) (h0 : fr.__suspend_point ≠ 0) :
    __g_resume_bounded cap fuel s m = __g_resume fuel s m := by
  simp [__g_resume_bounded, __g_resume, Machine.get, h, h0, bind, Except.bind]

theorem __g_resume_bounded_full (cap : Nat) (fuel : Nat) (s : Nat) (m : Machine) (fr : Frame)
    (h : m.heap s = some fr) (h0 : fr.__suspend_point = 0) (hc : cap ≤ m.next) :
    __g_resume_bounded cap fuel s m = .ok (fr.continuation_,
      { heap := Function.update m.heap s
          (some { fr with result_ := .error (some .bad_alloc), __suspend_point := 2,
                          __resume := none }),
        next := m.next,
        log := .leave_resume s fr.continuation_ :: .construct s .tmp4 ::
          .unhandled_exception s .bad_alloc :: .enter_resume s 0 :: m.log }) := by
  simp [__g_resume_bounded, f_bounded, promise_type.unhandled_exception, final_suspend,
    manual_lifetime.construct_from, Machine.get, Machine.set,
    Machine.emit, Machine.deref, final_awaiter.await_ready, final_awaiter.await_suspend,
    destructor_guard_trivial.dtor, suspend_always.await_resume, bind, Except.bind, h, h0,
    Nat.not_lt.2 hc]

theorem call_resume_bounded_eq (cap : Nat) (fuel : Nat) (p : Ptr) (m : Machine)
    (h : m.next < cap ∨ ∀ a fr, p = .frame a → m.heap a = some fr →
      fr.__resume = some .g → fr.__suspend_point ≠ 0) :
    call_resume_bounded cap fuel p m = call_resume fuel p m := by
  cases p with
  | null => rfl
  | noop => rfl
  | frame a =>
    cases hfr : m.heap a with
    | none => simp [call_resume_bounded, call_resume, hfr]
    | some fr =>
      cases hr : fr.__resume with
      | none => simp [call_resume_bounded, call_resume, hfr, hr]
      | some c =>
        cases c with
        | f => simp [call_resume_bounded, call_resume, hfr, hr]
        | g =>
          simp only [call_resume_bounded, call_resume, hfr, hr]
          rcases h with h | h
          · exact __g_resume_bounded_room cap fuel a m h
          · exact __g_resume_bounded_later cap fuel a m fr hfr (h a fr rfl hfr hr)

theorem call_resume_bounded_full (cap : Nat) (fuel : Nat) (a : Nat) (m : Machine) (fr : Frame)
    (h : m.heap a = some fr) (hr : fr.__resume = some .g) (h0 : fr.__suspend_point = 0)
    (hc : cap ≤ m.next) :
    call_resume_bounded cap fuel (.frame a) m = .ok (fr.continuation_,
      { heap := Function.update m.heap a
          (some { fr with result_ := .error (some .bad_alloc), __suspend_point := 2,
                          __resume := none }),
        next := m.next,
        log := .leave_resume a fr.continuation_ :: .construct a .tmp4 ::
          .unhandled_exception a .bad_alloc :: .enter_resume a 0 :: m.log }) := by
  simp only [call_resume_bounded, h, hr]
  exact __g_resume_bounded_full cap fuel a m fr h h0 hc

/-- A returning call of a resume entry on a bounded free store is a call of
the resume entry on the unbounded one, or the call of `__g_resume` at index 0
whose allocation of the leaf fails. -/
theorem call_resume_bounded_cases {cap : Nat} {fuel : Nat} {p p1 : Ptr} {m m1 : Machine}
    (hx : call_resume_bounded cap fuel p m = .ok (p1, m1)) :
    call_resume fuel p m = .ok (p1, m1) ∧
      (m.next < cap ∨ ∀ a fr, p = .frame a → m.heap a = some fr →
        fr.__resume = some .g → fr.__suspend_point ≠ 0) ∨
    ∃ a fr, p = .frame a ∧ m.heap a = some fr ∧ fr.__resume = some .g ∧
      fr.__suspend_point = 0 ∧ cap ≤ m.next ∧
      p1 = fr.continuation_ ∧
      m1 = { heap := Function.update m.heap a
               (some { fr with result_ := .error (some .bad_alloc), __suspend_point := 2,
                               __resume := none }),
             next := m.next,
             log := .leave_resume a fr.continuation_ :: .construct a .tmp4 ::
               .unhandled_exception a .bad_alloc :: .enter_resume a 0 :: m.log } := by
  by_cases h : m.next < cap ∨ ∀ a fr, p = .frame a → m.heap a = some fr →
      fr.__resume = some .g → fr.__suspend_point ≠ 0
  · rw [call_resume_bounded_eq cap fuel p m h] at hx
    exact Or.inl ⟨hx, h⟩
  · simp only [not_or, not_forall, not_not, Nat.not_lt] at h
    obtain ⟨hc, a, fr, hp, hfr, hr, h0⟩ := h
    subst hp
    rw [call_resume_bounded_full cap fuel a m fr hfr hr h0 hc] at hx
    simp only [Except.ok.injEq, Prod.mk.injEq] at hx
    exact Or.inr ⟨a, fr, rfl, hfr, hr, h0, hc, hx.1.symm, hx.2.symm⟩

/-! ## The claims -/

/-- C1: for every `int` value `x`, on every machine and with any fuel of at
least one, `f(x).execute()` returns `x`. -/
theorem f_execute_returns (x : Int) (m : Machine) (n : Nat) :
    ∃ m1, f_execute (n + 1) x m = .ok (.ok x, m1) :=
  ⟨_, f_execute_eq n x m⟩

/-- C2, as stated, fails: for the `int` value 46341 the call `g(x).execute()`
returns -2147479015, which is not 46341 * 46341. -/
theorem g_execute_not_square :
    (∃ m1, g_execute 4 46341 Machine.init = .ok (.ok (-2147479015), m1)) ∧
      ¬ ∃ m1, g_execute 4 46341 Machine.init = .ok (.ok (46341 * 46341), m1) := by
  have h := g_execute_eq 0 46341 Machine.init
  have hw : wrap_int (46341 * 46341) = -2147479015 := by decide
  rw [hw] at h
  refine ⟨⟨_, h⟩, ?_⟩
  rintro ⟨m2, h2⟩
  rw [h] at h2
  simp at h2

/-- C2, amended: for every `x` with `-46340 ≤ x ≤ 46340`, on every machine and
with any fuel of at least four, `g(x).execute()` returns `x * x`. -/
theorem g_execute_returns (x : Int) (m : Machine) (n : Nat)
    (h1 : -46340 ≤ x) (h2 : x ≤ 46340) :
    ∃ m1, g_execute (n + 4) x m = .ok (.ok (x * x), m1) := by
  have hs := square_small x h1 h2
  have h := g_execute_eq n x m
  rw [wrap_int_small (x * x) (by omega) hs.2] at h
  exact ⟨_, h⟩

/-- C2, witness: the six inputs -3, -1, 0, 1, 2 and 5 on the empty machine. -/
theorem g_execute_returns_witness :
    ((-46340 : Int) ≤ -3 ∧ (-3 : Int) ≤ 46340 ∧
      ∃ m1, g_execute (0 + 4) (-3) Machine.init = .ok (.ok ((-3) * (-3)), m1)) ∧
    ((-46340 : Int) ≤ -1 ∧ (-1 : Int) ≤ 46340 ∧
      ∃ m1, g_execute (0 + 4) (-1) Machine.init = .ok (.ok ((-1) * (-1)), m1)) ∧
    ((-46340 : Int) ≤ 0 ∧ (0 : Int) ≤ 46340 ∧
      ∃ m1, g_execute (0 + 4) 0 Machine.init = .ok (.ok (0 * 0), m1)) ∧
    ((-46340 : Int) ≤ 1 ∧ (1 : Int) ≤ 46340 ∧
      ∃ m1, g_execute (0 + 4) 1 Machine.init = .ok (.ok (1 * 1), m1)) ∧
    ((-46340 : Int) ≤ 2 ∧ (2 : Int) ≤ 46340 ∧
      ∃ m1, g_execute (0 + 4) 2 Machine.init = .ok (.ok (2 * 2), m1)) ∧
    ((-46340 : Int) ≤ 5 ∧ (5 : Int) ≤ 46340 ∧
      ∃ m1, g_execute (0 + 4) 5 Machine.init = .ok (.ok (5 * 5), m1)) :=
  ⟨⟨by decide, by decide, g_execute_returns (-3) Machine.init 0 (by decide) (by decide)⟩,
    ⟨by decide, by decide, g_execute_returns (-1) Machine.init 0 (by decide) (by decide)⟩,
    ⟨by decide, by decide, g_execute_returns 0 Machine.init 0 (by decide) (by decide)⟩,
    ⟨by decide, by decide, g_execute_returns 1 Machine.init 0 (by decide) (by decide)⟩,
    ⟨by decide, by decide, g_execute_returns 2 Machine.init 0 (by decide) (by decide)⟩,
    ⟨by decide, by decide, g_execute_returns 5 Machine.init 0 (by decide) (by decide)⟩⟩

/-- C3: on a live frame `await_resume` returns `v` when the result holds the
value `v`, raises `e` when it holds the error `e` (moving the exception
pointer out of the variant), raises `std::bad_variant_access` on the empty
result, and returns normally only from the value state; an exception leaving
`execute` is raised by that extraction, after `await_suspend` and the
trampoline have returned normally. -/
theorem await_resume_extracts (m : Machine) (a : Nat) (fr : Frame)
    (h : m.heap a = some fr) :
    (∀ v, fr.result_ = .value v → awaiter.await_resume (.frame a) m = .ok (.ok v, m)) ∧
    (∀ e, fr.result_ = .error (some e) →
      awaiter.await_resume (.frame a) m =
        .ok (.error e, m.set a { fr with result_ := .error none })) ∧
    (fr.result_ = .monostate →
      awaiter.await_resume (.frame a) m = .ok (.error .bad_variant_access, m)) ∧
    (∀ v m1, awaiter.await_resume (.frame a) m = .ok (.ok v, m1) → fr.result_ = .value v) ∧
    (∀ fuel e m1, task.execute fuel { coro_ := .frame a } m = .ok (.error e, m1) →
      ∃ m2 m3, awaiter.await_suspend (.frame a) .noop m = .ok (.frame a, m2) ∧
        coroutine_handle.resume fuel (.frame a) m2 = .ok m3 ∧
        awaiter.await_resume (.frame a) m3 = .ok (.error e, m1)) := by
  refine ⟨?_, ?_, ?_, ?_, ?_⟩
  · intro v hv
    simp [awaiter.await_resume, Machine.deref, bind, Except.bind, h, hv]
  · intro e he
    simp [awaiter.await_resume, Machine.deref, bind, Except.bind, h, he]
  · intro hm
    simp [awaiter.await_resume, Machine.deref, bind, Except.bind, h, hm]
  · intro v m1 hr
    simp only [awaiter.await_resume, Machine.deref, bind, Except.bind, h] at hr
    cases hres : fr.result_ with
    | monostate => simp [hres] at hr
    | value w => simp [hres] at hr; rw [hr.1]
    | error p => cases p <;> simp [hres] at hr
  · intro fuel e m1 hx
    simp only [task.execute, awaiter.await_suspend, Machine.deref, bind, Except.bind, h] at hx
    refine ⟨(m.set a { fr with continuation_ := .noop }).emit (.set_continuation a .noop), ?_⟩
    cases hres : coroutine_handle.resume fuel (.frame a)
        ((m.set a { fr with continuation_ := .noop }).emit (.set_continuation a .noop)) with
    | error f => rw [hres] at hx; simp at hx
    | ok m3 =>
      rw [hres] at hx
      exact ⟨m3, by simp [awaiter.await_suspend, Machine.deref, bind, Except.bind, h],
        rfl, hx⟩

/-- C3, witness: the leaf frame of `sample_leaf_machine` holding the error
`user 3`. -/
theorem await_resume_extracts_witness :
    (sample_leaf_machine (.error (some (.user 3)))).heap 0 =
        some { __resume := none, __destroy := .f, continuation_ := .noop,
               result_ := .error (some (.user 3)), __suspend_point := 1, x := 7,
               __tmp2 := none, __tmp3 := none } ∧
      ∃ m1, awaiter.await_resume (.frame 0) (sample_leaf_machine (.error (some (.user 3)))) =
        .ok (.error (.user 3), m1) :=
  ⟨by simp [sample_leaf_machine],
    ⟨_, (await_resume_extracts (sample_leaf_machine (.error (some (.user 3)))) 0
      { __resume := none, __destroy := .f, continuation_ := .noop,
        result_ := .error (some (.user 3)), __suspend_point := 1, x := 7,
        __tmp2 := none, __tmp3 := none }
      (by simp [sample_leaf_machine])).2.1 (.user 3) rfl⟩⟩

/-- C4: when `g` is paused at suspend point 1 on a leaf frame whose result
holds the error `e`, a call of the resume entry of `g` returns normally with
the continuation of `g` as next handle, has called `unhandled_exception`
with `e`, leaves `g` at suspend point 2 with a null resume entry and the
result `error e`, and the following `await_resume` on `g` raises `e`. -/
theorem g_resume_stores_error (n : Nat) (s b : Nat) (m : Machine) (fr lf : Frame) (e : Exn)
    (h : m.heap s = some fr) (hr : fr.__resume = some .g) (h1 : fr.__suspend_point = 1)
    (ha : fr.__tmp3 = some (.frame b)) (ht : fr.__tmp2 = some { coro_ := .frame b })
    (hb : m.heap b = some lf) (hsb : b ≠ s) (hv : lf.result_ = .error (some e))
    (hd : lf.__destroy = .f) (hsp : lf.__suspend_point = 0 ∨ lf.__suspend_point = 1) :
    ∃ m1 m2, call_resume (n + 1) (.frame s) m = .ok (fr.continuation_, m1) ∧
      m1.heap s = some { fr with __tmp2 := none, result_ := .error (some e),
                                 __suspend_point := 2, __resume := none } ∧
      coroutine_handle.done (.frame s) m1 = .ok true ∧
      m1.log = .leave_resume s fr.continuation_ :: .construct s .tmp4 ::
          .unhandled_exception s e ::
          .leave_destroy b :: .free b .destroy_state ::
          .destroy b (if lf.__suspend_point = 0 then .tmp1 else .tmp4) ::
          .enter_destroy b lf.__suspend_point ::
          .destroy s .tmp2 :: .enter_resume s 1 :: m.log ∧
      awaiter.await_resume (.frame s) m1 = .ok (.error e, m2) := by
  rw [call_resume_g_eq _ s m fr h hr,
    __g_resume_1_error_eq n s b m fr lf e h h1 ha ht hb hsb hv hd hsp]
  refine ⟨_, _, rfl, Function.update_same _ _ _, ?_, rfl,
    await_resume_error_eq _ s _ e (Function.update_same _ _ _) rfl⟩
  simp [coroutine_handle.done]

/-- C4, witness: `sample_paused_machine` with the error `user 3` in the leaf. -/
theorem g_resume_stores_error_witness :
    ∃ m1 m2, call_resume (0 + 1) (.frame 0) (sample_paused_machine (.error (some (.user 3)))) =
        .ok (.noop, m1) ∧
      m1.heap 0 = some { __resume := none, __destroy := .g, continuation_ := .noop,
                         result_ := .error (some (.user 3)), __suspend_point := 2, x := 7,
                         __tmp2 := none, __tmp3 := some (.frame 1) } ∧
      coroutine_handle.done (.frame 0) m1 = .ok true ∧
      m1.log = [.leave_resume 0 .noop, .construct 0 .tmp4, .unhandled_exception 0 (.user 3),
          .leave_destroy 1, .free 1 .destroy_state, .destroy 1 .tmp4, .enter_destroy 1 1,
          .destroy 0 .tmp2, .enter_resume 0 1] ∧
      awaiter.await_resume (.frame 0) m1 = .ok (.error (.user 3), m2) :=
  g_resume_stores_error 0 0 1 (sample_paused_machine (.error (some (.user 3))))
    { __resume := some .g, __destroy := .g, continuation_ := .noop,
      result_ := .monostate, __suspend_point := 1, x := 7,
      __tmp2 := some { coro_ := .frame 1 }, __tmp3 := some (.frame 1) }
    { __resume := none, __destroy := .f, continuation_ := .frame 0,
      result_ := .error (some (.user 3)), __suspend_point := 1, x := 7,
      __tmp2 := none, __tmp3 := none }
    (.user 3) (by simp [sample_paused_machine]) rfl rfl rfl rfl
    (by simp [sample_paused_machine]) (by decide) rfl rfl (Or.inr rfl)

/-- C6: on a live frame `s` the destroy entries do the following and nothing
else (the log gains exactly the listed events, so no result is written and
no resume entry is entered; the heap only loses frames).  `__f_destroy` at
index 0 destroys `__tmp1`, at index 1 `__tmp4`; `__g_destroy` at index 0
destroys `__tmp1`, at index 2 `__tmp4`, and at index 1 `__tmp3` and then
`__tmp2`, whose task destroys the leaf frame it owns; each then deletes the
frame. -/
theorem destroy_entry_slots (n : Nat) (s : Nat) (m : Machine) (fr : Frame)
    (h : m.heap s = some fr) :
    (fr.__suspend_point = 0 → __f_destroy s m = .ok
      { heap := Function.update m.heap s none, next := m.next,
        log := .leave_destroy s :: .free s .destroy_state :: .destroy s .tmp1 ::
          .enter_destroy s 0 :: m.log }) ∧
    (fr.__suspend_point = 1 → __f_destroy s m = .ok
      { heap := Function.update m.heap s none, next := m.next,
        log := .leave_destroy s :: .free s .destroy_state :: .destroy s .tmp4 ::
          .enter_destroy s 1 :: m.log }) ∧
    (fr.__suspend_point = 0 → __g_destroy (coroutine_handle.destroy n) s m = .ok
      { heap := Function.update m.heap s none, next := m.next,
        log := .leave_destroy s :: .free s .destroy_state :: .destroy s .tmp1 ::
          .enter_destroy s 0 :: m.log }) ∧
    (fr.__suspend_point = 2 → __g_destroy (coroutine_handle.destroy n) s m = .ok
      { heap := Function.update m.heap s none, next := m.next,
        log := .leave_destroy s :: .free s .destroy_state :: .destroy s .tmp4 ::
          .enter_destroy s 2 :: m.log }) ∧
    (fr.__suspend_point = 1 → ∀ (b : Nat) (lf : Frame),
      fr.__tmp2 = some { coro_ := .frame b } → m.heap b = some lf → b ≠ s →
      lf.__destroy = .f → lf.__suspend_point = 0 ∨ lf.__suspend_point = 1 →
      __g_destroy (coroutine_handle.destroy (n + 1)) s m = .ok
        { heap := Function.update (Function.update m.heap s none) b none, next := m.next,
          log := .leave_destroy s :: .free s .destroy_state ::
            .leave_destroy b :: .free b .destroy_state ::
            .destroy b (if lf.__suspend_point = 0 then .tmp1 else .tmp4) ::
            .enter_destroy b lf.__suspend_point ::
            .destroy s .tmp2 :: .destroy s .tmp3 :: .enter_destroy s 1 :: m.log }) := by
  refine ⟨fun h0 => ?_, fun h1 => ?_, fun h0 => __g_destroy_0_eq _ s m fr h h0,
    fun h2 => __g_destroy_2_eq _ s m fr h h2,
    fun h1 b lf ht hb hsb hd hsp => __g_destroy_1_eq n s b m fr lf h h1 ht hb hsb hd hsp⟩
  · rw [__f_destroy_eq s m fr h (Or.inl h0)]
    simp [h0]
  · rw [__f_destroy_eq s m fr h (Or.inr h1)]
    simp [h1]

/-- C6, witness: the destroy entry of the frame of `g` at address 0 of
`sample_paused_machine`, paused at index 1 on the leaf at address 1. -/
theorem destroy_entry_slots_witness :
    (sample_paused_machine (.value 7)).heap 0 =
      some { __resume := some .g, __destroy := .g, continuation_ := .noop,
             result_ := .monostate, __suspend_point := 1, x := 7,
             __tmp2 := some { coro_ := .frame 1 }, __tmp3 := some (.frame 1) } ∧
    __g_destroy (coroutine_handle.destroy (0 + 1)) 0 (sample_paused_machine (.value 7)) = .ok
      { heap := Function.update
          (Function.update (sample_paused_machine (.value 7)).heap 0 none) 1 none,
        next := (sample_paused_machine (.value 7)).next,
        log := .leave_destroy 0 :: .free 0 .destroy_state ::
          .leave_destroy 1 :: .free 1 .destroy_state ::
          .destroy 1 (if (1 : Int) = 0 then .tmp1 else .tmp4) :: .enter_destroy 1 1 ::
          .destroy 0 .tmp2 :: .destroy 0 .tmp3 :: .enter_destroy 0 1 ::
          (sample_paused_machine (.value 7)).log } :=
  ⟨by simp [sample_paused_machine],
    (destroy_entry_slots 0 0 (sample_paused_machine (.value 7))
      { __resume := some .g, __destroy := .g, continuation_ := .noop,
        result_ := .monostate, __suspend_point := 1, x := 7,
        __tmp2 := some { coro_ := .frame 1 }, __tmp3 := some (.frame 1) }
      (by simp [sample_paused_machine])).2.2.2.2 rfl 1
      { __resume := none, __destroy := .f, continuation_ := .frame 0,
        result_ := .value 7, __suspend_point := 1, x := 7,
        __tmp2 := none, __tmp3 := none }
      rfl (by simp [sample_paused_machine]) (by decide) rfl (Or.inr rfl)⟩

/-- C7: for every `x`, on every machine and with any fuel of at least two,
calling the resume entry of a new frame of `g(x)` once and then destroying
its task enters `__g_destroy` at index 1, destroys `__tmp3` and `__tmp2`,
enters `__f_destroy` of the leaf at index 0, destroys the leaf's `__tmp1`,
deletes the leaf frame and then the frame of `g`; neither address holds a
frame afterwards and no other address gains one. -/
theorem g_destroy_cascades (x : Int) (m : Machine) (n : Nat) :
    ∃ m1, g_resume_once_destroy (n + 2) x m = .ok m1 ∧
      m1.log = .leave_destroy m.next :: .free m.next .destroy_state ::
          .leave_destroy (m.next + 1) :: .free (m.next + 1) .destroy_state ::
          .destroy (m.next + 1) .tmp1 :: .enter_destroy (m.next + 1) 0 ::
          .destroy m.next .tmp2 :: .destroy m.next .tmp3 :: .enter_destroy m.next 1 ::
          .leave_resume m.next (.frame (m.next + 1)) ::
          .set_continuation (m.next + 1) (.frame m.next) ::
          .construct m.next .tmp3 :: .construct m.next .tmp2 ::
          .construct (m.next + 1) .tmp1 :: .alloc (m.next + 1) .f ::
          .enter_resume m.next 0 ::
          .construct m.next .tmp1 :: .alloc m.next .g :: m.log ∧
      m1.heap m.next = none ∧ m1.heap (m.next + 1) = none ∧
      ∀ c, m.heap c = none → m1.heap c = none := by
  refine ⟨_, g_resume_once_destroy_eq n x m, rfl, ?_, ?_, fun c hc => ?_⟩
  · simp
  · simp [Function.update_apply]
  · simp only [Function.update_apply]
    split_ifs <;> simp [hc]

/-- C8: for every `x`, on every machine and with enough fuel, in each of the
four scenarios (the task of `f(x)` or `g(x)` destroyed right after creation,
or after `execute()`) one frame (two when `g` has run) is allocated, each
allocated frame is deleted exactly once, by a destroy function and never at
the tail of a resume function, and no address holds a new frame afterwards;
the final awaiter is never ready. -/
theorem frames_freed_once (x : Int) (m : Machine) (n : Nat) :
    (∃ m1, f_create_destroy (n + 1) x m = .ok m1 ∧ m1.next = m.next + 1 ∧ freed_once m m1) ∧
    (∃ m1, g_create_destroy (n + 1) x m = .ok m1 ∧ m1.next = m.next + 1 ∧ freed_once m m1) ∧
    (∃ r m1, f_execute_destroy (n + 1) x m = .ok (r, m1) ∧ m1.next = m.next + 1 ∧
      freed_once m m1) ∧
    (∃ r m1, g_execute_destroy (n + 4) x m = .ok (r, m1) ∧ m1.next = m.next + 2 ∧
      freed_once m m1) ∧
    final_awaiter.await_ready = false := by
  refine ⟨⟨_, f_create_destroy_eq n x m, rfl, fun c hc => ?_,
      [.leave_destroy m.next, .free m.next .destroy_state,
      .destroy m.next .tmp1, .enter_destroy m.next 0,
      .construct m.next .tmp1, .alloc m.next .f],
      rfl, fun a => ?_, fun a => ?_, ?_⟩,
    ⟨_, g_create_destroy_eq n x m, rfl, fun c hc => ?_,
      [.leave_destroy m.next, .free m.next .destroy_state,
      .destroy m.next .tmp1, .enter_destroy m.next 0,
      .construct m.next .tmp1, .alloc m.next .g],
      rfl, fun a => ?_, fun a => ?_, ?_⟩,
    ⟨_, _, f_execute_destroy_eq n x m, rfl, fun c hc => ?_,
      [.leave_destroy m.next, .free m.next .destroy_state,
      .destroy m.next .tmp4, .enter_destroy m.next 1,
      .leave_resume m.next .noop, .construct m.next .tmp4,
      .return_value m.next x, .enter_resume m.next 0,
      .set_continuation m.next .noop,
      .construct m.next .tmp1, .alloc m.next .f],
      rfl, fun a => ?_, fun a => ?_, ?_⟩,
    ⟨_, _, g_execute_destroy_eq n x m, rfl, fun c hc => ?_,
      [.leave_destroy m.next, .free m.next .destroy_state,
      .destroy m.next .tmp4, .enter_destroy m.next 2,
      .leave_resume m.next .noop, .construct m.next .tmp4,
      .return_value m.next (wrap_int (x * x)),
      .leave_destroy (m.next + 1), .free (m.next + 1) .destroy_state,
      .destroy (m.next + 1) .tmp4, .enter_destroy (m.next + 1) 1,
      .destroy m.next .tmp2, .enter_resume m.next 1,
      .leave_resume (m.next + 1) (.frame m.next), .construct (m.next + 1) .tmp4,
      .return_value (m.next + 1) x, .enter_resume (m.next + 1) 0,
      .leave_resume m.next (.frame (m.next + 1)),
      .set_continuation (m.next + 1) (.frame m.next),
      .construct m.next .tmp3, .construct m.next .tmp2,
      .construct (m.next + 1) .tmp1, .alloc (m.next + 1) .f,
      .enter_resume m.next 0, .set_continuation m.next .noop,
      .construct m.next .tmp1, .alloc m.next .g],
      rfl, fun a => ?_, fun a => ?_, ?_⟩, rfl⟩
  all_goals
    first
    | (simp only [Function.update_apply]
       split_ifs <;> simp [hc])
    | (simp [allocs, frees, List.countP_cons]
       split_ifs <;> omega)
    | simp [allocs, frees, List.countP_cons]
    | simp [resume_tail_frees, List.countP_cons]

/-- C9, as stated, fails: when `f(7)` is executed and its task destroyed,
`__tmp1` of the frame has had one `construct_from` call and no `destroy`
call. -/
theorem tmp1_destroy_missing :
    ∃ r m1, f_execute_destroy 1 7 Machine.init = .ok (r, m1) ∧
      constructs 0 .tmp1 m1.log = 1 ∧ destroys 0 .tmp1 m1.log = 0 :=
  ⟨_, _, f_execute_destroy_eq 0 7 Machine.init,
    by simp [constructs, List.countP_cons, Machine.init],
    by simp [destroys, List.countP_cons, Machine.init]⟩

/-- C9, amended: for every `x`, on every machine and with enough fuel, the
`construct_from` and `destroy` calls on every slot of every frame balance
when the task is destroyed right after creation; after a resume entry has run
past a trivially destructible slot (`__tmp1` of a resumed frame, `__tmp3` of
a frame of `g` resumed at index 1) that slot has one `construct_from` call
and no `destroy` call, and all other slots balance: this is so when the
task is executed and then destroyed, and when `g` is cancelled while paused
at index 1 with the leaf at index 0 or at its final suspend point. -/
theorem slot_calls_balance (x : Int) (m : Machine) (n : Nat) :
    (∃ m1, f_create_destroy (n + 1) x m = .ok m1 ∧ slots_balanced m m1 []) ∧
    (∃ m1, g_create_destroy (n + 1) x m = .ok m1 ∧ slots_balanced m m1 []) ∧
    (∃ r m1, f_execute_destroy (n + 1) x m = .ok (r, m1) ∧
      slots_balanced m m1 [(m.next, .tmp1)]) ∧
    (∃ r m1, g_execute_destroy (n + 4) x m = .ok (r, m1) ∧
      slots_balanced m m1 [(m.next, .tmp1), (m.next, .tmp3), (m.next + 1, .tmp1)]) ∧
    (∃ m1, g_resume_once_destroy (n + 2) x m = .ok m1 ∧
      slots_balanced m m1 [(m.next, .tmp1)]) ∧
    (∃ m1, g_resume_twice_destroy (n + 2) x m = .ok m1 ∧
      slots_balanced m m1 [(m.next, .tmp1), (m.next + 1, .tmp1)]) := by
  refine ⟨⟨_, f_create_destroy_eq n x m, by simp [Slot.trivially_destructible],
      [.leave_destroy m.next, .free m.next .destroy_state,
      .destroy m.next .tmp1, .enter_destroy m.next 0,
      .construct m.next .tmp1, .alloc m.next .f],
      rfl, fun a s => ?_⟩,
    ⟨_, g_create_destroy_eq n x m, by simp [Slot.trivially_destructible],
      [.leave_destroy m.next, .free m.next .destroy_state,
      .destroy m.next .tmp1, .enter_destroy m.next 0,
      .construct m.next .tmp1, .alloc m.next .g],
      rfl, fun a s => ?_⟩,
    ⟨_, _, f_execute_destroy_eq n x m, by simp [Slot.trivially_destructible],
      [.leave_destroy m.next, .free m.next .destroy_state,
      .destroy m.next .tmp4, .enter_destroy m.next 1,
      .leave_resume m.next .noop, .construct m.next .tmp4,
      .return_value m.next x, .enter_resume m.next 0,
      .set_continuation m.next .noop,
      .construct m.next .tmp1, .alloc m.next .f],
      rfl, fun a s => ?_⟩,
    ⟨_, _, g_execute_destroy_eq n x m, by simp [Slot.trivially_destructible],
      [.leave_destroy m.next, .free m.next .destroy_state,
      .destroy m.next .tmp4, .enter_destroy m.next 2,
      .leave_resume m.next .noop, .construct m.next .tmp4,
      .return_value m.next (wrap_int (x * x)),
      .leave_destroy (m.next + 1), .free (m.next + 1) .destroy_state,
      .destroy (m.next + 1) .tmp4, .enter_destroy (m.next + 1) 1,
      .destroy m.next .tmp2, .enter_resume m.next 1,
      .leave_resume (m.next + 1) (.frame m.next), .construct (m.next + 1) .tmp4,
      .return_value (m.next + 1) x, .enter_resume (m.next + 1) 0,
      .leave_resume m.next (.frame (m.next + 1)),
      .set_continuation (m.next + 1) (.frame m.next),
      .construct m.next .tmp3, .construct m.next .tmp2,
      .construct (m.next + 1) .tmp1, .alloc (m.next + 1) .f,
      .enter_resume m.next 0, .set_continuation m.next .noop,
      .construct m.next .tmp1, .alloc m.next .g],
      rfl, fun a s => ?_⟩,
    ⟨_, g_resume_once_destroy_eq n x m, by simp [Slot.trivially_destructible],
      [.leave_destroy m.next, .free m.next .destroy_state,
      .leave_destroy (m.next + 1), .free (m.next + 1) .destroy_state,
      .destroy (m.next + 1) .tmp1, .enter_destroy (m.next + 1) 0,
      .destroy m.next .tmp2, .destroy m.next .tmp3, .enter_destroy m.next 1,
      .leave_resume m.next (.frame (m.next + 1)),
      .set_continuation (m.next + 1) (.frame m.next),
      .construct m.next .tmp3, .construct m.next .tmp2,
      .construct (m.next + 1) .tmp1, .alloc (m.next + 1) .f,
      .enter_resume m.next 0,
      .construct m.next .tmp1, .alloc m.next .g],
      rfl, fun a s => ?_⟩,
    ⟨_, g_resume_twice_destroy_eq n x m, by simp [Slot.trivially_destructible],
      [.leave_destroy m.next, .free m.next .destroy_state,
      .leave_destroy (m.next + 1), .free (m.next + 1) .destroy_state,
      .destroy (m.next + 1) .tmp4, .enter_destroy (m.next + 1) 1,
      .destroy m.next .tmp2, .destroy m.next .tmp3, .enter_destroy m.next 1,
      .leave_resume (m.next + 1) (.frame m.next), .construct (m.next + 1) .tmp4,
      .return_value (m.next + 1) x, .enter_resume (m.next + 1) 0,
      .leave_resume m.next (.frame (m.next + 1)),
      .set_continuation (m.next + 1) (.frame m.next),
      .construct m.next .tmp3, .construct m.next .tmp2,
      .construct (m.next + 1) .tmp1, .alloc (m.next + 1) .f,
      .enter_resume m.next 0,
      .construct m.next .tmp1, .alloc m.next .g],
      rfl, fun a s => ?_⟩⟩
  all_goals
    cases s <;> simp [constructs, destroys, List.countP_cons] <;>
      (split_ifs <;> omega)

/-- C10, as stated, fails: a second `execute()` on the task of `f(7)` calls
through the null resume entry of the frame at address 0, which is done. -/
theorem second_execute_resumes_done :
    (∃ w, run_ops 4 [.call_f 7, .execute 0] World.init = .ok w ∧ w.task_done 0 = true) ∧
      run_ops 4 [.call_f 7, .execute 0, .execute 0] World.init = .error (.resume_null 0) := by
  constructor
  · exact ⟨_, rfl, rfl⟩
  · rfl

/-- C10, amended: for every fuel and every sequence of public operations
(`f(x)`, `g(x)`, `execute`, move construction, move assignment, destruction)
run from the empty machine in which `execute` is only called on a task whose
frame is not done, the run never calls through the null resume entry of a
done frame. -/
theorem no_resume_after_done (fuel : Nat) (ops : List Op)
    (h : executes_once fuel ops World.init) (a : Nat) :
    run_ops fuel ops World.init ≠ .error (.resume_null a) :=
  run_ops_rest fuel ops World.init rest_init h a

/-- C10, witness: two tasks are created, moved around and each executed once. -/
theorem no_resume_after_done_witness :
    executes_once 4 [.call_g 3, .call_f 5, .execute 0, .move_construct 1, .execute 2,
        .move_assign 0 2, .destruct 0, .destruct 1, .destruct 2] World.init ∧
      run_ops 4 [.call_g 3, .call_f 5, .execute 0, .move_construct 1, .execute 2,
        .move_assign 0 2, .destruct 0, .destruct 1, .destruct 2] World.init ≠
        .error (.resume_null 0) :=
  have h : executes_once 4 [.call_g 3, .call_f 5, .execute 0, .move_construct 1, .execute 2,
      .move_assign 0 2, .destruct 0, .destruct 1, .destruct 2] World.init := by
    refine executes_once_cons rfl (fun i h => by cases h) ?_
    refine executes_once_cons rfl (fun i h => by cases h) ?_
    refine executes_once_cons rfl (fun i h => by cases h; rfl) ?_
    refine executes_once_cons rfl (fun i h => by cases h) ?_
    refine executes_once_cons rfl (fun i h => by cases h; rfl) ?_
    refine executes_once_cons rfl (fun i h => by cases h) ?_
    refine executes_once_cons rfl (fun i h => by cases h) ?_
    refine executes_once_cons rfl (fun i h => by cases h) ?_
    refine executes_once_cons rfl (fun i h => by cases h) ?_
    exact True.intro
  ⟨h, no_resume_after_done 4 _ h 0⟩

/-- C11: the awaiter of a task is never ready, and `await_suspend` with the
awaiting handle `h` on the awaiter of a task owning the live frame `a`
returns the handle of `a` and changes nothing but the continuation of `a`,
which becomes `h`: result, suspend index and resume entry are as before. -/
theorem await_suspend_sets_continuation (m : Machine) (a : Nat) (fr : Frame) (h : Ptr)
    (hm : m.heap a = some fr) :
    awaiter.await_ready = false ∧
    ∃ m1 fr1, awaiter.await_suspend (task.co_await { coro_ := .frame a }) h m =
        .ok (.frame a, m1) ∧
      m1.heap a = some fr1 ∧ fr1.continuation_ = h ∧ fr1.result_ = fr.result_ ∧
      fr1.__suspend_point = fr.__suspend_point ∧ fr1.__resume = fr.__resume ∧
      fr1 = { fr with continuation_ := h } ∧
      (∀ b, b ≠ a → m1.heap b = m.heap b) ∧ m1.next = m.next ∧
      m1.log = .set_continuation a h :: m.log := by
  refine ⟨rfl, (m.set a { fr with continuation_ := h }).emit (.set_continuation a h),
    { fr with continuation_ := h }, ?_, Function.update_same _ _ _, rfl, rfl,
    rfl, rfl, rfl, fun b hb => Function.update_noteq hb _ _, rfl, rfl⟩
  simp [awaiter.await_suspend, task.co_await, Machine.deref, Machine.set, Machine.emit,
    bind, Except.bind, hm]

/-- C11, witness: the handle of frame 5 awaits the leaf of
`sample_leaf_machine`. -/
theorem await_suspend_sets_continuation_witness :
    (sample_leaf_machine (.value 7)).heap 0 =
      some { __resume := none, __destroy := .f, continuation_ := .noop,
             result_ := .value 7, __suspend_point := 1, x := 7,
             __tmp2 := none, __tmp3 := none } ∧
    ∃ m1, awaiter.await_suspend (task.co_await { coro_ := .frame 0 }) (.frame 5)
        (sample_leaf_machine (.value 7)) = .ok (.frame 0, m1) ∧
      m1.heap 0 = some { __resume := none, __destroy := .f, continuation_ := .frame 5,
                         result_ := .value 7, __suspend_point := 1, x := 7,
                         __tmp2 := none, __tmp3 := none } := by
  have h0 : (sample_leaf_machine (.value 7)).heap 0 =
      some { __resume := none, __destroy := .f, continuation_ := .noop,
             result_ := .value 7, __suspend_point := 1, x := 7,
             __tmp2 := none, __tmp3 := none } := by
    simp [sample_leaf_machine]
  obtain ⟨_, m1, fr1, h1, h2, _, _, _, _, h3, _⟩ :=
    await_suspend_sets_continuation (sample_leaf_machine (.value 7)) 0 _ (.frame 5) h0
  exact ⟨h0, m1, h1, by rw [h2, h3]⟩

/-- C12: for every `x` and every machine, the ramps `f(x)` and `g(x)` return
a task for a new frame at the bump pointer which has suspend index 0, a
non-null resume entry (`done()` is false), an empty result and the argument
copy `x`; one frame has been allocated, `__tmp1` has been constructed and no
resume entry has been entered, so `g(x)` has not created the leaf. -/
theorem ramp_runs_no_body (x : Int) (m : Machine) (fuel : Nat) :
    (∃ m1 fr, f x m = .ok ({ coro_ := .frame m.next }, m1) ∧
      m1.heap m.next = some fr ∧ fr.__suspend_point = 0 ∧
      coroutine_handle.done (.frame m.next) m1 = .ok false ∧
      fr.result_ = .monostate ∧ fr.x = x ∧ m1.next = m.next + 1 ∧
      (∀ b, b ≠ m.next → m1.heap b = m.heap b) ∧
      m1.log = .construct m.next .tmp1 :: .alloc m.next .f :: m.log) ∧
    (∃ m1 fr, g fuel x m = .ok ({ coro_ := .frame m.next }, m1) ∧
      m1.heap m.next = some fr ∧ fr.__suspend_point = 0 ∧
      coroutine_handle.done (.frame m.next) m1 = .ok false ∧
      fr.result_ = .monostate ∧ fr.x = x ∧ m1.next = m.next + 1 ∧
      (∀ b, b ≠ m.next → m1.heap b = m.heap b) ∧
      m1.log = .construct m.next .tmp1 :: .alloc m.next .g :: m.log) := by
  refine ⟨⟨_, _, f_eq x m, Function.update_same _ _ _, rfl, ?_, rfl, rfl, rfl,
      fun b hb => Function.update_noteq hb _ _, rfl⟩,
    ⟨_, _, g_eq fuel x m, Function.update_same _ _ _, rfl, ?_, rfl, rfl, rfl,
      fun b hb => Function.update_noteq hb _ _, rfl⟩⟩
  · simp [coroutine_handle.done]
  · simp [coroutine_handle.done]

/-- C13, as stated, fails: a guard over `__tmp1`, whose type
`std::suspend_always` is trivially destructible, that is not cancelled
leaves the machine as it is when its scope ends, with no `destroy` call on
the slot, while a call of the slot's `destroy` would add one to the log. -/
theorem trivial_guard_destroys_nothing :
    destructor_guard.scope_exit .tmp1 (manual_lifetime.destroy 0 .tmp1 id) false
        sample_created_machine = .ok sample_created_machine ∧
      destroys 0 .tmp1 sample_created_machine.log = 0 ∧
      ∃ m1, manual_lifetime.destroy 0 .tmp1 id sample_created_machine = .ok m1 ∧
        destroys 0 .tmp1 m1.log = 1 := by
  refine ⟨rfl, by simp [destroys, sample_created_machine, List.countP_cons], _, rfl, ?_⟩
  simp [destroys, sample_created_machine, Machine.set, Machine.emit, List.countP_cons]

/-- C13, amended: over a slot whose type is not trivially destructible the
guard calls the slot's `destroy` exactly once at the end of its scope when
`cancel` was not called, and not at all when it was; over a slot of
trivially destructible type the guard never calls `destroy`. -/
theorem guard_destroys_unless_cancelled (s : Slot)
    (ptr_destroy : Machine → Except Fault Machine) (a : Nat) (m : Machine) :
    (s.trivially_destructible = false →
      destructor_guard.scope_exit s ptr_destroy false m = ptr_destroy m ∧
      destructor_guard.scope_exit s ptr_destroy true m = .ok m ∧
      (∃ m1, destructor_guard.scope_exit s (fun m => .ok (m.emit (.destroy a s))) false m =
          .ok m1 ∧ destroys a s m1.log = destroys a s m.log + 1) ∧
      (∃ m1, destructor_guard.scope_exit s (fun m => .ok (m.emit (.destroy a s))) true m =
          .ok m1 ∧ destroys a s m1.log = destroys a s m.log)) ∧
    (s.trivially_destructible = true →
      ∀ cancelled, destructor_guard.scope_exit s ptr_destroy cancelled m = .ok m) := by
  constructor
  · intro hs
    refine ⟨?_, ?_, ⟨m.emit (.destroy a s), ?_, ?_⟩, ⟨m, ?_, rfl⟩⟩
    · simp [destructor_guard.scope_exit, destructor_guard.dtor, hs]
    · simp [destructor_guard.scope_exit, destructor_guard.dtor, hs]
    · simp only [destructor_guard.scope_exit, destructor_guard.dtor, hs]
      rfl
    · simp [destroys, Machine.emit, List.countP_cons]
    · simp [destructor_guard.scope_exit, destructor_guard.dtor, hs]
  · intro hs cancelled
    simp [destructor_guard.scope_exit, destructor_guard_trivial.dtor, hs]

/-- C14: on every well-formed machine, for every handle and every fuel, a
run of the trampoline `coroutine_handle::resume` that returns has only added
events to the log in which every resume function that was entered has
returned and at no moment more than one resume function was entered and not
yet left: a resume entry is never called from inside a resume entry, however
many frames the trampoline runs through. -/
theorem resume_never_nests (fuel : Nat) (p : Ptr) (m m1 : Machine) (hm : m.ok)
    (hx : coroutine_handle.resume fuel p m = .ok m1) :
    ∃ new, m1.log = new ++ m.log ∧ resume_depth new = 0 ∧ max_resume_depth new ≤ 1 :=
  resume_blocks fuel p m m1 hm hx

/-- C14, witness: the trampoline on the new frame of `g` of
`sample_composed_machine` runs through `g`, the leaf and `g` again. -/
theorem resume_never_nests_witness :
    sample_composed_machine.ok ∧
    ∃ m1, coroutine_handle.resume 4 (.frame 0) sample_composed_machine = .ok m1 ∧
      entered_frames m1.log = [0, 1, 0] ∧
      ∃ new, m1.log = new ++ sample_composed_machine.log ∧ resume_depth new = 0 ∧
        max_resume_depth new ≤ 1 :=
  have h : ∃ m1, coroutine_handle.resume 4 (.frame 0) sample_composed_machine = .ok m1 ∧
      entered_frames m1.log = [0, 1, 0] := ⟨_, rfl, rfl⟩
  ⟨sample_composed_ok, h.choose, h.choose_spec.1, h.choose_spec.2,
    resume_never_nests 4 (.frame 0) sample_composed_machine h.choose sample_composed_ok
      h.choose_spec.1⟩

/-- C15: for every `x`, on every machine, the trampoline of
`f(x).execute()` returns with any fuel of at least one after entering the
resume function of the frame of `f` once, which returns the no-op handle;
that of `g(x).execute()` returns with any fuel of at least four after
entering the resume functions of `g`, of the leaf and of `g` again, which
return the handle of the leaf, the handle of `g` and the no-op handle. -/
theorem trampoline_order (x : Int) (m : Machine) (n : Nat) :
    (∃ r m1 new, f_execute (n + 1) x m = .ok (r, m1) ∧ m1.log = new ++ m.log ∧
      .alloc m.next .f ∈ new ∧ entered_frames new = [m.next] ∧
      returned_handles new = [.noop]) ∧
    (∃ r m1 new, g_execute (n + 4) x m = .ok (r, m1) ∧ m1.log = new ++ m.log ∧
      .alloc m.next .g ∈ new ∧ .alloc (m.next + 1) .f ∈ new ∧
      entered_frames new = [m.next, m.next + 1, m.next] ∧
      returned_handles new = [.frame (m.next + 1), .frame m.next, .noop]) := by
  refine ⟨⟨_, _, [.leave_resume m.next .noop, .construct m.next .tmp4,
      .return_value m.next x, .enter_resume m.next 0,
      .set_continuation m.next .noop,
      .construct m.next .tmp1, .alloc m.next .f],
      f_execute_eq n x m, rfl, ?_, ?_, ?_⟩,
    ⟨_, _, [.leave_resume m.next .noop, .construct m.next .tmp4,
      .return_value m.next (wrap_int (x * x)),
      .leave_destroy (m.next + 1), .free (m.next + 1) .destroy_state,
      .destroy (m.next + 1) .tmp4, .enter_destroy (m.next + 1) 1,
      .destroy m.next .tmp2, .enter_resume m.next 1,
      .leave_resume (m.next + 1) (.frame m.next), .construct (m.next + 1) .tmp4,
      .return_value (m.next + 1) x, .enter_resume (m.next + 1) 0,
      .leave_resume m.next (.frame (m.next + 1)),
      .set_continuation (m.next + 1) (.frame m.next),
      .construct m.next .tmp3, .construct m.next .tmp2,
      .construct (m.next + 1) .tmp1, .alloc (m.next + 1) .f,
      .enter_resume m.next 0, .set_continuation m.next .noop,
      .construct m.next .tmp1, .alloc m.next .g],
      g_execute_eq n x m, rfl, ?_, ?_, ?_, ?_⟩⟩
  all_goals simp [entered_frames, returned_handles]

/-- C16: in the statements `task t = g(x); t.execute();` the trampoline makes
three calls, on the frame of `g`, on the leaf and on the frame of `g` again,
each on the handle and the machine the call before returned.  The first call
finds the frame of `g` at index 0.  Every call on the frame of `g` that finds
it at index 1 finds the leaf it awaits (the frame of `__tmp2` and `__tmp3`)
done: the resume pointer of the leaf is null, its index is 1, its result is
the value `x` and its continuation is the handle of `g`; and the third call is
such a call. -/
theorem g_resumes_after_leaf_done (x : Int) (m : Machine) (n : Nat) :
    ∃ m0 m1 m2 fr0 fr2,
      g_execute_calls (n + 4) x m =
        [(.frame m.next, m0), (.frame (m.next + 1), m1), (.frame m.next, m2)] ∧
      call_resume (n + 3) (.frame m.next) m0 = .ok (.frame (m.next + 1), m1) ∧
      call_resume (n + 2) (.frame (m.next + 1)) m1 = .ok (.frame m.next, m2) ∧
      m0.heap m.next = some fr0 ∧ fr0.__suspend_point = 0 ∧
      m2.heap m.next = some fr2 ∧ fr2.__suspend_point = 1 ∧
      (∀ c ∈ g_execute_calls (n + 4) x m, ∀ fr, c.1 = .frame m.next →
        c.2.heap m.next = some fr → fr.__suspend_point = 1 →
        fr.__tmp2 = some { coro_ := .frame (m.next + 1) } ∧
        fr.__tmp3 = some (.frame (m.next + 1)) ∧
        coroutine_handle.done (.frame (m.next + 1)) c.2 = .ok true ∧
        ∃ lf, c.2.heap (m.next + 1) = some lf ∧ lf.__resume = none ∧
          lf.__suspend_point = 1 ∧ lf.result_ = .value x ∧
          lf.continuation_ = .frame m.next) := by
  obtain ⟨m1, m2, hc, e1, e2, h2, h3⟩ := resume_calls_g_eq n m.next
    { heap := Function.update m.heap m.next
        (some { __resume := some .g, __destroy := .g, continuation_ := .noop,
                result_ := .monostate, __suspend_point := 0, x := x,
                __tmp2 := none, __tmp3 := none }),
      next := m.next + 1,
      log := .set_continuation m.next .noop :: .construct m.next .tmp1 ::
        .alloc m.next .g :: m.log }
    { __resume := some .g, __destroy := .g, continuation_ := .noop,
      result_ := .monostate, __suspend_point := 0, x := x,
      __tmp2 := none, __tmp3 := none }
    (Function.update_same _ _ _) rfl rfl rfl (Nat.ne_of_lt (Nat.lt_succ_self _))
  refine ⟨_, m1, m2, _, _, ?_, e1, e2, Function.update_same _ _ _, rfl, h2, rfl, ?_⟩
  · rw [g_execute_calls_eq, hc]
  · rw [g_execute_calls_eq, hc]
    intro c hcm fr hp hh hi
    simp only [List.mem_cons, List.mem_singleton, List.not_mem_nil, or_false] at hcm
    rcases hcm with rfl | rfl | rfl
    · simp at hh
      subst hh
      simp at hi
    · simp at hp
    · simp only at hh
      rw [h2] at hh
      cases hh
      refine ⟨rfl, rfl, ?_, _, h3, rfl, rfl, rfl, rfl⟩
      simp [coroutine_handle.done, Machine.deref, h3, bind, Except.bind]

/-- C19: in the statements `task t = f(x); t.execute();` and
`task t = g(x); t.execute();`, on every machine, the continuation of every
frame is written at most once and every entry into the resume function of a
frame comes after the write of the continuation of that frame: the frame the
task owns has its continuation written once, with the no-op handle, and the
leaf that `g` creates has its continuation written once, with the handle of
the frame of `g`. -/
theorem continuation_written_once (x : Int) (m : Machine) (n : Nat) :
    (∃ r m1 new, f_execute (n + 1) x m = .ok (r, m1) ∧ m1.log = new ++ m.log ∧
      (∀ a, continuation_writes a new ≤ 1) ∧
      (∀ a, continuation_set_before_resume a new = true) ∧
      continuation_writes m.next new = 1 ∧ .set_continuation m.next .noop ∈ new ∧
      entered_frames new = [m.next]) ∧
    (∃ r m1 new, g_execute (n + 4) x m = .ok (r, m1) ∧ m1.log = new ++ m.log ∧
      (∀ a, continuation_writes a new ≤ 1) ∧
      (∀ a, continuation_set_before_resume a new = true) ∧
      continuation_writes m.next new = 1 ∧ .set_continuation m.next .noop ∈ new ∧
      continuation_writes (m.next + 1) new = 1 ∧
      .set_continuation (m.next + 1) (.frame m.next) ∈ new ∧
      entered_frames new = [m.next, m.next + 1, m.next]) := by
  refine ⟨⟨_, _, [.leave_resume m.next .noop, .construct m.next .tmp4,
      .return_value m.next x, .enter_resume m.next 0,
      .set_continuation m.next .noop,
      .construct m.next .tmp1, .alloc m.next .f],
      f_execute_eq n x m, rfl, ?_, ?_, ?_, ?_, ?_⟩,
    ⟨_, _, [.leave_resume m.next .noop, .construct m.next .tmp4,
      .return_value m.next (wrap_int (x * x)),
      .leave_destroy (m.next + 1), .free (m.next + 1) .destroy_state,
      .destroy (m.next + 1) .tmp4, .enter_destroy (m.next + 1) 1,
      .destroy m.next .tmp2, .enter_resume m.next 1,
      .leave_resume (m.next + 1) (.frame m.next), .construct (m.next + 1) .tmp4,
      .return_value (m.next + 1) x, .enter_resume (m.next + 1) 0,
      .leave_resume m.next (.frame (m.next + 1)),
      .set_continuation (m.next + 1) (.frame m.next),
      .construct m.next .tmp3, .construct m.next .tmp2,
      .construct (m.next + 1) .tmp1, .alloc (m.next + 1) .f,
      .enter_resume m.next 0, .set_continuation m.next .noop,
      .construct m.next .tmp1, .alloc m.next .g],
      g_execute_eq n x m, rfl, ?_, ?_, ?_, ?_, ?_, ?_, ?_⟩⟩
  · intro a
    simp only [continuation_writes, List.countP_cons, List.countP_nil]
    split_ifs <;> simp_all
  · intro a
    simp [continuation_set_before_resume, continuation_writes, List.countP_cons]
    split_ifs <;> simp_all
  · simp [continuation_writes, List.countP_cons]
  · simp
  · simp [entered_frames]
  · intro a
    simp only [continuation_writes, List.countP_cons, List.countP_nil]
    split_ifs <;> simp_all
  · intro a
    simp [continuation_set_before_resume, continuation_writes, List.countP_cons]
    split_ifs <;> simp_all
  · simp [continuation_writes, List.countP_cons]
  · simp
  · simp [continuation_writes, List.countP_cons]
  · simp
  · simp [entered_frames]

/-- C22: with `int` of 32 bits, the exact square of `x` lies in the range of
`int` exactly when `-46340 ≤ x ≤ 46340`.  On every machine and with any fuel
of at least four, `g(x).execute()` returns the product `fx * fx` as `int`
arithmetic computes it, the value passed to `return_value`; for
`-46340 ≤ x ≤ 46340` the product does not overflow and this is the exact
square of `x`; for `x < -46340` or `46340 < x` the exact square exceeds
`INT_MAX` and differs from what is returned.  So `g(x).execute()` returns the
exact square exactly under the bound. -/
theorem square_exact_within_bound (x : Int) (m : Machine) (n : Nat) :
    ((INT_MIN ≤ x * x ∧ x * x ≤ INT_MAX) ↔ (-46340 ≤ x ∧ x ≤ 46340)) ∧
    (∃ m1, g_execute (n + 4) x m = .ok (.ok (wrap_int (x * x)), m1) ∧
      .return_value m.next (wrap_int (x * x)) ∈ m1.log ∧
      INT_MIN ≤ wrap_int (x * x) ∧ wrap_int (x * x) ≤ INT_MAX) ∧
    (-46340 ≤ x ∧ x ≤ 46340 → wrap_int (x * x) = x * x) ∧
    (x < -46340 ∨ 46340 < x → INT_MAX < x * x ∧ wrap_int (x * x) ≠ x * x) ∧
    ((∃ m1, g_execute (n + 4) x m = .ok (.ok (x * x), m1)) ↔ (-46340 ≤ x ∧ x ≤ 46340)) := by
  have hsmall : -46340 ≤ x ∧ x ≤ 46340 → wrap_int (x * x) = x * x := fun h => by
    have hs := square_small x h.1 h.2
    exact wrap_int_small (x * x) (by omega) hs.2
  have hlarge : x < -46340 ∨ 46340 < x → INT_MAX < x * x ∧ wrap_int (x * x) ≠ x * x :=
    fun h => by
      have h1 := square_large x h
      have h2 := (wrap_int_range (x * x)).2
      exact ⟨h1, by omega⟩
  refine ⟨⟨fun h => ?_, fun h => ?_⟩, ⟨_, g_execute_eq n x m, by simp, wrap_int_range _⟩,
    hsmall, hlarge, ⟨fun h => ?_, fun h => ?_⟩⟩
  · by_contra hc
    have := (hlarge (by omega)).1
    omega
  · have hs := square_small x h.1 h.2
    unfold INT_MIN INT_MAX
    omega
  · obtain ⟨m1, h1⟩ := h
    rw [g_execute_eq n x m] at h1
    simp only [Except.ok.injEq, Prod.mk.injEq] at h1
    by_contra hc
    exact (hlarge (by omega)).2 h1.1
  · have h1 := g_execute_eq n x m
    rw [hsmall h] at h1
    exact ⟨_, h1⟩

/-- C21: in the statements `task t = f(x); t.execute();` and
`task t = g(x); t.execute();`, on every machine and with any fuel of at least
one and four, the trampoline makes one call and three calls; each call is
made on the handle of a live frame whose resume pointer is not null, whose
suspend index has a `case` in the `switch` of its resume function (0 in
`__f_resume`; 0 or 1 in `__g_resume`) and whose continuation is not null,
and each call returns a next handle that is not null, the last one the
no-op handle.  The run as a whole returns without a fault; the resume
functions were entered at the indices listed, and the only destroy function
entered is that of the leaf, at its index 1, for which `__f_destroy` has a
`case`. -/
theorem trampoline_calls_defined (x : Int) (m : Machine) (n : Nat) :
    (∃ m0 m1 r new,
      f_execute_calls (n + 1) x m = [(.frame m.next, m0)] ∧
      call_resume n (.frame m.next) m0 = .ok (.noop, m1) ∧
      f_execute (n + 1) x m = .ok (r, m1) ∧ m1.log = new ++ m.log ∧
      resume_entries new = [(m.next, 0)] ∧ destroy_entries new = [] ∧
      ∀ c ∈ f_execute_calls (n + 1) x m, ∃ a fr, c.1 = .frame a ∧ c.2.heap a = some fr ∧
        fr.__resume = some .f ∧ fr.__suspend_point = 0 ∧ fr.continuation_ ≠ .null) ∧
    (∃ m0 m1 m2 m3 r new lf,
      g_execute_calls (n + 4) x m =
        [(.frame m.next, m0), (.frame (m.next + 1), m1), (.frame m.next, m2)] ∧
      call_resume (n + 3) (.frame m.next) m0 = .ok (.frame (m.next + 1), m1) ∧
      call_resume (n + 2) (.frame (m.next + 1)) m1 = .ok (.frame m.next, m2) ∧
      call_resume (n + 1) (.frame m.next) m2 = .ok (.noop, m3) ∧
      g_execute (n + 4) x m = .ok (r, m3) ∧ m3.log = new ++ m.log ∧
      resume_entries new = [(m.next, 0), (m.next + 1, 0), (m.next, 1)] ∧
      destroy_entries new = [(m.next + 1, 1)] ∧
      m2.heap (m.next + 1) = some lf ∧ lf.__destroy = .f ∧
      lf.__destroy.teardown 1 = [.tmp4] ∧
      ∀ c ∈ g_execute_calls (n + 4) x m, ∃ a fr, c.1 = .frame a ∧ c.2.heap a = some fr ∧
        ((fr.__resume = some .f ∧ fr.__suspend_point = 0) ∨
          (fr.__resume = some .g ∧ (fr.__suspend_point = 0 ∨ fr.__suspend_point = 1))) ∧
        fr.continuation_ ≠ .null) := by
  constructor
  · obtain ⟨hc, e1⟩ := f_execute_calls_eq n x m
    refine ⟨_, _, _, [.leave_resume m.next .noop, .construct m.next .tmp4,
      .return_value m.next x, .enter_resume m.next 0,
      .set_continuation m.next .noop,
      .construct m.next .tmp1, .alloc m.next .f], hc, e1, f_execute_eq n x m, rfl, ?_, ?_, ?_⟩
    · simp [resume_entries]
    · simp [destroy_entries]
    · intro c hcm
      rw [hc] at hcm
      simp only [List.mem_singleton] at hcm
      subst hcm
      exact ⟨m.next, _, rfl, Function.update_same _ _ _, rfl, rfl, by simp⟩
  · obtain ⟨m0, m1, m2, m3, hc, e1, e2, e3, h0, h1, h2, h3, hx⟩ := g_execute_calls_run n x m
    have hlog : m3.log = [.leave_resume m.next .noop, .construct m.next .tmp4,
        .return_value m.next (wrap_int (x * x)),
        .leave_destroy (m.next + 1), .free (m.next + 1) .destroy_state,
        .destroy (m.next + 1) .tmp4, .enter_destroy (m.next + 1) 1,
        .destroy m.next .tmp2, .enter_resume m.next 1,
        .leave_resume (m.next + 1) (.frame m.next), .construct (m.next + 1) .tmp4,
        .return_value (m.next + 1) x, .enter_resume (m.next + 1) 0,
        .leave_resume m.next (.frame (m.next + 1)),
        .set_continuation (m.next + 1) (.frame m.next),
        .construct m.next .tmp3, .construct m.next .tmp2,
        .construct (m.next + 1) .tmp1, .alloc (m.next + 1) .f,
        .enter_resume m.next 0, .set_continuation m.next .noop,
        .construct m.next .tmp1, .alloc m.next .g] ++ m.log := by
      have hx2 := g_execute_eq n x m
      rw [hx] at hx2
      simp only [Except.ok.injEq, Prod.mk.injEq, true_and] at hx2
      rw [hx2]
      rfl
    refine ⟨m0, m1, m2, m3, _, _, _, hc, e1, e2, e3, hx, hlog, ?_, ?_, h3, rfl, rfl, ?_⟩
    · simp [resume_entries]
    · simp [destroy_entries]
    · intro c hcm
      rw [hc] at hcm
      simp only [List.mem_cons, List.mem_singleton, List.not_mem_nil, or_false] at hcm
      rcases hcm with rfl | rfl | rfl
      · exact ⟨m.next, _, rfl, h0, Or.inr ⟨rfl, Or.inl rfl⟩, by simp⟩
      · exact ⟨m.next + 1, _, rfl, h1, Or.inl ⟨rfl, rfl⟩, by simp⟩
      · exact ⟨m.next, _, rfl, h2, Or.inr ⟨rfl, Or.inr rfl⟩, by simp⟩

/-- C23: after every sequence of public operations (`f(x)`, `g(x)`, `execute`,
move construction, move assignment, destruction) run from the empty machine,
no frame is referenced by two tasks, be they task objects of the caller or
tasks in `__tmp2` of a frame.  In such a state: move construction from a
live task object leaves the machine as it is, the source with a null handle
and the new object with the handle of the source; a move assignment between
two different objects that returns leaves the destination with the handle of
the source and the source with a null handle, touches no other object, and
has destroyed the frame the destination referenced, which was live, is gone
afterwards and was deleted exactly once (nothing happens to the machine when
the destination was empty); a self move assignment changes nothing.  The
destructor of an empty task calls nothing.  `operator co_await` returns the
handle of the task and leaves the task as it is: after `g(x)` and one call of
its resume entry `__tmp2` still references the leaf that the awaiter in
`__tmp3` refers to, and the destruction of the task of `g` enters the destroy
functions of `g` and of the leaf once each and deletes each frame once. -/
theorem frame_has_one_owner (fuel : Nat) (ops : List Op) (w : World)
    (h : run_ops fuel ops World.init = .ok w) :
    (∀ o1 o2 a, w.owns o1 a → w.owns o2 a → o1 = o2) ∧
    (∀ i t, w.task i = .ok t →
      ∃ w1, run_op fuel (.move_construct i) w = .ok w1 ∧ w1.m = w.m ∧
        w1.task i = .ok { coro_ := .null } ∧
        w1.task w.tasks.length = .ok { coro_ := t.coro_ } ∧
        ∀ o1 o2 a, w1.owns o1 a → w1.owns o2 a → o1 = o2) ∧
    (∀ i j ti tj w1, i ≠ j → w.task i = .ok ti → w.task j = .ok tj →
      run_op fuel (.move_assign i j) w = .ok w1 →
      w1.task i = .ok { coro_ := tj.coro_ } ∧ w1.task j = .ok { coro_ := .null } ∧
      (∀ k, k ≠ i → k ≠ j → w1.tasks[k]? = w.tasks[k]?) ∧
      (ti.coro_ = .null → w1.m = w.m) ∧
      (∀ a, ti.coro_ = .frame a → (∃ fr, w.m.heap a = some fr) ∧ w1.m.heap a = none ∧
        ∃ new, w1.m.log = new ++ w.m.log ∧ frees a new = 1) ∧
      ∀ o1 o2 a, w1.owns o1 a → w1.owns o2 a → o1 = o2) ∧
    (∀ i t, w.task i = .ok t → run_op fuel (.move_assign i i) w = .ok w) ∧
    (∀ (D : Ptr → Machine → Except Fault Machine) (m : Machine),
      task.dtor D { coro_ := .null } m = .ok m) ∧
    (∀ t : task, task.co_await t = t.coro_) ∧
    (∀ (x : Int) (m : Machine) (n : Nat),
      (∃ t m0 p m1 fr, g n x m = .ok (t, m0) ∧ call_resume n t.coro_ m0 = .ok (p, m1) ∧
        m1.heap m.next = some fr ∧ fr.__tmp2 = some { coro_ := .frame (m.next + 1) } ∧
        fr.__tmp3 = some (task.co_await { coro_ := .frame (m.next + 1) })) ∧
      ∃ m2 new, g_resume_once_destroy (n + 2) x m = .ok m2 ∧ m2.log = new ++ m.log ∧
        destroy_entries new = [(m.next, 1), (m.next + 1, 0)] ∧
        frees m.next new = 1 ∧ frees (m.next + 1) new = 1) := by
  have hw : w.wf := run_ops_wf fuel ops World.init w wf_init h
  refine ⟨hw.2.2, fun i t ht => ?_, fun i j ti tj w1 hij hi hj hx => ?_,
    fun i t ht => move_assign_self ht, fun D m => by simp [task.dtor, coroutine_handle.to_bool],
    fun t => rfl, fun x m n => ⟨?_, ?_⟩⟩
  · have hil : i < w.tasks.length := (List.getElem?_eq_some.1 (task_ok ht)).1
    refine ⟨_, move_construct_eq ht, rfl, ?_, ?_, (run_op_wf hw (@move_construct_eq fuel w i t ht)).2.2⟩
    · rw [task_iff]
      simp only
      rw [List.getElem?_append_left (by simpa using hil), List.getElem?_set_self hil]
    · rw [task_iff]
      simp only
      rw [List.getElem?_append_right (by simp)]
      simp
  · have hw1 := run_op_wf hw hx
    have hil : i < w.tasks.length := (List.getElem?_eq_some.1 (task_ok hi)).1
    have hjl : j < w.tasks.length := (List.getElem?_eq_some.1 (task_ok hj)).1
    rw [move_assign_eq hij hi hj] at hx
    cases hd : task.dtor (coroutine_handle.destroy fuel) ti w.m with
    | error e =>
      rw [hd] at hx
      cases hx
    | ok m1 =>
      rw [hd] at hx
      simp only [Except.ok.injEq] at hx
      subst hx
      refine ⟨?_, ?_, fun k hki hkj => ?_, fun hn => ?_, fun a ha => ?_, hw1.2.2⟩
      · rw [task_iff]
        simp only
        rw [List.getElem?_set_self (by simpa using hil)]
      · rw [task_iff]
        simp only
        rw [List.getElem?_set_ne hij, List.getElem?_set_self hjl]
      · simp only
        rw [List.getElem?_set_ne (Ne.symm hki), List.getElem?_set_ne (Ne.symm hkj)]
      · obtain ⟨p⟩ := ti
        simp only at hn
        subst hn
        simp only [task.dtor, coroutine_handle.to_bool] at hd
        simpa using hd.symm
      · obtain ⟨p⟩ := ti
        simp only at ha
        subst ha
        rw [task_dtor_frame] at hd
        obtain ⟨fr, hfr⟩ := destroy_live hd
        obtain ⟨new, hl, hnone, hf⟩ := handle_destroy_frees hfr hd
        exact ⟨⟨fr, hfr⟩, hnone, new, hl, hf⟩
  · refine ⟨_, _, _, _,
      { __resume := some .g, __destroy := .g, continuation_ := .null,
        result_ := .monostate, __suspend_point := 1, x := x,
        __tmp2 := some { coro_ := .frame (m.next + 1) },
        __tmp3 := some (.frame (m.next + 1)) },
      g_eq n x m, g_resume_once_eq n x m, ?_, rfl, rfl⟩
    simp only
    rw [Function.update_noteq (Nat.ne_of_lt (Nat.lt_succ_self _)), Function.update_same]
  · refine ⟨_, [.leave_destroy m.next, .free m.next .destroy_state,
      .leave_destroy (m.next + 1), .free (m.next + 1) .destroy_state,
      .destroy (m.next + 1) .tmp1, .enter_destroy (m.next + 1) 0,
      .destroy m.next .tmp2, .destroy m.next .tmp3, .enter_destroy m.next 1,
      .leave_resume m.next (.frame (m.next + 1)),
      .set_continuation (m.next + 1) (.frame m.next),
      .construct m.next .tmp3, .construct m.next .tmp2,
      .construct (m.next + 1) .tmp1, .alloc (m.next + 1) .f,
      .enter_resume m.next 0,
      .construct m.next .tmp1, .alloc m.next .g], g_resume_once_destroy_eq n x m, rfl,
      ?_, ?_, ?_⟩
    · simp [destroy_entries]
    · simp [frees, List.countP_cons]
    · simp [frees, List.countP_cons]

/-- C23 on a run of two tasks: `f(5)`, `g(3)`, `execute` of the second, move
construction of a third from the first and move assignment of the third to
the second, which destroys the frame of `g`; the second object then holds the
frame of `f`. -/
theorem frame_has_one_owner_witness :
    ∃ w, run_ops 4 [.call_f 5, .call_g 3, .execute 1, .move_construct 0, .move_assign 1 2]
        World.init = .ok w ∧
      w.task 0 = .ok { coro_ := .null } ∧ w.task 1 = .ok { coro_ := .frame 0 } ∧
      w.task 2 = .ok { coro_ := .null } ∧ w.m.heap 1 = none ∧
      (∀ o1 o2 a, w.owns o1 a → w.owns o2 a → o1 = o2) ∧
      run_op 4 (.move_assign 1 1) w = .ok w :=
  have h : ∃ w, run_ops 4 [.call_f 5, .call_g 3, .execute 1, .move_construct 0,
        .move_assign 1 2] World.init = .ok w ∧
      w.task 0 = .ok { coro_ := .null } ∧ w.task 1 = .ok { coro_ := .frame 0 } ∧
      w.task 2 = .ok { coro_ := .null } ∧ w.m.heap 1 = none := ⟨_, rfl, rfl, rfl, rfl, rfl⟩
  ⟨h.choose, h.choose_spec.1, h.choose_spec.2.1, h.choose_spec.2.2.1, h.choose_spec.2.2.2.1,
    h.choose_spec.2.2.2.2,
    (frame_has_one_owner 4 _ h.choose h.choose_spec.1).1,
    (frame_has_one_owner 4 _ h.choose h.choose_spec.1).2.2.2.1 1 _ h.choose_spec.2.2.1⟩

/-- C17: on a well-formed machine, with a free store that has room for
frames only below `cap` (any `cap`: `new` may succeed or fail), every call
of a resume entry that returns leaves its frame live with a strictly larger
suspend index: a frame of `f` goes from 0 to 1; a frame of `g` goes from 0 to
1 when the leaf is allocated, from 1 to 2, or from 0 to 2 when `new` of the
leaf raises `std::bad_alloc`, which the handler stores as the result; and
with a full store the call at index 0 does return and takes that last path.
With room in the store the call is the call on the unbounded store.  No call
of a ramp, a resume entry (bounded or not), a destroy entry or a member of
the awaiter lowers the suspend index of a frame that stays live.  A destroy
entry that returns has called `destroy` on exactly the slots the jump table
lists for the suspend index of the frame, whatever the other fields of the
frame hold, and has deleted the frame. -/
theorem suspend_index_advances (m : Machine) (hm : m.ok) (cap : Nat) :
    (∀ fuel a p1 m1, call_resume_bounded cap fuel (.frame a) m = .ok (p1, m1) →
      ∃ fr fr1, m.heap a = some fr ∧ m1.heap a = some fr1 ∧
        fr.__suspend_point < fr1.__suspend_point ∧ fr1.__destroy = fr.__destroy ∧
        ((fr.__destroy = .f ∧ fr.__suspend_point = 0 ∧ fr1.__suspend_point = 1) ∨
          (fr.__destroy = .g ∧ fr.__suspend_point = 0 ∧ fr1.__suspend_point = 1 ∧
            m.next < cap) ∨
          (fr.__destroy = .g ∧ fr.__suspend_point = 1 ∧ fr1.__suspend_point = 2) ∨
          (fr.__destroy = .g ∧ fr.__suspend_point = 0 ∧ fr1.__suspend_point = 2 ∧
            cap ≤ m.next ∧ fr1.result_ = .error (some .bad_alloc)))) ∧
    (∀ fuel a fr, m.heap a = some fr → fr.__resume = some .g → fr.__suspend_point = 0 →
      cap ≤ m.next →
      ∃ m1 fr1, call_resume_bounded cap fuel (.frame a) m = .ok (fr.continuation_, m1) ∧
        m1.heap a = some fr1 ∧ fr1.__suspend_point = 2 ∧ fr1.__resume = none ∧
        fr1.result_ = .error (some .bad_alloc)) ∧
    (∀ fuel p, m.next < cap → call_resume_bounded cap fuel p m = call_resume fuel p m) ∧
    (∀ m1, (Step m m1 ∨ ∃ fuel p p1, call_resume_bounded cap fuel p m = .ok (p1, m1)) →
      ∀ b fr fr1, m.heap b = some fr → m1.heap b = some fr1 →
        fr.__suspend_point ≤ fr1.__suspend_point) ∧
    (∀ fuel a m1 fr, m.heap a = some fr →
      coroutine_handle.destroy fuel (.frame a) m = .ok m1 →
      ∃ new, m1.log = new ++ m.log ∧ m1.heap a = none ∧
        destroyed_slots a new = fr.__destroy.teardown fr.__suspend_point) := by
  have g_of : ∀ a fr, m.heap a = some fr → fr.__resume = some .g → fr.__destroy = .g := by
    intro a fr hfr hr
    rcases hm.1 a fr hfr with ⟨_, ⟨hf, _⟩ | ⟨hn, _⟩⟩ | ⟨hd, _⟩
    · rw [hr] at hf; cases hf
    · rw [hr] at hn; cases hn
    · exact hd
  refine ⟨fun fuel a p1 m1 hx => ?_, fun fuel a fr hfr hr h0 hc => ?_,
    fun fuel p h => call_resume_bounded_eq cap fuel p m (Or.inl h),
    fun m1 hs b fr fr1 hb hb1 => ?_,
    fun fuel a m1 fr hfr hx => handle_destroy_slots hfr hx⟩
  · rcases call_resume_bounded_cases hx with ⟨hx0, hside⟩ | ⟨a1, fr, hp, hfr, hr, h0, hc, _, h1⟩
    · rcases call_resume_shape hm hx0 with ⟨hp, _⟩ | ⟨a1, fr, hp, hfr, hr⟩
      · cases hp
      · cases hp
        obtain ⟨fr1, h1, hd, hi⟩ := resumed_index hm hfr hr
        refine ⟨fr, fr1, hfr, h1, ?_, hd, ?_⟩
        · rcases hi with ⟨_, h0, h1⟩ | ⟨_, h0, h1⟩ | ⟨_, h0, h1⟩ <;> rw [h0, h1] <;> decide
        · rcases hi with hi | ⟨hg, h0, h1⟩ | hi
          · exact Or.inl hi
          · refine Or.inr (Or.inl ⟨hg, h0, h1, ?_⟩)
            rcases hside with hroom | hlater
            · exact hroom
            · have hrg : fr.__resume = some .g := by
                rcases hm.1 a fr hfr with ⟨hd, _⟩ | ⟨_, ⟨hr, _⟩ | ⟨_, h2⟩⟩
                · rw [hg] at hd; cases hd
                · exact hr
                · rw [h0] at h2; cases h2
              exact absurd h0 (hlater a fr rfl hfr hrg)
          · exact Or.inr (Or.inr (Or.inl hi))
    · cases hp
      subst h1
      exact ⟨fr, _, hfr, Function.update_same _ _ _, by rw [h0]; show (0 : Int) < 2; decide, rfl,
        Or.inr (Or.inr (Or.inr ⟨g_of a fr hfr hr, h0, rfl, hc, rfl⟩))⟩
  · exact ⟨_, _, call_resume_bounded_full cap fuel a m fr hfr hr h0 hc,
      Function.update_same _ _ _, rfl, rfl, rfl⟩
  · rcases hs with hs | ⟨fuel, p, p1, hx⟩
    · exact (moved_index hm (step_moved hm hs) hb hb1).1
    · rcases call_resume_bounded_cases hx with ⟨hx0, _⟩ | ⟨a1, fr0, hp, hfr, hr, h0, hc, _, h1⟩
      · exact (moved_index hm (step_moved hm (Step.resume_entry fuel p p1 hx0)) hb hb1).1
      · subst h1
        simp only [Function.update_apply] at hb1
        split_ifs at hb1 with hba
        · subst hba
          simp only [Option.some.injEq] at hb1
          subst hb1
          rw [hfr] at hb
          cases hb
          rw [h0]
          show (0 : Int) ≤ 2
          decide
        · rw [hb] at hb1
          cases hb1
          exact le_refl _

/-- C17 on `sample_composed_machine`, whose only frame is a frame of `g` at
index 0 and whose bump pointer is 1: with room for the leaf the call of the
resume entry takes the frame to index 1, with a full store it takes it to
index 2 with `std::bad_alloc` as result. -/
theorem suspend_index_advances_witness :
    sample_composed_machine.ok ∧
    (call_resume_bounded 5 4 (.frame 0) sample_composed_machine =
        call_resume 4 (.frame 0) sample_composed_machine ∧
      ∃ p1 m1 fr1, call_resume 4 (.frame 0) sample_composed_machine = .ok (p1, m1) ∧
        m1.heap 0 = some fr1 ∧ fr1.__suspend_point = 1) ∧
    (∃ m1 fr1, call_resume_bounded 1 4 (.frame 0) sample_composed_machine = .ok (.noop, m1) ∧
      m1.heap 0 = some fr1 ∧ fr1.__suspend_point = 2 ∧ fr1.__resume = none ∧
      fr1.result_ = .error (some .bad_alloc)) :=
  ⟨sample_composed_ok,
    ⟨(suspend_index_advances sample_composed_machine sample_composed_ok 5).2.2.1 4 (.frame 0)
        (by decide),
      ⟨_, _, _, rfl, rfl, rfl⟩⟩,
    (suspend_index_advances sample_composed_machine sample_composed_ok 1).2.1 4 0
      { __resume := some .g, __destroy := .g, continuation_ := .noop,
        result_ := .monostate, __suspend_point := 0, x := 7,
        __tmp2 := none, __tmp3 := none } rfl rfl rfl (by decide)⟩

end Coro
